import Mathlib

/-!
# Verification of the MaterialX core graph IR (MaterialXCore/Node.cpp)

A shallow embedding of the connection model, definition/implementation
resolution, topological evaluation ordering and subgraph flattening of the
MaterialX node-graph core, together with proofs about the embedded code.

The embedding follows `source/MaterialXCore/Node.cpp`.  Elements are
modelled structurally; C++ attribute storage ("type", "value",
"interfacename", "nodename") is modelled with `Option String` fields, where
`none` means the attribute is absent (C++ `hasX()` false, `getX()` returning
the empty string).  Connections are stored as the producer's name and are
resolved by name lookup among the children of the port's parent graph, which
is how `PortElement`'s matching and the `getMatchingPorts`-based reverse
queries in the source behave.  Collaborator functionality that is not part
of the source fragment (the element tree, name generation, per-class
upstream-edge counts) is modelled from the spec and marked as such.
-/

namespace MaterialX

/-- The kind of a value-carrying child element of a node: a `parameter`
(value only) or an `input` (connectable).  These are the `ValueElement`
children that `getChildrenOfType<ValueElement>` enumerates; only inputs are
`PortElement`s. -/
inductive PortKind where
  | param : PortKind
  | input : PortKind
deriving DecidableEq, Repr

/-- A value-carrying child element of a node (a `Parameter` or an `Input`).
Fields model the C++ attributes: `type`, `value` (the value string),
`interfaceName` (the "interfacename" attribute) and `nodeName` (the
"nodename" attribute holding a connection's producer name). -/
structure ValueElem where
  kind : PortKind
  name : String
  type : Option String
  value : Option String
  interfaceName : Option String
  nodeName : Option String
deriving DecidableEq, Repr

/-- A node: an operation instance with a category, a declared type and an
ordered list of value-carrying child elements (parameters and inputs). -/
structure Node where
  name : String
  category : String
  type : Option String
  ports : List ValueElem
deriving DecidableEq, Repr

/-- A graph-level `Output` element: a declared output of a node graph.  It
is a port (a `PortElement`), so it can carry a connection. -/
structure Output where
  name : String
  type : Option String
  nodeName : Option String
deriving DecidableEq, Repr

/-- A direct child of a node graph: a node or a declared output. -/
inductive Child where
  | node : Node → Child
  | output : Output → Child
deriving DecidableEq, Repr

/-- A node graph: a named element owning an ordered list of children. -/
structure NodeGraph where
  name : String
  children : List Child
deriving DecidableEq, Repr

/-- The name of a child element. -/
def Child.name : Child → String
  | .node n => n.name
  | .output o => o.name

/-- `isA<Node>` on a child. -/
def Child.isNode : Child → Bool
  | .node _ => true
  | .output _ => false

/-- `getType()` on a node: the attribute string, empty when absent. -/
def Node.getTypeStr (n : Node) : String := n.type.getD ""

/-- `getType()` on a value element: the attribute string, empty when absent. -/
def ValueElem.getTypeStr (v : ValueElem) : String := v.type.getD ""

/-- `getChildOfType<Node>(name)`: the first node child with the given name. -/
def NodeGraph.getNode (g : NodeGraph) (s : String) : Option Node :=
  g.children.findSome? fun c =>
    match c with
    | .node n => if n.name = s then some n else none
    | .output _ => none

/-- The node children of a graph, in declaration order (`getNodes()`). -/
def NodeGraph.getNodes (g : NodeGraph) : List Node :=
  g.children.foldr (fun c acc =>
    match c with
    | .node n => n :: acc
    | .output _ => acc) []

/-- The names of all children, in declaration order. -/
def NodeGraph.childNames (g : NodeGraph) : List String :=
  g.children.map Child.name

/-- `getInput(name)` on a list of value elements: the first input-kind
element with the given name. -/
def findInput (ps : List ValueElem) (nm : String) : Option ValueElem :=
  ps.find? fun v => v.kind = .input ∧ v.name = nm

/-- `getInput(name)` on a node. -/
def Node.getInput (n : Node) (nm : String) : Option ValueElem :=
  findInput n.ports nm

/-- `getInputs()` on a node: its input-kind children, in order. -/
def Node.getInputs (n : Node) : List ValueElem :=
  n.ports.filter fun v => v.kind = .input

/-- `getChildOfType<ValueElement>(name)` on a node: the first value element
(parameter or input) with the given name. -/
def Node.getValueElem (n : Node) (nm : String) : Option ValueElem :=
  n.ports.find? fun v => v.name = nm

/-- `PortElement::getConnectedNode()`: resolve the port's stored producer
name among the node children of the port's parent graph.  Modelled from the
spec: §3 (a connection is "a producer name string (deferred/textual
reference, resolved by lookup)"), §4.3 (ports "resolve-connect" by name);
`PortElement`'s code is not part of the source fragment. -/
def ValueElem.getConnectedNode (v : ValueElem) (g : NodeGraph) : Option Node :=
  v.nodeName.bind g.getNode

/-- `Output::getConnectedNode()`, resolved the same way. -/
def Output.getConnectedNode (o : Output) (g : NodeGraph) : Option Node :=
  o.nodeName.bind g.getNode

/-- Replace the first input-kind element with the given name. -/
def updateFirstInput : List ValueElem → String → (ValueElem → ValueElem) → List ValueElem
  | [], _, _ => []
  | v :: vs, nm, f =>
    if v.kind = .input ∧ v.name = nm then f v :: vs
    else v :: updateFirstInput vs nm f

/-- Apply `f` to the node's input named `nm` (the one `getInput` returns). -/
def Node.updateInputNamed (n : Node) (nm : String) (f : ValueElem → ValueElem) : Node :=
  { n with ports := updateFirstInput n.ports nm f }

/-- A freshly created `Input` child (`addInput(name)`): type unset, no
value, no interface name, no connection.  Modelled from the spec: §4.1
(ports are "created on demand", "type left unset"); `addInput` is not part
of the source fragment. -/
def newInputElem (nm : String) : ValueElem :=
  { kind := .input, name := nm, type := none, value := none,
    interfaceName := none, nodeName := none }

/-- The input created by `addInput` and then typed and bound to producer
`p` (the creation path of `Node::setConnectedNode`). -/
def connectedInputElem (nm : String) (p : Node) : ValueElem :=
  { newInputElem nm with type := some p.getTypeStr, nodeName := some p.name }

/-- `Node::setConnectedNode(inputName, node)` (Node.cpp lines 22-38).
The returned value models the state of the node after the call:
* if no input named `inputName` exists, one is added, and is typed to the
  producer's type when the producer is non-null;
* the binding is written only when the producer is non-null (`if (node)`);
  a null producer leaves an existing input untouched.
`input->setConnectedNode(node)` stores the producer's name (modelled from
the spec, §3/§4.1; `PortElement::setConnectedNode` is not in the source
fragment). -/
def Node.setConnectedNode (n : Node) (inputName : String) (producer : Option Node) : Node :=
  match n.getInput inputName with
  | some _ =>
    match producer with
    | some p => n.updateInputNamed inputName fun v => { v with nodeName := some p.name }
    | none => n
  | none =>
    match producer with
    | some p => { n with ports := n.ports ++ [connectedInputElem inputName p] }
    | none => { n with ports := n.ports ++ [newInputElem inputName] }

/-- `Node::getConnectedNode(inputName)` (Node.cpp lines 40-48). -/
def Node.getConnectedNode (n : Node) (g : NodeGraph) (inputName : String) : Option Node :=
  match n.getInput inputName with
  | none => none
  | some input => input.getConnectedNode g

/-- A directed edge `(downstream node, connecting input, upstream node)`.
The C++ `NULL_EDGE` is modelled as `none` at `Option Edge`. -/
structure Edge where
  downstreamNode : Node
  connectingElem : ValueElem
  upstreamNode : Node
deriving DecidableEq, Repr

/-- `getUpstreamEdgeCount()` on a node: the number of its inputs.
Modelled from the spec: §4.3 ("`getUpstreamEdgeCount(node)` = number of
Input ports"); the accessor lives in Node.h, outside the source fragment. -/
def Node.getUpstreamEdgeCount (n : Node) : Nat := n.getInputs.length

/-- `Node::getUpstreamEdge(material, index)` (Node.cpp lines 109-122): if
`index` is in range and the input at that position resolves to a producer,
the edge `(self, input, producer)`; otherwise the null edge.  The
`material` argument is unused in the source body and is omitted. -/
def Node.getUpstreamEdge (n : Node) (g : NodeGraph) (index : Nat) : Option Edge :=
  match n.getInputs[index]? with
  | some input =>
    match input.getConnectedNode g with
    | some up => some ⟨n, input, up⟩
    | none => none
  | none => none

/-! ## Definition and implementation resolution -/

/-- A declared prototype (`NodeDef`): a name, the node category it defines
(its "node" attribute), a declared type and declared inputs. -/
structure NodeDefElem where
  name : String
  nodeString : String
  type : Option String
  ports : List ValueElem
deriving DecidableEq, Repr

/-- `getType()` on a nodedef. -/
def NodeDefElem.getTypeStr (nd : NodeDefElem) : String := nd.type.getD ""

/-- `getInput(name)` on a nodedef. -/
def NodeDefElem.getInput (nd : NodeDefElem) (nm : String) : Option ValueElem :=
  findInput nd.ports nm

/-- An element registered as an implementation of a nodedef: either an
opaque (non-graph) implementation element, or a functional node graph
carrying the `NodeGraph::NODE_DEF_ATTRIBUTE` ("nodedef", Node.cpp line
16).  Both carry an optional target identifier. -/
inductive ImplElem where
  | nonGraph : String → String → Option String → ImplElem
  | graph : NodeGraph → String → Option String → ImplElem
deriving DecidableEq, Repr

/-- `getName()` on an implementation element. -/
def ImplElem.getName : ImplElem → String
  | .nonGraph nm _ _ => nm
  | .graph g _ _ => g.name

/-- The name of the nodedef an implementation element is registered for. -/
def ImplElem.nodeDefName : ImplElem → String
  | .nonGraph _ nd _ => nd
  | .graph _ nd _ => nd

/-- `getTarget()` on an implementation element: empty string when absent. -/
def ImplElem.getTargetStr : ImplElem → String
  | .nonGraph _ _ t => t.getD ""
  | .graph _ _ t => t.getD ""

/-- `isA<NodeGraph>()` on an implementation element. -/
def ImplElem.isNodeGraph : ImplElem → Bool
  | .nonGraph _ _ _ => false
  | .graph _ _ _ => true

/-- The document-wide indices the core consumes (spec §6): the registered
nodedefs and implementation elements, in document order. -/
structure Env where
  nodeDefs : List NodeDefElem
  impls : List ImplElem
deriving DecidableEq, Repr

/-- `getMatchingNodeDefs(category)`: all nodedefs declaring the given node
category, in document order.  Modelled from the spec: §6 ("all NodeDefs
with category C"); the index lives in Document.cpp, outside the source
fragment. -/
def Env.getMatchingNodeDefs (env : Env) (category : String) : List NodeDefElem :=
  env.nodeDefs.filter fun nd => nd.nodeString = category

/-- `getMatchingImplementations(nodeDefName)`: all implementation elements
registered for the named nodedef, in document order.  Modelled from the
spec: §6; the index lives outside the source fragment. -/
def Env.getMatchingImplementations (env : Env) (defName : String) : List ImplElem :=
  env.impls.filter fun im => im.nodeDefName = defName

/-- `Node::getReferencedNodeDef()` (Node.cpp lines 71-89): the first
nodedef matching the node's category whose declared type equals the node's
type.  NOTE: the source's inner loop over the node's inputs (lines 77-84)
compares input types but its `continue` only advances that inner loop, so
the comparison has no effect on the result; the net behaviour is the
category-and-type match translated here. -/
def getReferencedNodeDef (env : Env) (n : Node) : Option NodeDefElem :=
  (env.getMatchingNodeDefs n.category).find? fun nd => nd.getTypeStr = n.getTypeStr

/-- The nodedef-matching rule as the spec states it (§4.2): the first
category-matching nodedef whose declared type equals the node's type AND
whose declared input types do not conflict with the node's input types (an
input present on both must agree in type; inputs present only on the node
are ignored).  This is the intended behaviour of Node.cpp lines 77-84; it
differs from `getReferencedNodeDef` because of the dead `continue`. -/
def getReferencedNodeDefSpec (env : Env) (n : Node) : Option NodeDefElem :=
  (env.getMatchingNodeDefs n.category).find? fun nd =>
    nd.getTypeStr = n.getTypeStr ∧
      ∀ i ∈ n.getInputs, ∀ mi, nd.getInput i.name = some mi → mi.getTypeStr = i.getTypeStr

/-- `Node::getImplementation(target)` (Node.cpp lines 91-107): resolve the
node's nodedef, then return the first implementation element registered for
it whose target equals `target`. -/
def getImplementation (env : Env) (n : Node) (target : String) : Option ImplElem :=
  match getReferencedNodeDef env n with
  | none => none
  | some nodeDef =>
    (env.getMatchingImplementations nodeDef.name).find? fun im => im.getTargetStr = target

/-- Whether a node resolves to a subgraph-valued implementation for the
target (the `implement && implement->isA<NodeGraph>()` test of the
flattening pass). -/
def isGraphImpl (env : Env) (target : String) (n : Node) : Bool :=
  match getImplementation env n target with
  | some im => im.isNodeGraph
  | none => false

/-! ## Downstream ports (`Node::getDownstreamPorts`, Node.cpp lines 124-135)

The reverse query scans every port of the owning document whose "nodename"
attribute matches the queried node's name and which resolves back to that
node.  Port resolution is scoped to the port's parent, so the ports that can
match a node are its sibling nodes' inputs and its graph's output children;
the scan below ranges over the node's graph accordingly. -/

/-- An address of a port found by the downstream scan: an input of a named
sibling node, or a graph-level output child. -/
inductive PortRef where
  | nodeInput : String → String → PortRef
  | graphOutput : String → PortRef
deriving DecidableEq, Repr

/-- The downstream-scan entries one child `c` contributes when querying the
downstream ports of node `y`: `c`'s ports whose "nodename" attribute
matches `y`'s name and which resolve to `y` (`getMatchingPorts(getName())`
filtered by `getConnectedNode() == getSelf()`, Node.cpp lines 127-132),
each paired with the "downstream element" the sort uses for it
(`port->isA<Output>() ? port : port->getParent()`, line 294): the output
child itself for a graph output, the owning node for an input.  Parameters
are not `PortElement`s and never match. -/
def dsEntries (g : NodeGraph) (y : Node) : Child → List (PortRef × Child)
  | .node p =>
    (p.ports.filter fun v =>
       v.kind = .input ∧ v.nodeName = some y.name ∧ v.getConnectedNode g = some y).map
      fun v => (PortRef.nodeInput p.name v.name, Child.node p)
  | .output o =>
    if o.nodeName = some y.name ∧ o.getConnectedNode g = some y then
      [(PortRef.graphOutput o.name, Child.output o)]
    else []

/-- `getDownstreamPorts()` for node `y` inside graph `g`, paired with each
port's downstream element, in document (declaration) order. -/
def downstreamPortsFull (g : NodeGraph) (y : Node) : List (PortRef × Child) :=
  g.children.foldr (fun c acc => dsEntries g y c ++ acc) []

/-- The number of downstream-scan entries child `c` contributes for `y`. -/
def dsMult (g : NodeGraph) (y : Node) : Child → Nat
  | .node p =>
    (p.ports.filter fun v =>
       v.kind = .input ∧ v.nodeName = some y.name ∧
         v.getConnectedNode g = some y).length
  | .output o =>
    if o.nodeName = some y.name ∧ o.getConnectedNode g = some y then 1 else 0

/-! ## Topological sort (`NodeGraph::topologicalSort`, Node.cpp lines 246-317)

Kahn's algorithm over the direct children of a graph.  The local
bookkeeping is modelled exactly: the per-child in-degree map (keyed here by
child name; the C++ map is keyed by element identity, and every downstream
element in a self-contained graph is a child), the FIFO work queue, the
result vector and the visit counter.  The C++ `while` loop is modelled with
fuel; `topologicalSort` supplies fuel that is never exhausted on the graphs
of the claims (see `sortLoop_no_fuel_out`). -/

/-- The outcome of the sort: a result order, the thrown
`ExceptionFoundCycle` with its message, or fuel exhaustion (a modelling
artifact standing for non-termination of the loop). -/
inductive SortOutcome where
  | ok : List Child → SortOutcome
  | cycleError : String → SortOutcome
  | fuelOut : SortOutcome
deriving DecidableEq, Repr

/-- Pointwise update of the in-degree map. -/
def updDeg (deg : String → Nat) (s : String) (v : Nat) : String → Nat :=
  fun t => if t = s then v else deg t

/-- The in-degree computed for a child (lines 260-267): the number of
non-null upstream edges of a node child.  Non-node children have no
upstream edges — modelled from the spec: §4.4 step 1 ("0 for non-Node
children, which have none"); the virtual `getUpstreamEdgeCount` /
`getUpstreamEdge` for non-node elements live outside the source fragment. -/
def connectionCount (g : NodeGraph) : Child → Nat
  | .node x => ((List.range x.getInputs.length).filter
      fun i => (x.getUpstreamEdge g i).isSome).length
  | .output _ => 0

/-- The initial in-degree map and FIFO queue (lines 256-276): children with
in-degree 0 are enqueued in declaration order. -/
def initState (g : NodeGraph) : (String → Nat) × List Child :=
  g.children.foldl (fun st c =>
    let cnt := connectionCount g c
    (updDeg st.1 c.name cnt, if cnt = 0 then st.2 ++ [c] else st.2))
    (fun _ => 0, [])

/-- Processing of one dequeued node's downstream elements (lines 292-304):
for each, decrement its tracked in-degree if it is above 1, otherwise zero
it and enqueue the element. -/
def processPorts (deg : String → Nat) (queue : List Child) (elems : List Child) :
    (String → Nat) × List Child :=
  elems.foldl (fun st e =>
    if st.1 e.name > 1 then (updDeg st.1 e.name (st.1 e.name - 1), st.2)
    else (updDeg st.1 e.name 0, st.2 ++ [e])) (deg, queue)

/-- The message of the thrown `ExceptionFoundCycle` (line 313). -/
def cycleMsg (g : NodeGraph) : String := "Encountered a cycle in graph: " ++ g.name

/-- The sort's main loop (lines 281-316), with fuel.  When the queue is
empty the visit count is compared with the child count; a shortfall throws
the cycle error, otherwise the accumulated order is returned. -/
def sortLoop (g : NodeGraph) : Nat → (String → Nat) → List Child → List Child → Nat →
    SortOutcome
  | _, _, [], result, visitCount =>
    if visitCount ≠ g.children.length then .cycleError (cycleMsg g) else .ok result
  | 0, _, _ :: _, _, _ => .fuelOut
  | fuel + 1, deg, c :: rest, result, visitCount =>
    let st :=
      match c with
      | .node x => processPorts deg rest ((downstreamPortsFull g x).map Prod.snd)
      | .output _ => (deg, rest)
    sortLoop g fuel st.1 st.2 (result ++ [c]) (visitCount + 1)

/-- `NodeGraph::topologicalSort()` (Node.cpp lines 246-317). -/
def topologicalSort (g : NodeGraph) : SortOutcome :=
  let st := initState g
  sortLoop g (2 * g.children.length + 2) st.1 st.2 [] 0

/-- The sort with the owning graph threaded through every iteration as
explicit state.  The method is `const` and every statement of its body
only reads the graph, so the threaded graph is passed along unchanged;
`topologicalSort_frame` proves the post-state equals the pre-state. -/
def sortLoopT (g : NodeGraph) : Nat → (String → Nat) → List Child → List Child → Nat →
    SortOutcome × NodeGraph
  | _, _, [], result, visitCount =>
    (if visitCount ≠ g.children.length then .cycleError (cycleMsg g) else .ok result, g)
  | 0, _, _ :: _, _, _ => (.fuelOut, g)
  | fuel + 1, deg, c :: rest, result, visitCount =>
    let st :=
      match c with
      | .node x => processPorts deg rest ((downstreamPortsFull g x).map Prod.snd)
      | .output _ => (deg, rest)
    sortLoopT g fuel st.1 st.2 (result ++ [c]) (visitCount + 1)

/-- `topologicalSort` as a state transformer on the graph: the outcome
together with the graph as it stands when the method returns. -/
def topologicalSortT (g : NodeGraph) : SortOutcome × NodeGraph :=
  let st := initState g
  sortLoopT g (2 * g.children.length + 2) st.1 st.2 [] 0

/-! ## The connection relation and cycles -/

/-- `producerOf g a b`: the child node named `a` has an input whose
connection resolves to a node named `b` (so `b` must be evaluated before
`a`).  These are exactly the non-null upstream edges of `a`. -/
def producerOf (g : NodeGraph) (a b : String) : Prop :=
  ∃ x v, g.getNode a = some x ∧ v ∈ x.ports ∧ v.kind = .input ∧
    v.nodeName = some b ∧ (g.getNode b).isSome

/-- A connection cycle among the children of `g`. -/
def hasCycle (g : NodeGraph) : Prop :=
  ∃ s, Relation.TransGen (producerOf g) s s

/-! ### Specification-side counting functions for the sort's invariant -/

/-- The number of ports of child `e` that resolve to the node `x` — the
events delivered to `e` when `x` is dequeued (its multiplicity in `x`'s
downstream scan). -/
def connCount (g : NodeGraph) (e : Child) (x : Node) : Nat :=
  match e with
  | .node p => (p.ports.filter fun v =>
      v.kind = PortKind.input ∧ v.nodeName = some x.name ∧ v.getConnectedNode g = some x).length
  | .output _ => 0

/-- `connCount` viewed with the producer as a child (0 for output
producers, which have no downstream ports). -/
def connOf (g : NodeGraph) (e c : Child) : Nat :=
  match c with
  | .node y => connCount g e y
  | .output _ => 0

/-- The number of in-degree events already delivered to child `e` once the
children in `res` have been dequeued and processed. -/
def evCount (g : NodeGraph) (res : List Child) (e : Child) : Nat :=
  (res.map (connOf g e)).sum

/-- Boolean indicator: port `v` is an input whose connection resolves to
the node child `c`. -/
def resolvesTo (g : NodeGraph) (v : ValueElem) : Child → Bool
  | .node y => decide (v.kind = PortKind.input ∧ v.nodeName = some y.name ∧
      v.getConnectedNode g = some y)
  | .output _ => false

/-- Apply a Boolean predicate under an `Option`, false on `none`. -/
def optApp {α : Type} (q : α → Bool) : Option α → Bool
  | some a => q a
  | none => false

/-- The sort loop's invariant over its local state, for a graph of
uniquely-named node children: the visit counter tracks the result length;
queue and result hold children; every child occurs in `result ++ queue`
exactly once if all its in-degree events have been delivered and not at
all otherwise; the in-degree map holds the undelivered event count; queued
children have all producers already in the result; and every result entry
appears after all of its producers. -/
def SortInv (g : NodeGraph) (deg : String → Nat) (queue result : List Child)
    (visitCount : Nat) : Prop :=
  visitCount = result.length ∧
  (∀ c ∈ queue, c ∈ g.children) ∧
  (∀ c ∈ result, c ∈ g.children) ∧
  (∀ c ∈ g.children, (result ++ queue).count c =
      if connectionCount g c ≤ evCount g result c then 1 else 0) ∧
  (∀ c ∈ g.children, deg c.name = connectionCount g c - evCount g result c) ∧
  (∀ c ∈ queue, ∀ y : Node, 0 < connCount g c y → Child.node y ∈ result) ∧
  (∀ (i : Nat) (x : Child), result[i]? = some x → ∀ y : Node, 0 < connCount g x y →
      ∃ j, j < i ∧ result[j]? = some (Child.node y))

/-- The invariant maintained while the downstream elements of a dequeued
node `x` are being processed: `result` is the order so far (with `x`
already appended in the C++ code), `qq` the queue, and `pf e` the number of
events already delivered to `e` during this processing step. -/
def MidInv (g : NodeGraph) (x : Node) (result qq : List Child) (deg : String → Nat)
    (pf : Child → Nat) : Prop :=
  (∀ c ∈ qq, c ∈ g.children) ∧
  (∀ e ∈ g.children, (result ++ Child.node x :: qq).count e =
      if connectionCount g e ≤ evCount g result e + pf e then 1 else 0) ∧
  (∀ e ∈ g.children, deg e.name = connectionCount g e - (evCount g result e + pf e)) ∧
  (∀ c ∈ qq, ∀ y : Node, 0 < connCount g c y → Child.node y ∈ result ++ [Child.node x])

/-! ## Subgraph flattening (`NodeGraph::flattenSubgraphs`, Node.cpp lines 148-244)

The pass is a worklist loop.  The C++ deque holds node pointers; pointers
are modelled by names looked up in the current graph (new names are
collision-free, and a queued node stays in the graph until its own turn, so
the lookup is faithful).  The C++ `while` loop takes explicit fuel: the
source does not terminate on a definition that implements itself (spec
§4.5, "a caller responsibility"), so termination cannot be baked in. -/

/-- A string of `k` underscores. -/
def underscores (k : Nat) : String := String.mk (List.replicate k '_')

/-- `createValidChildName(base)`: a child name derived from `base` that
collides with no existing child name.  Modelled from the spec: §4.5 ("a
document-level make-unique step is required to guarantee" uniqueness);
`Element::createValidChildName` is outside the source fragment.  The name
is padded with underscores until it is unused; a pad of at most the number
of used names always suffices (`freshName_not_mem`). -/
def freshName (used : List String) (base : String) : String :=
  match (List.range (used.length + 1)).find?
      (fun k => decide ((base ++ underscores k) ∉ used)) with
  | some k => base ++ underscores k
  | none => base

/-- `getChildIndex(name)`: the position of the named child among the
graph's children.  Modelled from the spec: §4.5 step (b) ("the reference
node's former position in the parent's child ordering");
`Element::getChildIndex` is outside the source fragment. -/
def NodeGraph.getChildIndex (g : NodeGraph) (nm : String) : Nat :=
  g.children.findIdx fun c => decide (c.name = nm)

/-- `removeNode(name)` (line 242): remove the node child with the given
name. -/
def NodeGraph.removeNode (g : NodeGraph) (nm : String) : NodeGraph :=
  { g with children := g.children.filter fun c =>
      match c with
      | .node n => decide (n.name ≠ nm)
      | .output _ => true }

/-- The childwise action of replacing the node named `nm` by `f` of it. -/
def updChild (nm : String) (f : Node → Node) : Child → Child
  | .node n => if n.name = nm then Child.node (f n) else Child.node n
  | .output o => Child.output o

/-- Replace the node child with the given name by `f` applied to it (the
effect of mutating a child node through its pointer). -/
def NodeGraph.updateNode (g : NodeGraph) (nm : String) (f : Node → Node) : NodeGraph :=
  { g with children := g.children.map (updChild nm f) }

/-- The interface-property transfer (Node.cpp lines 176-201) applied to one
value element of a freshly copied subnode.  A port with no interface name
is left alone (line 178).  Otherwise the correspondingly named value
element of the reference node is looked up (line 183); the guard on line
184 tests `refNode` — never null — instead of `refValue`, so a failed
lookup dereferences null (line 186): modelled as an error.  On success the
reference port's value string is copied when present (lines 186-189), its
connection name is copied when both ports are inputs and it has one (lines
190-198), and the interface name is removed (line 200). -/
def transferPort (refNode : Node) (v : ValueElem) : Except String ValueElem :=
  match v.interfaceName with
  | none => .ok v
  | some iname =>
    match refNode.getValueElem iname with
    | none => .error ("null dereference: reference node has no value element " ++ iname)
    | some rv =>
      .ok { v with
            value := if rv.value.isSome then rv.value else v.value,
            nodeName := if v.kind = PortKind.input ∧ rv.kind = PortKind.input ∧
                rv.nodeName.isSome then rv.nodeName else v.nodeName,
            interfaceName := none }

/-- The copy of subnode `a` under its collision-free new name with its
transferred ports (`copyContentFrom` plus the rename of lines 170-172). -/
def copyUnder (used : List String) (implName : String) (a : Node)
    (tports : List ValueElem) : Node :=
  { a with name := freshName used (implName ++ "_" ++ a.name), ports := tports }

/-- Insert a child at a position (`addNode` followed by `setChildIndex`,
lines 171-173). -/
def insertChild (g : NodeGraph) (idx : Nat) (c : Child) : NodeGraph :=
  { g with children := g.children.insertIdx idx c }

/-- One iteration of the subnode-copying loop (lines 168-213): generate a
collision-free name from the implementation's name and the subnode's name
(line 170), copy the subnode's content under the new name (lines 171-172),
transfer interface properties from the reference node (lines 176-201),
insert the copy at the reference node's position (line 173), record the
orig-to-new mapping (line 204) and enqueue the copy when it has a subgraph
implementation itself (lines 208-212).  The accumulated state is the graph,
the mapping and the names to enqueue. -/
def phase1Step (env : Env) (target : String) (implName refName : String) (refNode : Node)
    (st : NodeGraph × List (String × String) × List String) (origSubNode : Node) :
    Except String (NodeGraph × List (String × String) × List String) :=
  match origSubNode.ports.mapM (transferPort refNode) with
  | .error e => .error e
  | .ok tports =>
    let newSubNode : Node := copyUnder st.1.childNames implName origSubNode tports
    .ok (insertChild st.1 (st.1.getChildIndex refName) (Child.node newSubNode),
         st.2.1 ++ [(origSubNode.name, newSubNode.name)],
         st.2.2 ++ if isGraphImpl env target newSubNode then [newSubNode.name] else [])

/-- The whole subnode-copying loop over the subgraph's nodes. -/
def phase1 (env : Env) (target : String) (implName refName : String) (refNode : Node)
    (origNodes : List Node) (g : NodeGraph) :
    Except String (NodeGraph × List (String × String) × List String) :=
  origNodes.foldlM (phase1Step env target implName refName refNode) (g, [], [])

/-- The first output child with the given name. -/
def NodeGraph.getOutputChild (g : NodeGraph) (nm : String) : Option Output :=
  g.children.findSome? fun c =>
    match c with
    | .output o => if o.name = nm then some o else none
    | .node _ => none

/-- The connection name currently stored at an addressed port. -/
def lookupPortConn (g : NodeGraph) : PortRef → Option String
  | .nodeInput cn pn =>
    match g.getNode cn with
    | some n => (findInput n.ports pn).bind (fun v => v.nodeName)
    | none => none
  | .graphOutput onm => (g.getOutputChild onm).bind (fun o => o.nodeName)

/-- The childwise action of storing `newName` on the output named `onm`. -/
def updOutChild (onm newName : String) : Child → Child
  | .output o =>
    if o.name = onm then Child.output { o with nodeName := some newName }
    else Child.output o
  | .node n => Child.node n

/-- `outerPort->setConnectedNode(newSubNode)` (line 234) at an addressed
port: store the new producer's name on that port.
`PortElement::setConnectedNode` is outside the source fragment; modelled
from the spec (§4.5 step 4: "redirect every downstream port of the
reference node ... to instead point at the new node"). -/
def redirectPort (g : NodeGraph) (pr : PortRef) (newName : String) : NodeGraph :=
  match pr with
  | .nodeInput cn pn =>
    g.updateNode cn fun n => n.updateInputNamed pn fun v => { v with nodeName := some newName }
  | .graphOutput onm =>
    { g with children := g.children.map (updOutChild onm newName) }

/-- Processing of one downstream port of an original subnode (lines
220-237).  An input port names an internal consumer: if that consumer was
copied, its copy's like-named input is connected to the producer's copy
(lines 222-229, through `Node::setConnectedNode`).  An output port is the
subgraph's declared output: every downstream port of the reference node in
the outer graph — recomputed live, as `getDownstreamPorts()` is — is
redirected to the producer's copy (lines 230-236). -/
def processOrigPort (g : NodeGraph) (subMap : List (String × String))
    (refName newName : String) : PortRef → NodeGraph
  | .nodeInput consumerOrig portName =>
    match subMap.find? (fun e => decide (e.1 = consumerOrig)) with
    | some e => g.updateNode e.2 fun n => n.setConnectedNode portName (g.getNode newName)
    | none => g
  | .graphOutput _ =>
    match g.getNode refName with
    | some refNode =>
      ((downstreamPortsFull g refNode).map Prod.fst).foldl
        (fun gg pr2 => redirectPort gg pr2 newName) g
    | none => g

/-- Processing of one orig-to-new pair (lines 216-238): walk the original
subnode's downstream ports inside the original subgraph. -/
def processPair (origSubGraph : NodeGraph) (subMap : List (String × String)) (refName : String)
    (g : NodeGraph) (pair : String × String) : NodeGraph :=
  match origSubGraph.getNode pair.1 with
  | some origSubNode =>
    ((downstreamPortsFull origSubGraph origSubNode).map Prod.fst).foldl
      (fun gg pr => processOrigPort gg subMap refName pair.2 pr) g
  | none => g

/-- The connection-rewiring loop over the recorded mapping (lines 215-238),
in insertion order. -/
def phase2 (origSubGraph : NodeGraph) (subMap : List (String × String)) (refName : String)
    (g : NodeGraph) : NodeGraph :=
  subMap.foldl (processPair origSubGraph subMap refName) g

/-- One worklist iteration of `flattenSubgraphs` (lines 153-243) on the
named reference node: resolve its implementation; when it is a subgraph,
copy the subnodes (phase 1), rewire connections (phase 2) and remove the
reference node; otherwise leave the graph alone.  The `none` lookup branch
is unreachable for queued names (a queued copy stays until processed) and
skips, matching the pointer semantics. -/
def flattenStep (env : Env) (target : String) (g : NodeGraph) (refName : String) :
    Except String (NodeGraph × List String) :=
  match g.getNode refName with
  | none => .ok (g, [])
  | some refNode =>
    match getImplementation env refNode target with
    | some (ImplElem.graph origSubGraph _ _) =>
      match phase1 env target origSubGraph.name refName refNode origSubGraph.getNodes g with
      | .error e => .error e
      | .ok (g1, subMap, newQ) =>
        .ok ((phase2 origSubGraph subMap refName g1).removeNode refName, newQ)
    | _ => .ok (g, [])

/-- The outcome of the flattening pass: the rewritten graph, the modelled
null-dereference crash of line 184, or fuel exhaustion (a modelling
artifact standing for non-termination of the `while` loop). -/
inductive FlattenOutcome where
  | ok : NodeGraph → FlattenOutcome
  | crash : String → FlattenOutcome
  | fuelOut : FlattenOutcome
deriving DecidableEq, Repr

/-- The worklist loop (lines 153-243), with fuel. -/
def flattenLoop (env : Env) (target : String) : Nat → NodeGraph → List String → FlattenOutcome
  | _, g, [] => .ok g
  | 0, _, _ :: _ => .fuelOut
  | fuel + 1, g, r :: rest =>
    match flattenStep env target g r with
    | .error e => .crash e
    | .ok (g', newQ) => flattenLoop env target fuel g' (rest ++ newQ)

/-- `NodeGraph::flattenSubgraphs(target)` (Node.cpp lines 148-244): seed
the worklist with the current node children (lines 150-151) and run the
loop. -/
def flattenSubgraphs (env : Env) (target : String) (fuel : Nat) (g : NodeGraph) :
    FlattenOutcome :=
  flattenLoop env target fuel g (g.getNodes.map Node.name)

/-- The identifying signature of a child that the rewiring phase preserves:
node-ness, name, category (empty for outputs) and declared type. -/
def Child.sig : Child → Bool × String × String × Option String
  | .node n => (true, n.name, n.category, n.type)
  | .output o => (false, o.name, "", o.type)

/-- The flattening worklist invariant: child names stay pairwise distinct
and every node child with a subgraph implementation for the target is on
the worklist. -/
def FlatInv (env : Env) (target : String) (g : NodeGraph) (queue : List String) : Prop :=
  g.childNames.Nodup ∧
  ∀ n, Child.node n ∈ g.children → isGraphImpl env target n = true → n.name ∈ queue

/-- An addressed port actually exists in the graph. -/
def ValidAddr (G : NodeGraph) : PortRef → Prop
  | .nodeInput cn pn => ∃ p, G.getNode cn = some p ∧ (findInput p.ports pn).isSome = true
  | .graphOutput onm => (G.getOutputChild onm).isSome = true

/-- Rewiring stage A (relative to the pre-state `g`): child names distinct,
the reference node still resolves to its original content, and every
pre-state child survives untouched. -/
def StageA (g : NodeGraph) (refName : String) (refNode : Node) (G : NodeGraph) : Prop :=
  G.childNames.Nodup ∧ G.getNode refName = some refNode ∧
  ∀ c ∈ g.children, c ∈ G.children

/-- Rewiring stage B: every pre-state downstream address of the reference
node reads the output producer's copy `nstar`. -/
def StageB (g : NodeGraph) (refName : String) (refNode : Node) (nstar : String)
    (G : NodeGraph) : Prop :=
  G.childNames.Nodup ∧ G.getNode refName = some refNode ∧
  ∀ pr ∈ (downstreamPortsFull g refNode).map Prod.fst,
    lookupPortConn G pr = some nstar

/-! ## Concrete graphs used by counterexamples and witnesses -/

/-- A typed, connected input port (example-building helper). -/
def exInput (nm : String) (prod : Option String) : ValueElem :=
  { kind := .input, name := nm, type := some "float", value := none,
    interfaceName := none, nodeName := prod }

/-- Example node `A`: no inputs. -/
def exNodeA : Node := { name := "A", category := "c", type := some "float", ports := [] }

/-- Example node `B` with one input connected to `A`. -/
def exNodeB : Node :=
  { name := "B", category := "c", type := some "float", ports := [exInput "in" (some "A")] }

/-- Example output child connected to node `A`. -/
def exOutO : Output := { name := "O", type := some "float", nodeName := some "A" }

/-- An acyclic graph with a node and a connected output child. -/
def exGraphOut : NodeGraph := { name := "gout", children := [.node exNodeA, .output exOutO] }

/-- Example node `X`, connected to `Y` (half of a two-cycle). -/
def exNodeX : Node :=
  { name := "X", category := "c", type := some "float", ports := [exInput "in" (some "Y")] }

/-- Example node `Y`, connected to `X` (half of a two-cycle). -/
def exNodeY : Node :=
  { name := "Y", category := "c", type := some "float", ports := [exInput "in" (some "X")] }

/-- Two output children both connected to node `A`. -/
def exOutO1 : Output := { name := "O1", type := some "float", nodeName := some "A" }

/-- Second output child connected to node `A`. -/
def exOutO2 : Output := { name := "O2", type := some "float", nodeName := some "A" }

/-- A graph containing the connection cycle `X ↔ Y` together with a node
`A` feeding two output children. -/
def exGraphCyc : NodeGraph :=
  { name := "gcyc",
    children := [.node exNodeX, .node exNodeY, .node exNodeA, .output exOutO1, .output exOutO2] }

/-- The two-node cycle graph `X ↔ Y` on its own. -/
def exGraphXY : NodeGraph := { name := "gxy", children := [.node exNodeX, .node exNodeY] }

/-- A three-node chain `A ← B` as a graph (with all nodes). -/
def exGraphAB : NodeGraph := { name := "gab", children := [.node exNodeA, .node exNodeB] }

/-- A producer node for the connection round-trip examples. -/
def exProd : Node := { name := "p", category := "c", type := some "float", ports := [] }

/-- A consumer node whose input `in` is connected to `p`. -/
def exCons : Node :=
  { name := "n", category := "c", type := some "float", ports := [exInput "in" (some "p")] }

/-- A graph holding the producer and the consumer. -/
def exGraphPN : NodeGraph := { name := "gpn", children := [.node exProd, .node exCons] }

/-- A nodedef whose input `x` is typed `color3` (conflicting with `exNode3`). -/
def exDef1 : NodeDefElem :=
  { name := "ND1", nodeString := "foo", type := some "t",
    ports := [{ kind := .input, name := "x", type := some "color3", value := none,
                interfaceName := none, nodeName := none }] }

/-- A nodedef whose input `x` is typed `float` (agreeing with `exNode3`). -/
def exDef2 : NodeDefElem :=
  { name := "ND2", nodeString := "foo", type := some "t",
    ports := [{ kind := .input, name := "x", type := some "float", value := none,
                interfaceName := none, nodeName := none }] }

/-- A document environment registering the conflicting nodedef first. -/
def exEnv3 : Env := { nodeDefs := [exDef1, exDef2], impls := [] }

/-- A node of category `foo` whose connected input `x` is typed `float`. -/
def exNode3 : Node :=
  { name := "n3", category := "foo", type := some "t",
    ports := [{ kind := .input, name := "x", type := some "float", value := none,
                interfaceName := none, nodeName := some "src" }] }

/-- The connected `float` input `x` of `exNode3`. -/
def exPortFloat : ValueElem :=
  { kind := .input, name := "x", type := some "float", value := none,
    interfaceName := none, nodeName := some "src" }

/-- The declared `color3` input `x` of `exDef1`. -/
def exPortColor : ValueElem :=
  { kind := .input, name := "x", type := some "color3", value := none,
    interfaceName := none, nodeName := none }

/-- An interface-bound input port (example-building helper). -/
def exIfacePort (nm inm : String) : ValueElem :=
  { kind := .input, name := nm, type := some "float", value := none,
    interfaceName := some inm, nodeName := none }

/-- A value-carrying input port (example-building helper). -/
def exValPort (nm v : String) : ValueElem :=
  { kind := .input, name := nm, type := some "float", value := some v,
    interfaceName := none, nodeName := none }

/-- Subgraph node `g1`: its input `amount` is an interface pass-through. -/
def exSubN1 : Node :=
  { name := "g1", category := "prim", type := some "float",
    ports := [exIfacePort "amount" "amount"] }

/-- Subgraph node `g2`, consuming `g1`. -/
def exSubN2 : Node :=
  { name := "g2", category := "prim", type := some "float",
    ports := [exInput "in" (some "g1")] }

/-- The subgraph's declared output, produced by `g2`. -/
def exSubOut : Output := { name := "out", type := some "float", nodeName := some "g2" }

/-- A functional subgraph `SG`: `g1 → g2 → out`, with `g1`'s input bound to
the interface parameter `amount`. -/
def exSubG : NodeGraph :=
  { name := "SG", children := [.node exSubN1, .node exSubN2, .output exSubOut] }

/-- A nodedef for category `foo` implemented by `exSubG`. -/
def exDefFoo : NodeDefElem :=
  { name := "ND", nodeString := "foo", type := some "float", ports := [exValPort "amount" "0"] }

/-- An environment in which category `foo` has the subgraph implementation
`exSubG` for target `t` and category `prim` resolves to nothing. -/
def exEnvF : Env :=
  { nodeDefs := [exDefFoo], impls := [ImplElem.graph exSubG "ND" (some "t")] }

/-- The reference node `R` of category `foo`, with `amount` set to `0.5`. -/
def exNodeR : Node :=
  { name := "R", category := "foo", type := some "float", ports := [exValPort "amount" "0.5"] }

/-- A consumer node `C` connected to `R`. -/
def exNodeC : Node :=
  { name := "C", category := "bar", type := some "float", ports := [exInput "cin" (some "R")] }

/-- A graph output connected to `R`. -/
def exOutR : Output := { name := "O", type := some "float", nodeName := some "R" }

/-- The outer graph to be flattened: `R` (subgraph-backed), a consumer of
`R` and a graph output of `R`. -/
def exGraphF : NodeGraph :=
  { name := "gw", children := [.node exNodeR, .node exNodeC, .output exOutR] }

/-- The inlined copy of `g1`: `amount` now carries `R`'s literal. -/
def exFlatG1 : Node :=
  { name := "SG_g1", category := "prim", type := some "float",
    ports := [exValPort "amount" "0.5"] }

/-- The inlined copy of `g2`, rewired to the copy of `g1`. -/
def exFlatG2 : Node :=
  { name := "SG_g2", category := "prim", type := some "float",
    ports := [exInput "in" (some "SG_g1")] }

/-- The consumer `C` after redirection to the copy of `g2`. -/
def exFlatC : Node :=
  { name := "C", category := "bar", type := some "float",
    ports := [exInput "cin" (some "SG_g2")] }

/-- The graph output after redirection to the copy of `g2`. -/
def exFlatO : Output := { name := "O", type := some "float", nodeName := some "SG_g2" }

/-- The flattening of `exGraphF`. -/
def exFlatRes : NodeGraph :=
  { name := "gw",
    children := [.node exFlatG1, .node exFlatG2, .node exFlatC, .output exFlatO] }

/-! # Theorems -/

/-! ## Port and connection model (claims C7, C8, C9) -/

theorem findInput_append_of_none {ps : List ValueElem} {nm : String}
    (h : findInput ps nm = none) (qs : List ValueElem) :
    findInput (ps ++ qs) nm = findInput qs nm := by
  induction ps with
  | nil => simp [findInput]
  | cons v vs ih =>
    by_cases hv : v.kind = PortKind.input ∧ v.name = nm
    · exfalso
      unfold findInput at h
      rw [List.find?_cons_of_pos _ (by simpa using hv)] at h
      exact Option.some_ne_none _ h
    · unfold findInput at h ⊢
      rw [List.find?_cons_of_neg _ (by simpa using hv)] at h
      rw [List.cons_append, List.find?_cons_of_neg _ (by simpa using hv)]
      exact ih h

theorem findInput_updateFirstInput {ps : List ValueElem} {nm : String} {v : ValueElem}
    (f : ValueElem → ValueElem)
    (hk : ∀ w, (f w).kind = w.kind) (hn : ∀ w, (f w).name = w.name)
    (h : findInput ps nm = some v) :
    findInput (updateFirstInput ps nm f) nm = some (f v) := by
  induction ps with
  | nil => simp [findInput] at h
  | cons w ws ih =>
    by_cases hw : w.kind = PortKind.input ∧ w.name = nm
    · unfold findInput at h
      rw [List.find?_cons_of_pos _ (by simpa using hw)] at h
      cases h
      rw [updateFirstInput, if_pos hw]
      unfold findInput
      rw [List.find?_cons_of_pos]
      simp only [hk, hn]
      exact decide_eq_true hw
    · unfold findInput at h
      rw [List.find?_cons_of_neg _ (by simpa using hw)] at h
      rw [updateFirstInput, if_neg hw]
      unfold findInput
      rw [List.find?_cons_of_neg _ (by simpa using hw)]
      exact ih h

/-- **C7 (counterexample).**  The claim states that calling
`setConnectedNode` with a null producer clears an existing binding.  On the
concrete consumer `exCons`, whose input `in` is bound to `p`, the call with
a null producer leaves the binding in place (`if (node)` at Node.cpp line
33 guards the only write), so the connected node is still `p` afterwards
rather than being cleared. -/
theorem setConnectedNode_null_keeps_binding :
    (exCons.setConnectedNode "in" none).getConnectedNode exGraphPN "in" = some exProd ∧
    (exCons.setConnectedNode "in" none).getConnectedNode exGraphPN "in" ≠ none := by
  constructor
  · decide
  · decide

/-- **C7 (amended).**  Calling `setConnectedNode` with a null producer
leaves the binding unchanged (it does not clear it): the input persists
(and is created, unbound and untyped, when absent), and the connected node
afterwards equals the connected node before. -/
theorem setConnectedNode_null_noop (g : NodeGraph) (n : Node) (inputName : String) :
    ((n.setConnectedNode inputName none).getInput inputName).isSome ∧
    (n.setConnectedNode inputName none).getConnectedNode g inputName =
      n.getConnectedNode g inputName := by
  cases h : n.getInput inputName with
  | some v =>
    have hstep : n.setConnectedNode inputName none = n := by
      unfold Node.setConnectedNode; rw [h]
    rw [hstep, h]
    exact ⟨rfl, rfl⟩
  | none =>
    have hstep : n.setConnectedNode inputName none =
        { n with ports := n.ports ++ [newInputElem inputName] } := by
      unfold Node.setConnectedNode; rw [h]
    have hfind : Node.getInput
        { n with ports := n.ports ++ [newInputElem inputName] } inputName =
        some (newInputElem inputName) := by
      unfold Node.getInput at h ⊢
      rw [findInput_append_of_none h]
      unfold findInput
      rw [List.find?_cons_of_pos]
      simp [newInputElem]
    rw [hstep]
    constructor
    · rw [hfind]; rfl
    · simp only [Node.getConnectedNode, hfind, h]
      simp [ValueElem.getConnectedNode, newInputElem]

/-- **C8.**  Round-trip: `setConnectedNode(inputName, producer)` followed
by `getConnectedNode(inputName)` on the same node returns the same
producer, whenever the producer resolves to itself among the graph's
children (it is a child of the graph holding the consumer's siblings, as
connections are stored by name and resolved by lookup). -/
theorem setConnectedNode_getConnectedNode_roundtrip
    (g : NodeGraph) (n producer : Node) (inputName : String)
    (hres : g.getNode producer.name = some producer) :
    (n.setConnectedNode inputName (some producer)).getConnectedNode g inputName =
      some producer := by
  cases h : n.getInput inputName with
  | some v =>
    have hstep : n.setConnectedNode inputName (some producer) =
        n.updateInputNamed inputName fun w => { w with nodeName := some producer.name } := by
      unfold Node.setConnectedNode; rw [h]
    have hfind := findInput_updateFirstInput
      (fun w => { w with nodeName := some producer.name })
      (fun _ => rfl) (fun _ => rfl) h
    rw [hstep]
    simp only [Node.getConnectedNode, Node.updateInputNamed, Node.getInput] at *
    rw [hfind]
    simp [ValueElem.getConnectedNode, hres]
  | none =>
    have hstep : n.setConnectedNode inputName (some producer) =
        { n with ports := n.ports ++ [connectedInputElem inputName producer] } := by
      unfold Node.setConnectedNode; rw [h]
    have hfind : findInput (n.ports ++ [connectedInputElem inputName producer]) inputName =
        some (connectedInputElem inputName producer) := by
      rw [findInput_append_of_none h]
      unfold findInput
      rw [List.find?_cons_of_pos]
      simp [connectedInputElem, newInputElem]
    rw [hstep]
    simp only [Node.getConnectedNode, Node.getInput] at *
    rw [hfind]
    simp [ValueElem.getConnectedNode, connectedInputElem, newInputElem, hres]

/-- **C8 (witness).**  The round-trip at a concrete consumer, producer and
graph. -/
theorem setConnectedNode_getConnectedNode_roundtrip_witness :
    exGraphPN.getNode exProd.name = some exProd ∧
    (exCons.setConnectedNode "other" (some exProd)).getConnectedNode exGraphPN "other" =
      some exProd :=
  ⟨by decide,
   setConnectedNode_getConnectedNode_roundtrip exGraphPN exCons exProd "other" (by decide)⟩

/-- **C9.**  `getUpstreamEdge(node, index)` returns an edge exactly when
`index` is within the node's input count and the input at that position
resolves to a producer; the edge is then `(node, that input, producer)`.
In every other case the result is the null edge (`none`). -/
theorem getUpstreamEdge_iff (g : NodeGraph) (n : Node) (i : Nat) (e : Edge) :
    n.getUpstreamEdge g i = some e ↔
      ∃ input up, n.getInputs[i]? = some input ∧
        input.getConnectedNode g = some up ∧ e = ⟨n, input, up⟩ := by
  unfold Node.getUpstreamEdge
  constructor
  · intro he
    split at he
    · rename_i input hi
      split at he
      · rename_i up hc
        cases he
        exact ⟨input, up, hi, hc, rfl⟩
      · exact absurd he (by simp)
    · exact absurd he (by simp)
  · rintro ⟨input, up, hi, hc, he⟩
    split
    · rename_i input' hi'
      rw [hi] at hi'
      cases hi'
      split
      · rename_i up' hc'
        rw [hc] at hc'
        cases hc'
        rw [he]
      · rename_i hc'
        rw [hc] at hc'
        exact absurd hc' (by simp)
    · rename_i hi'
      rw [hi] at hi'
      exact absurd hi' (by simp)

/-! ## Definition resolution (claim C3) -/

/-- **C3 (code bug).**  `getReferencedNodeDef` is claimed to skip nodedefs
whose declared input types conflict with the node's input types.  On
`exNode3` (input `x : float`) with `exEnv3` registering first a nodedef
whose input `x` is `color3`, the source returns that first, conflicting
nodedef: the type comparison at Node.cpp lines 77-84 is dead code (its
`continue` only advances the inner loop).  The spec's stated rule
(`getReferencedNodeDefSpec`) would skip it and return the second nodedef. -/
theorem getReferencedNodeDef_dead_check :
    getReferencedNodeDef exEnv3 exNode3 = some exDef1 ∧
    exNode3.getInput "x" = some exPortFloat ∧
    exDef1.getInput "x" = some exPortColor ∧
    exPortColor.getTypeStr ≠ exPortFloat.getTypeStr ∧
    getReferencedNodeDefSpec exEnv3 exNode3 = some exDef2 := by
  refine ⟨by decide, by decide, by decide, by decide, by decide⟩

/-! ## Topological sort: frame (claim C10) -/

theorem sortLoopT_eq (g : NodeGraph) (fuel : Nat) :
    ∀ deg queue result visitCount,
      sortLoopT g fuel deg queue result visitCount =
        (sortLoop g fuel deg queue result visitCount, g) := by
  induction fuel with
  | zero =>
    intro deg queue result visitCount
    cases queue with
    | nil => rfl
    | cons c rest => rfl
  | succ fuel ih =>
    intro deg queue result visitCount
    cases queue with
    | nil => rfl
    | cons c rest =>
      simp only [sortLoopT, sortLoop]
      exact ih _ _ _ _

/-- **C10.**  The sort mutates nothing: running `topologicalSort` with the
owning graph threaded as explicit state returns the graph unchanged (its
children, ports, values, connections and attributes are exactly the
pre-state); all bookkeeping lives in the local in-degree map, queue, result
vector and visit counter. -/
theorem topologicalSort_frame (g : NodeGraph) :
    topologicalSortT g = (topologicalSort g, g) := by
  unfold topologicalSortT topologicalSort
  exact sortLoopT_eq g _ _ _ _ _

/-! ## Topological sort: counterexamples (claims C1, C2) -/

theorem not_producerOf_exGraphOut (a b : String) : ¬ producerOf exGraphOut a b := by
  rintro ⟨x, v, hx, hv, -⟩
  by_cases ha : exNodeA.name = a
  · have hxa : exNodeA = x := by
      simp only [NodeGraph.getNode, exGraphOut, List.findSome?_cons, if_pos ha] at hx
      exact Option.some.inj hx
    rw [← hxa] at hv
    simp [exNodeA] at hv
  · simp only [NodeGraph.getNode, exGraphOut, List.findSome?_cons, if_neg ha] at hx
    simp [exOutO] at hx

/-- **C1 (counterexample).**  The claim asserts that on *every* acyclic
graph the sort returns a permutation of the children.  `exGraphOut` — a
node `A` and a graph output `O` connected to it — has no connection cycle,
yet the sort throws the cycle error instead of returning an order: the
output child starts with in-degree 0 and is enqueued, and when `A` is
dequeued the output's in-degree (already 0) is not above 1, so it is
enqueued a second time (Node.cpp lines 295-303); the visit count then
exceeds the child count and the cycle check fires. -/
theorem topologicalSort_acyclic_failure :
    ¬ hasCycle exGraphOut ∧
    topologicalSort exGraphOut = .cycleError (cycleMsg exGraphOut) := by
  constructor
  · rintro ⟨s, h⟩
    have hnone : ∀ a b, ¬ Relation.TransGen (producerOf exGraphOut) a b := by
      intro a b hab
      induction hab with
      | single h1 => exact not_producerOf_exGraphOut _ _ h1
      | tail _ h1 _ => exact not_producerOf_exGraphOut _ _ h1
    exact hnone s s h
  · decide

theorem producerOf_X_Y : producerOf exGraphCyc "X" "Y" := by
  refine ⟨exNodeX, exInput "in" (some "Y"), ?_, ?_, ?_, ?_, ?_⟩ <;> decide

theorem producerOf_Y_X : producerOf exGraphCyc "Y" "X" := by
  refine ⟨exNodeY, exInput "in" (some "X"), ?_, ?_, ?_, ?_, ?_⟩ <;> decide

/-- **C2 (counterexample).**  The claim asserts that on *every* graph whose
children contain a connection cycle the sort fails with the cycle error
and returns no partial order.  `exGraphCyc` contains the cycle `X ↔ Y`,
but also a node `A` feeding two output children: each output is dequeued
twice (see `topologicalSort_acyclic_failure`), the visit count reaches the
child count exactly, the cycle check does not fire, and the sort silently
returns a truncated order that omits `X` and `Y` and duplicates the
outputs. -/
theorem topologicalSort_misses_cycle :
    hasCycle exGraphCyc ∧
    topologicalSort exGraphCyc =
      .ok [.node exNodeA, .output exOutO1, .output exOutO2,
           .output exOutO1, .output exOutO2] := by
  constructor
  · exact ⟨"X", Relation.TransGen.tail (Relation.TransGen.single producerOf_X_Y)
      producerOf_Y_X⟩
  · decide

/-! ## Topological sort: correctness on graphs of uniquely-named nodes
(claims C1, C2, amended) -/

theorem mx_sum_map_add {α : Type} (l : List α) (f f' : α → Nat) :
    (l.map fun a => f a + f' a).sum = (l.map f).sum + (l.map f').sum := by
  induction l with
  | nil => rfl
  | cons a t ih => simp [ih]; omega

theorem mx_sum_comm {α β : Type} (l₁ : List α) (l₂ : List β) (f : α → β → Nat) :
    (l₁.map fun a => (l₂.map (f a)).sum).sum =
      (l₂.map fun b => (l₁.map fun a => f a b).sum).sum := by
  induction l₁ with
  | nil => simp
  | cons a t ih =>
    simp only [List.map_cons, List.sum_cons, ih]
    rw [← mx_sum_map_add]

theorem mx_countP_eq_sum {α : Type} (l : List α) (p : α → Bool) :
    l.countP p = (l.map fun a => if p a then 1 else 0).sum := by
  induction l with
  | nil => rfl
  | cons a t ih =>
    rw [List.countP_cons]
    simp only [List.map_cons, List.sum_cons, ih]
    by_cases h : p a <;> simp [h] <;> omega

theorem mx_count_eq_sum {α : Type} [DecidableEq α] (l : List α) (e : α) :
    l.count e = (l.map fun a => if a = e then 1 else 0).sum := by
  induction l with
  | nil => rfl
  | cons a t ih =>
    rw [List.count_cons]
    simp only [List.map_cons, List.sum_cons, ih]
    by_cases h : a = e <;> simp [h] <;> omega

theorem mx_sublist_sum_le {l₁ l₂ : List Nat} (h : l₁.Sublist l₂) : l₁.sum ≤ l₂.sum := by
  induction h with
  | slnil => exact Nat.le_refl 0
  | cons a _ ih => simp; omega
  | cons₂ a _ ih => simp; omega

theorem mx_subperm_map_sum_le {α : Type} {l₁ l₂ : List α} (f : α → Nat)
    (h : l₁.Subperm l₂) : (l₁.map f).sum ≤ (l₂.map f).sum := by
  obtain ⟨l', hperm, hsub⟩ := h
  calc (l₁.map f).sum = (l'.map f).sum := (hperm.map f).sum_eq.symm
    _ ≤ (l₂.map f).sum := mx_sublist_sum_le (hsub.map f)

/-- The node-lookup body used by `NodeGraph.getNode`. -/
theorem getNode_eq_findSome (g : NodeGraph) (s : String) :
    g.getNode s = g.children.findSome? (fun c =>
      match c with
      | .node n => if n.name = s then some n else none
      | .output _ => none) := rfl

theorem findNode_name {cs : List Child} {s : String} {y : Node}
    (h : cs.findSome? (fun c =>
      match c with
      | .node n => if n.name = s then some n else none
      | .output _ => none) = some y) : y.name = s := by
  induction cs with
  | nil => simp at h
  | cons c t ih =>
    rw [List.findSome?_cons] at h
    cases c with
    | node n =>
      by_cases hn : n.name = s
      · simp only [if_pos hn] at h
        cases h
        exact hn
      · simp only [if_neg hn] at h
        exact ih h
    | output o => exact ih h

theorem findNode_mem {cs : List Child} {s : String} {y : Node}
    (h : cs.findSome? (fun c =>
      match c with
      | .node n => if n.name = s then some n else none
      | .output _ => none) = some y) : Child.node y ∈ cs := by
  induction cs with
  | nil => simp at h
  | cons c t ih =>
    rw [List.findSome?_cons] at h
    cases c with
    | node n =>
      by_cases hn : n.name = s
      · simp only [if_pos hn] at h
        cases h
        exact List.mem_cons_self _ _
      · simp only [if_neg hn] at h
        exact List.mem_cons_of_mem _ (ih h)
    | output o => exact List.mem_cons_of_mem _ (ih h)

theorem getNode_name {g : NodeGraph} {s : String} {y : Node}
    (h : g.getNode s = some y) : y.name = s :=
  findNode_name (by rw [← getNode_eq_findSome]; exact h)

theorem getNode_mem {g : NodeGraph} {s : String} {y : Node}
    (h : g.getNode s = some y) : Child.node y ∈ g.children :=
  findNode_mem (by rw [← getNode_eq_findSome]; exact h)

theorem findNode_self {cs : List Child} (hd : (cs.map Child.name).Nodup) {x : Node}
    (hx : Child.node x ∈ cs) :
    cs.findSome? (fun c =>
      match c with
      | .node n => if n.name = x.name then some n else none
      | .output _ => none) = some x := by
  induction cs with
  | nil => simp at hx
  | cons c t ih =>
    rw [List.map_cons, List.nodup_cons] at hd
    rw [List.findSome?_cons]
    rcases List.mem_cons.mp hx with heq | hmem
    · cases heq
      simp
    · have hne : c.name ≠ x.name := by
        intro he
        exact hd.1 (he ▸ (List.mem_map.mpr ⟨_, hmem, rfl⟩))
      cases c with
      | node n =>
        simp only [Child.name] at hne
        simp only [if_neg hne]
        exact ih hd.2 hmem
      | output o => exact ih hd.2 hmem

theorem getNode_self {g : NodeGraph} (hd : (g.children.map Child.name).Nodup) {x : Node}
    (hx : Child.node x ∈ g.children) : g.getNode x.name = some x := by
  rw [getNode_eq_findSome]
  exact findNode_self hd hx

theorem child_name_inj {g : NodeGraph} (hd : (g.children.map Child.name).Nodup)
    {c₁ c₂ : Child} (h₁ : c₁ ∈ g.children) (h₂ : c₂ ∈ g.children)
    (hn : c₁.name = c₂.name) : c₁ = c₂ :=
  List.inj_on_of_nodup_map hd h₁ h₂ hn

theorem mx_sum_ite_zero {α : Type} [DecidableEq α] {l : List α} {e : α}
    (h : l.count e = 0) (m : α → Nat) :
    (l.map fun c => if c = e then m c else 0).sum = 0 := by
  induction l with
  | nil => rfl
  | cons a t ih =>
    rw [List.count_cons] at h
    have ha : a ≠ e := by
      intro he
      simp [he] at h
    have ht : t.count e = 0 := by
      simp [ha] at h
      omega
    simp [ha, ih ht]

theorem mx_sum_ite_eq {α : Type} [DecidableEq α] {l : List α} {e : α}
    (h : l.count e = 1) (m : α → Nat) :
    (l.map fun c => if c = e then m c else 0).sum = m e := by
  induction l with
  | nil => simp at h
  | cons a t ih =>
    rw [List.count_cons] at h
    by_cases ha : a = e
    · have ht : t.count e = 0 := by
        simp [ha] at h
        omega
      cases ha
      simp [mx_sum_ite_zero ht m]
    · have ht : t.count e = 1 := by
        simp [ha] at h
        omega
      simp [ha, ih ht]

theorem mx_count_map_const {α β : Type} [DecidableEq β] (l : List α) (c e : β) :
    (l.map fun _ => c).count e = if c = e then l.length else 0 := by
  induction l with
  | nil => simp
  | cons a t ih =>
    rw [List.map_cons, List.count_cons, ih]
    by_cases h : c = e
    · subst h
      simp
    · have hb : ¬ (e == c) = true := fun hb => h (beq_iff_eq.mp hb).symm
      simp [h, hb]

/-- A child with a unique name occurs exactly once among the children. -/
theorem count_children_eq_one {g : NodeGraph} (hd : (g.children.map Child.name).Nodup)
    {e : Child} (he : e ∈ g.children) : g.children.count e = 1 := by
  have hnodup : g.children.Nodup := hd.of_map
  have h1 := List.nodup_iff_count_le_one.mp hnodup e
  have h2 : 0 < g.children.count e := List.count_pos_iff_mem.mpr he
  omega

/-- One child's downstream entries counted at a child value `e`. -/
theorem count_dsEntries_snd (g : NodeGraph) (x : Node) (c e : Child) :
    ((dsEntries g x c).map Prod.snd).count e = if c = e then dsMult g x c else 0 := by
  cases c with
  | node p =>
    simp only [dsEntries, dsMult, List.map_map]
    have hc : (Prod.snd ∘ fun v : ValueElem =>
        (PortRef.nodeInput p.name v.name, Child.node p)) = fun _ => Child.node p := rfl
    rw [hc, mx_count_map_const]
  | output o =>
    by_cases ho : o.nodeName = some x.name ∧ o.getConnectedNode g = some x
    · simp only [dsEntries, dsMult, if_pos ho, List.map_cons, List.map_nil]
      by_cases he : Child.output o = e
      · simp [he, List.count_cons]
      · rw [List.count_cons, List.count_nil, if_neg he]
        have hb : ¬ (e == Child.output o) = true := by
          intro h
          exact he (eq_comm.mp (beq_iff_eq.mp h))
        simp [hb, he]
    · simp only [dsEntries, dsMult, if_neg ho]
      simp

/-- Every downstream-scan entry for node `x` pairs a port with the child
that owns it, so the downstream-element multiset counts each child `e`
once per entry it contributes. -/
theorem count_downstream_snd_sum (g : NodeGraph) (x : Node) (e : Child) :
    ((downstreamPortsFull g x).map Prod.snd).count e =
      (g.children.map fun c => if c = e then dsMult g x c else 0).sum := by
  unfold downstreamPortsFull
  induction g.children with
  | nil => simp
  | cons c t ih =>
    rw [List.foldr_cons, List.map_append, List.count_append, ih]
    rw [List.map_cons, List.sum_cons, count_dsEntries_snd]

/-- For a node child `e` of a uniquely-named graph, the downstream scan of
`x` delivers exactly `connCount g e x` events to `e`. -/
theorem count_downstream_snd {g : NodeGraph} (hd : (g.children.map Child.name).Nodup)
    {x : Node} {e : Child} (he : e ∈ g.children) (hen : e.isNode = true) :
    ((downstreamPortsFull g x).map Prod.snd).count e = connCount g e x := by
  rw [count_downstream_snd_sum, mx_sum_ite_eq (count_children_eq_one hd he)]
  cases e with
  | node p => rfl
  | output o => exact absurd hen (by simp [Child.isNode])

theorem upstreamEdge_isSome_pt (g : NodeGraph) (x : Node) (i : Nat) :
    (x.getUpstreamEdge g i).isSome =
      optApp (fun v => (v.getConnectedNode g).isSome) x.getInputs[i]? := by
  unfold Node.getUpstreamEdge
  cases hi : x.getInputs[i]? with
  | some v =>
    show (match v.getConnectedNode g with
          | some up => some (⟨x, v, up⟩ : Edge)
          | none => none).isSome = (v.getConnectedNode g).isSome
    cases v.getConnectedNode g with
    | some u => rfl
    | none => rfl
  | none => rfl

theorem mx_range_filter_getElem {α : Type} (l : List α) (q : α → Bool) :
    ((List.range l.length).filter fun i => optApp q l[i]?).length = l.countP q := by
  induction l with
  | nil => simp
  | cons a t ih =>
    rw [List.length_cons, List.range_succ_eq_map, List.filter_cons]
    have h0 : optApp q (a :: t)[(0 : Nat)]? = q a := by
      simp [optApp]
    have hmap : (((List.range t.length).map Nat.succ).filter fun i =>
        optApp q (a :: t)[i]?) =
        ((List.range t.length).filter fun i => optApp q t[i]?).map Nat.succ := by
      rw [List.filter_map]
      congr 1
      apply List.filter_congr
      intro i _
      simp [Function.comp]
    rw [List.countP_cons]
    by_cases hq : q a = true
    · rw [h0, if_pos hq, List.length_cons, hmap, List.length_map, ih]
      simp [hq]
    · rw [h0, if_neg hq, hmap, List.length_map, ih]
      simp [hq]

/-- The in-degree loop counts exactly the inputs whose connection
resolves. -/
theorem connectionCount_node (g : NodeGraph) (x : Node) :
    connectionCount g (Child.node x) =
      x.getInputs.countP fun v => (v.getConnectedNode g).isSome := by
  show ((List.range x.getInputs.length).filter
      fun i => (x.getUpstreamEdge g i).isSome).length = _
  rw [List.filter_congr (fun i _ => upstreamEdge_isSome_pt g x i)]
  exact mx_range_filter_getElem x.getInputs (fun v => (v.getConnectedNode g).isSome)

/-- `connOf` as a count over the consumer's ports. -/
theorem connOf_node_countP (g : NodeGraph) (x : Node) (c : Child) :
    connOf g (Child.node x) c = x.ports.countP fun v => resolvesTo g v c := by
  cases c with
  | node y =>
    show connCount g (Child.node x) y = _
    show (x.ports.filter fun v => v.kind = PortKind.input ∧ v.nodeName = some y.name ∧
        v.getConnectedNode g = some y).length = _
    rw [← List.countP_eq_length_filter]
    rfl
  | output o =>
    show 0 = _
    rw [eq_comm]
    exact List.countP_eq_zero.mpr (fun v _ => by simp [resolvesTo])

/-- Summing the per-producer event indicator of one port over all children
yields the port's resolving-connection indicator. -/
theorem port_indicator_sum {g : NodeGraph} (hd : (g.children.map Child.name).Nodup)
    (v : ValueElem) :
    (g.children.map fun c => if resolvesTo g v c then (1 : Nat) else 0).sum =
      if ((v.getConnectedNode g).isSome && decide (v.kind = PortKind.input)) then 1 else 0 := by
  by_cases hk : v.kind = PortKind.input
  · cases hres : v.getConnectedNode g with
    | some y0 =>
      have hy0pair : v.nodeName = some y0.name ∧ Child.node y0 ∈ g.children := by
        unfold ValueElem.getConnectedNode at hres
        cases hnn : v.nodeName with
        | none => rw [hnn] at hres; simp at hres
        | some s =>
          rw [hnn] at hres
          have hres2 : g.getNode s = some y0 := hres
          exact ⟨by rw [getNode_name hres2], getNode_mem hres2⟩
      have hpt : ∀ c ∈ g.children, (if resolvesTo g v c then (1 : Nat) else 0) =
          (if c = Child.node y0 then (1 : Nat) else 0) := by
        intro c _
        cases c with
        | node y =>
          by_cases hy : y = y0
          · have ht : resolvesTo g v (Child.node y) = true := by
              rw [hy]
              exact decide_eq_true ⟨hk, hy0pair.1, hres⟩
            rw [ht, if_pos (congrArg Child.node hy)]
            simp
          · have hf : ¬ resolvesTo g v (Child.node y) = true := by
              intro hr
              rcases of_decide_eq_true hr with ⟨-, -, hres'⟩
              rw [hres] at hres'
              exact hy (Option.some.inj hres').symm
            have hne : ¬ (Child.node y = Child.node y0) := by
              intro hc
              cases hc
              exact hy rfl
            rw [if_neg hf, if_neg hne]
        | output o =>
          have hf : resolvesTo g v (Child.output o) = false := rfl
          rw [hf, if_neg (fun h => Child.noConfusion h)]
          simp
      rw [List.map_congr_left hpt, ← mx_count_eq_sum,
        count_children_eq_one hd hy0pair.2]
      simp [hk]
    | none =>
      have hz : ∀ c ∈ g.children, (if resolvesTo g v c then (1 : Nat) else 0) = 0 := by
        intro c _
        cases c with
        | node y =>
          have hf : ¬ resolvesTo g v (Child.node y) = true := by
            intro hr
            rcases of_decide_eq_true hr with ⟨-, -, hres'⟩
            rw [hres] at hres'
            exact Option.noConfusion hres'
          rw [if_neg hf]
        | output o =>
          have hf : resolvesTo g v (Child.output o) = false := rfl
          rw [hf]
          simp
      rw [List.map_congr_left hz]
      simp
  · have hz : ∀ c ∈ g.children, (if resolvesTo g v c then (1 : Nat) else 0) = 0 := by
      intro c _
      cases c with
      | node y =>
        have hf : ¬ resolvesTo g v (Child.node y) = true := by
          intro hr
          exact hk (of_decide_eq_true hr).1
        rw [if_neg hf]
      | output o =>
        have hf : resolvesTo g v (Child.output o) = false := rfl
        rw [hf]
        simp
    rw [List.map_congr_left hz]
    simp [hk]

/-- The in-degree of a node child equals the total number of events all
children would deliver to it: Kahn's counting identity. -/
theorem connectionCount_eq_evAll {g : NodeGraph} (hd : (g.children.map Child.name).Nodup)
    (x : Node) :
    connectionCount g (Child.node x) = evCount g g.children (Child.node x) := by
  rw [connectionCount_node]
  have hfil : x.getInputs.countP (fun v => (v.getConnectedNode g).isSome) =
      x.ports.countP fun v =>
        ((v.getConnectedNode g).isSome && decide (v.kind = PortKind.input)) := by
    unfold Node.getInputs
    rw [List.countP_filter]
  rw [hfil, mx_countP_eq_sum]
  have hpt : ∀ v ∈ x.ports,
      (if ((v.getConnectedNode g).isSome && decide (v.kind = PortKind.input)) = true
        then (1 : Nat) else 0) =
      (g.children.map fun c => if resolvesTo g v c then (1 : Nat) else 0).sum := by
    intro v _
    rw [port_indicator_sum hd v]
  rw [List.map_congr_left hpt, mx_sum_comm]
  unfold evCount
  apply congrArg List.sum
  apply List.map_congr_left
  intro c _
  rw [connOf_node_countP, mx_countP_eq_sum]

theorem connCount_pos_mem {g : NodeGraph} {e : Child} {x : Node}
    (h : 0 < connCount g e x) :
    Child.node x ∈ g.children ∧ g.getNode x.name = some x := by
  cases e with
  | output o => exact absurd h (by simp [connCount])
  | node p =>
    unfold connCount at h
    rw [List.length_pos] at h
    obtain ⟨v, hv⟩ := List.exists_mem_of_ne_nil _ h
    rcases List.mem_filter.mp hv with ⟨-, hprop⟩
    rcases of_decide_eq_true hprop with ⟨-, hnn, hres⟩
    unfold ValueElem.getConnectedNode at hres
    rw [hnn] at hres
    have hres2 : g.getNode x.name = some x := hres
    exact ⟨getNode_mem hres2, hres2⟩

theorem connCount_pos_producerOf {g : NodeGraph} (hd : (g.children.map Child.name).Nodup)
    {p x : Node} (hp : Child.node p ∈ g.children)
    (h : 0 < connCount g (Child.node p) x) : producerOf g p.name x.name := by
  unfold connCount at h
  rw [List.length_pos] at h
  obtain ⟨v, hv⟩ := List.exists_mem_of_ne_nil _ h
  rcases List.mem_filter.mp hv with ⟨hvmem, hprop⟩
  rcases of_decide_eq_true hprop with ⟨hkind, hnn, hres⟩
  refine ⟨p, v, getNode_self hd hp, hvmem, hkind, hnn, ?_⟩
  unfold ValueElem.getConnectedNode at hres
  rw [hnn] at hres
  have hres2 : g.getNode x.name = some x := hres
  rw [hres2]
  rfl

/-- A `producerOf` fact names two resolvable children and yields a
positive `connCount` between them. -/
theorem producerOf_connCount {g : NodeGraph} {a b : String}
    (h : producerOf g a b) :
    ∃ p y, g.getNode a = some p ∧ g.getNode b = some y ∧
      0 < connCount g (Child.node p) y ∧ p.name = a ∧ y.name = b := by
  rcases h with ⟨p, v, hget, hvmem, hkind, hnn, hbsome⟩
  cases hy : g.getNode b with
  | none => rw [hy] at hbsome; exact absurd hbsome (by simp)
  | some y =>
    refine ⟨p, y, hget, rfl, ?_, getNode_name hget, getNode_name hy⟩
    unfold connCount
    rw [List.length_pos]
    intro hnil
    have : v ∈ (p.ports.filter fun w => decide (w.kind = PortKind.input ∧
        w.nodeName = some y.name ∧ w.getConnectedNode g = some y)) := by
      apply List.mem_filter.mpr
      refine ⟨hvmem, decide_eq_true ⟨hkind, ?_, ?_⟩⟩
      · rw [hnn, getNode_name hy]
      · unfold ValueElem.getConnectedNode
        rw [hnn]
        show g.getNode b = some y
        exact hy
    rw [hnil] at this
    exact absurd this (List.not_mem_nil v)

/-- Appending one dequeued child to the processed list adds its events. -/
theorem evCount_append (g : NodeGraph) (res : List Child) (c e : Child) :
    evCount g (res ++ [c]) e = evCount g res e + connOf g e c := by
  unfold evCount
  rw [List.map_append, List.sum_append]
  simp

/-- Sums of `connOf` over a duplicate-free set of children are bounded by
the in-degree. -/
theorem sum_connOf_le {g : NodeGraph} (hd : (g.children.map Child.name).Nodup)
    {l : List Child} (hnodup : l.Nodup) (hsub : ∀ c ∈ l, c ∈ g.children) (x : Node) :
    (l.map (connOf g (Child.node x))).sum ≤ connectionCount g (Child.node x) := by
  rw [connectionCount_eq_evAll hd]
  exact mx_subperm_map_sum_le _ (List.subperm_of_subset hnodup hsub)

theorem mx_sum_filter_pos {α : Type} (l : List α) (f : α → Nat) :
    ((l.filter fun a => decide (0 < f a)).map f).sum = (l.map f).sum := by
  induction l with
  | nil => rfl
  | cons a t ih =>
    rw [List.filter_cons]
    by_cases h : 0 < f a
    · rw [if_pos (decide_eq_true h), List.map_cons, List.sum_cons, ih,
        List.map_cons, List.sum_cons]
    · have hz : f a = 0 := by omega
      rw [if_neg (by simpa using h), ih, List.map_cons, List.sum_cons, hz]
      omega

/-- Every downstream-scan entry pairs a port with the child owning it. -/
theorem dsEntries_snd_eq {g : NodeGraph} {x : Node} {c : Child} {pr : PortRef × Child}
    (h : pr ∈ dsEntries g x c) : pr.2 = c := by
  cases c with
  | node p =>
    simp only [dsEntries] at h
    rcases List.mem_map.mp h with ⟨v, -, hv⟩
    rw [← hv]
  | output o =>
    simp only [dsEntries] at h
    by_cases ho : o.nodeName = some x.name ∧ o.getConnectedNode g = some x
    · rw [if_pos ho] at h
      cases List.mem_singleton.mp h
      rfl
    · rw [if_neg ho] at h
      exact absurd h (List.not_mem_nil pr)

theorem mem_downstream_cases {g : NodeGraph} {x : Node} {pr : PortRef × Child} :
    ∀ cs : List Child, pr ∈ cs.foldr (fun c acc => dsEntries g x c ++ acc) [] →
      ∃ c ∈ cs, pr ∈ dsEntries g x c := by
  intro cs
  induction cs with
  | nil => intro h2; exact absurd h2 (List.not_mem_nil pr)
  | cons c t ih =>
    intro h2
    rw [List.foldr_cons] at h2
    rcases List.mem_append.mp h2 with h2 | h2
    · exact ⟨c, List.mem_cons_self c t, h2⟩
    · rcases ih h2 with ⟨c', hc', hpr⟩
      exact ⟨c', List.mem_cons_of_mem c hc', hpr⟩

/-- Every member of the downstream scan's element column is a child. -/
theorem dsSnd_mem {g : NodeGraph} {x : Node} {e : Child}
    (h : e ∈ (downstreamPortsFull g x).map Prod.snd) : e ∈ g.children := by
  rcases List.mem_map.mp h with ⟨pr, hpr, hsnd⟩
  subst hsnd
  rcases mem_downstream_cases g.children hpr with ⟨c, hc, hpr2⟩
  rw [dsEntries_snd_eq hpr2]
  exact hc

theorem processPorts_cons (deg : String → Nat) (qq : List Child) (e : Child)
    (ts : List Child) :
    processPorts deg qq (e :: ts) =
      if deg e.name > 1
      then processPorts (updDeg deg e.name (deg e.name - 1)) qq ts
      else processPorts (updDeg deg e.name 0) (qq ++ [e]) ts := by
  by_cases hbr : deg e.name > 1
  · rw [if_pos hbr]
    simp only [processPorts, List.foldl_cons]
    rw [if_pos hbr]
  · rw [if_neg hbr]
    simp only [processPorts, List.foldl_cons]
    rw [if_neg hbr]

theorem updDeg_self (deg : String → Nat) (s : String) (v : Nat) :
    updDeg deg s v s = v := by
  simp [updDeg]

theorem updDeg_other (deg : String → Nat) {s t : String} (v : Nat) (h : t ≠ s) :
    updDeg deg s v t = deg t := by
  simp [updDeg, h]

/-- Processing a node's downstream elements preserves the mid-processing
invariant, accumulating the delivered events. -/
theorem processPorts_fold {g : NodeGraph}
    (HN : ∀ c ∈ g.children, c.isNode = true)
    (hd : (g.children.map Child.name).Nodup)
    (x : Node) (result : List Child)
    (hres_sub : ∀ c ∈ result, c ∈ g.children)
    (hxmem : Child.node x ∈ g.children) :
    ∀ (todo qq : List Child) (deg : String → Nat) (pf : Child → Nat),
      (∀ c ∈ todo, c ∈ g.children) →
      (∀ e ∈ g.children, pf e + todo.count e = connCount g e x) →
      MidInv g x result qq deg pf →
      MidInv g x result (processPorts deg qq todo).2 (processPorts deg qq todo).1
        (fun e => pf e + todo.count e) := by
  intro todo
  induction todo with
  | nil =>
    intro qq deg pf htodo hpf hmid
    have hfix : (fun e => pf e + ([] : List Child).count e) = pf := by
      funext e
      simp
    rw [hfix]
    exact hmid
  | cons e₀ ts ih =>
    intro qq deg pf htodo hpf hmid
    obtain ⟨J0, J1, J2, J3⟩ := hmid
    have he₀ : e₀ ∈ g.children := htodo e₀ (List.mem_cons_self _ _)
    obtain ⟨p₀, hp₀⟩ : ∃ p, e₀ = Child.node p := by
      cases hk : e₀ with
      | node p => exact ⟨p, rfl⟩
      | output o => exact absurd (HN e₀ he₀) (by rw [hk]; simp [Child.isNode])
    subst hp₀
    have hD := J2 _ he₀
    have hcnt_self : (Child.node p₀ :: ts).count (Child.node p₀) =
        ts.count (Child.node p₀) + 1 := by
      simp [List.count_cons]
    have hpend : pf (Child.node p₀) + 1 ≤ connCount g (Child.node p₀) x := by
      have h1 := hpf _ he₀
      omega
    have hbig_le : ∀ a, (result ++ Child.node x :: qq).count a ≤ 1 := by
      intro a
      by_cases ha : a ∈ g.children
      · rw [J1 a ha]
        split <;> omega
      · have h1 : result.count a = 0 :=
          List.count_eq_zero.mpr (fun hmem => ha (hres_sub a hmem))
        have h2 : qq.count a = 0 := List.count_eq_zero.mpr (fun hmem => ha (J0 a hmem))
        rw [List.count_append, List.count_cons, h1, h2]
        split <;> omega
    have hrx_nodup : (result ++ [Child.node x]).Nodup := by
      apply List.nodup_iff_count_le_one.mpr
      intro a
      calc (result ++ [Child.node x]).count a
          ≤ (result ++ Child.node x :: qq).count a := by
            apply List.Sublist.count_le
            exact List.Sublist.append_left ((List.nil_sublist qq).cons₂ _) result
        _ ≤ 1 := hbig_le a
    have hrx_sub : ∀ c ∈ result ++ [Child.node x], c ∈ g.children := by
      intro c hc
      rcases List.mem_append.mp hc with hc | hc
      · exact hres_sub c hc
      · cases List.mem_singleton.mp hc
        exact hxmem
    have hsum_rx : ((result ++ [Child.node x]).map (connOf g (Child.node p₀))).sum =
        evCount g result (Child.node p₀) + connCount g (Child.node p₀) x := by
      rw [List.map_append, List.sum_append]
      rfl
    have hkey : evCount g result (Child.node p₀) + pf (Child.node p₀) + 1 ≤
        connectionCount g (Child.node p₀) := by
      have hle := sum_connOf_le hd hrx_nodup hrx_sub p₀
      rw [hsum_rx] at hle
      omega
    obtain ⟨pf', hpfs, hpfo⟩ : ∃ pf' : Child → Nat,
        pf' (Child.node p₀) = pf (Child.node p₀) + 1 ∧
        ∀ e, e ≠ Child.node p₀ → pf' e = pf e :=
      ⟨fun e => if e = Child.node p₀ then pf e + 1 else pf e, by simp,
        fun e he => by simp [he]⟩
    have hcount_ne : ∀ e, e ≠ Child.node p₀ →
        (Child.node p₀ :: ts).count e = ts.count e := by
      intro e hee
      have hb : ¬ (Child.node p₀ == e) = true := fun hb =>
        hee (beq_iff_eq.mp hb).symm
      rw [List.count_cons, if_neg hb]
      omega
    have hfun : (fun e => pf' e + ts.count e) =
        (fun e => pf e + (Child.node p₀ :: ts).count e) := by
      funext e
      by_cases hee : e = Child.node p₀
      · subst hee
        rw [hpfs, hcnt_self]
        omega
      · rw [hpfo e hee, hcount_ne e hee]
    have hpf' : ∀ e ∈ g.children, pf' e + ts.count e = connCount g e x := by
      intro e he
      have h1 := hpf e he
      by_cases hee : e = Child.node p₀
      · subst hee
        rw [hpfs]
        omega
      · rw [hpfo e hee]
        rw [hcount_ne e hee] at h1
        exact h1
    have htodo' : ∀ c ∈ ts, c ∈ g.children :=
      fun c hc => htodo c (List.mem_cons_of_mem _ hc)
    rw [processPorts_cons]
    by_cases hbr : deg (Child.node p₀).name > 1
    · rw [if_pos hbr, ← hfun]
      apply ih qq _ pf' htodo' hpf'
      refine ⟨J0, ?_, ?_, J3⟩
      · intro e he
        by_cases hee : e = Child.node p₀
        · subst hee
          rw [J1 _ he, hpfs]
          have c1 : ¬ (connectionCount g (Child.node p₀) ≤
              evCount g result (Child.node p₀) + pf (Child.node p₀)) := by
            omega
          have c2 : ¬ (connectionCount g (Child.node p₀) ≤
              evCount g result (Child.node p₀) + (pf (Child.node p₀) + 1)) := by
            omega
          rw [if_neg c1, if_neg c2]
        · rw [J1 _ he, hpfo e hee]
      · intro e he
        by_cases hee : e = Child.node p₀
        · subst hee
          rw [updDeg_self, hpfs]
          omega
        · have hne : e.name ≠ (Child.node p₀).name := fun hn =>
            hee (child_name_inj hd he he₀ hn)
          rw [updDeg_other _ _ hne, hpfo e hee, J2 _ he]
    · rw [if_neg hbr, ← hfun]
      have hDeq : connectionCount g (Child.node p₀) =
          evCount g result (Child.node p₀) + pf (Child.node p₀) + 1 := by
        omega
      apply ih (qq ++ [Child.node p₀]) _ pf' htodo' hpf'
      refine ⟨?_, ?_, ?_, ?_⟩
      · intro c hc
        rcases List.mem_append.mp hc with hc | hc
        · exact J0 c hc
        · cases List.mem_singleton.mp hc
          exact he₀
      · intro e he
        have hsplit : (result ++ Child.node x :: (qq ++ [Child.node p₀])).count e =
            (result ++ Child.node x :: qq).count e + [Child.node p₀].count e := by
          simp only [List.count_append, List.count_cons]
          omega
        by_cases hee : e = Child.node p₀
        · subst hee
          rw [hsplit, J1 _ he, hpfs]
          have h1 : [Child.node p₀].count (Child.node p₀) = 1 := by
            simp
          have c1 : ¬ (connectionCount g (Child.node p₀) ≤
              evCount g result (Child.node p₀) + pf (Child.node p₀)) := by
            omega
          have c2 : connectionCount g (Child.node p₀) ≤
              evCount g result (Child.node p₀) + (pf (Child.node p₀) + 1) := by
            omega
          rw [h1, if_neg c1, if_pos c2]
        · rw [hsplit, J1 _ he, hpfo e hee]
          have h1 : [Child.node p₀].count e = 0 := by
            apply List.count_eq_zero.mpr
            intro hm
            exact hee (List.mem_singleton.mp hm)
          rw [h1]
          omega
      · intro e he
        by_cases hee : e = Child.node p₀
        · subst hee
          rw [updDeg_self, hpfs]
          omega
        · have hne : e.name ≠ (Child.node p₀).name := fun hn =>
            hee (child_name_inj hd he he₀ hn)
          rw [updDeg_other _ _ hne, hpfo e hee, J2 _ he]
      · intro c hc y hy
        rcases List.mem_append.mp hc with hc | hc
        · exact J3 c hc y hy
        · cases List.mem_singleton.mp hc
          by_contra hny
          have hymem : Child.node y ∈ g.children := (connCount_pos_mem hy).1
          have hl_nodup : ((result ++ [Child.node x]) ++ [Child.node y]).Nodup := by
            apply List.nodup_iff_count_le_one.mpr
            intro a
            rw [List.count_append]
            by_cases hay : a = Child.node y
            · subst hay
              have h0 : (result ++ [Child.node x]).count (Child.node y) = 0 :=
                List.count_eq_zero.mpr hny
              rw [h0]
              simp
            · have h1 : [Child.node y].count a = 0 := by
                apply List.count_eq_zero.mpr
                intro hm
                exact hay (List.mem_singleton.mp hm)
              rw [h1]
              have h2 := List.nodup_iff_count_le_one.mp hrx_nodup a
              omega
          have hl_sub : ∀ c' ∈ (result ++ [Child.node x]) ++ [Child.node y],
              c' ∈ g.children := by
            intro c' hc'
            rcases List.mem_append.mp hc' with hc' | hc'
            · exact hrx_sub c' hc'
            · cases List.mem_singleton.mp hc'
              exact hymem
          have hle := sum_connOf_le hd hl_nodup hl_sub p₀
          rw [List.map_append, List.sum_append, hsum_rx] at hle
          have hy1 : ([Child.node y].map (connOf g (Child.node p₀))).sum =
              connCount g (Child.node p₀) y := by
            simp [connOf]
          rw [hy1] at hle
          omega

/-- Dequeueing a node child and processing its downstream elements
preserves the sort invariant. -/
theorem sortInv_step {g : NodeGraph}
    (HN : ∀ c ∈ g.children, c.isNode = true)
    (hd : (g.children.map Child.name).Nodup)
    {deg : String → Nat} {rest result : List Child} {visitCount : Nat} {x : Node}
    (hinv : SortInv g deg (Child.node x :: rest) result visitCount) :
    SortInv g (processPorts deg rest ((downstreamPortsFull g x).map Prod.snd)).1
      (processPorts deg rest ((downstreamPortsFull g x).map Prod.snd)).2
      (result ++ [Child.node x]) (visitCount + 1) := by
  obtain ⟨I1, Iq, Ir, I2, I3, I4, I7⟩ := hinv
  have hxmem : Child.node x ∈ g.children := Iq _ (List.mem_cons_self _ _)
  have hrest_sub : ∀ c ∈ rest, c ∈ g.children :=
    fun c hc => Iq c (List.mem_cons_of_mem _ hc)
  have hmid0 : MidInv g x result rest deg (fun _ => 0) := by
    refine ⟨hrest_sub, ?_, ?_, ?_⟩
    · intro e he
      have h := I2 e he
      simpa using h
    · intro e he
      have h := I3 e he
      simpa using h
    · intro c hc y hy
      exact List.mem_append_left _ (I4 c (List.mem_cons_of_mem _ hc) y hy)
  have hpf0 : ∀ e ∈ g.children,
      (fun _ => (0 : Nat)) e + ((downstreamPortsFull g x).map Prod.snd).count e =
        connCount g e x := by
    intro e he
    have h := @count_downstream_snd g hd x e he (HN e he)
    simpa using h
  have htodo0 : ∀ c ∈ (downstreamPortsFull g x).map Prod.snd, c ∈ g.children :=
    fun c hc => dsSnd_mem hc
  obtain ⟨K0, K1, K2, K3⟩ :=
    processPorts_fold HN hd x result Ir hxmem _ rest deg _ htodo0 hpf0 hmid0
  have hlist : ∀ l : List Child, (result ++ [Child.node x]) ++ l =
      result ++ Child.node x :: l := by
    intro l
    rw [List.append_assoc]
    rfl
  have hev : ∀ e ∈ g.children, evCount g (result ++ [Child.node x]) e =
      evCount g result e + ((fun _ => (0 : Nat)) e +
        ((downstreamPortsFull g x).map Prod.snd).count e) := by
    intro e he
    rw [evCount_append, hpf0 e he]
    cases e with
    | node p => rfl
    | output o => rfl
  refine ⟨?_, K0, ?_, ?_, ?_, K3, ?_⟩
  · rw [List.length_append, List.length_singleton, I1]
  · intro c hc
    rcases List.mem_append.mp hc with hc | hc
    · exact Ir c hc
    · cases List.mem_singleton.mp hc
      exact hxmem
  · intro e he
    rw [hlist, K1 e he, hev e he]
  · intro e he
    rw [K2 e he, hev e he]
  · intro i cx hi y hy
    have hilen : i < (result ++ [Child.node x]).length := by
      by_contra hge
      rw [List.getElem?_eq_none (Nat.le_of_not_lt hge)] at hi
      exact Option.noConfusion hi
    rw [List.length_append, List.length_singleton] at hilen
    rcases Nat.lt_or_ge i result.length with hlt | hge
    · have hi' : result[i]? = some cx := by
        rw [List.getElem?_append_left hlt] at hi
        exact hi
      rcases I7 i cx hi' y hy with ⟨j, hj, hjv⟩
      refine ⟨j, hj, ?_⟩
      rw [List.getElem?_append_left (Nat.lt_trans hj hlt)]
      exact hjv
    · have hieq : i = result.length := by omega
      subst hieq
      have hcx : cx = Child.node x := by
        rw [List.getElem?_append_right hge] at hi
        simp at hi
        exact hi.symm
      subst hcx
      have hmem := I4 (Child.node x) (List.mem_cons_self _ _) y hy
      obtain ⟨j, hjv⟩ := List.mem_iff_getElem?.mp hmem
      have hjlt : j < result.length := by
        by_contra hge2
        rw [List.getElem?_eq_none (Nat.le_of_not_lt hge2)] at hjv
        exact Option.noConfusion hjv
      refine ⟨j, hjlt, ?_⟩
      rw [List.getElem?_append_left hjlt]
      exact hjv

/-- Keys not named by any processed child are untouched by the in-degree
initialisation. -/
theorem initState_fold_untouched (g : NodeGraph) :
    ∀ (cs : List Child) (d₀ : String → Nat) (q₀ : List Child) (s : String),
      (∀ c ∈ cs, c.name ≠ s) →
      (cs.foldl (fun st c =>
        (updDeg st.1 c.name (connectionCount g c),
         if connectionCount g c = 0 then st.2 ++ [c] else st.2)) (d₀, q₀)).1 s = d₀ s := by
  intro cs
  induction cs with
  | nil => intro d₀ q₀ s _; rfl
  | cons c t ih =>
    intro d₀ q₀ s hns
    rw [List.foldl_cons]
    have h1 := ih (updDeg d₀ c.name (connectionCount g c))
      (if connectionCount g c = 0 then q₀ ++ [c] else q₀) s
      (fun c' hc' => hns c' (List.mem_cons_of_mem _ hc'))
    rw [h1]
    exact updDeg_other _ _ (fun h => hns c (List.mem_cons_self _ _) h.symm)

/-- After the initialisation fold, each uniquely-named child's key holds
its in-degree. -/
theorem initState_fold_deg (g : NodeGraph) :
    ∀ (cs : List Child) (d₀ : String → Nat) (q₀ : List Child),
      (cs.map Child.name).Nodup → ∀ e ∈ cs,
      (cs.foldl (fun st c =>
        (updDeg st.1 c.name (connectionCount g c),
         if connectionCount g c = 0 then st.2 ++ [c] else st.2)) (d₀, q₀)).1 e.name =
        connectionCount g e := by
  intro cs
  induction cs with
  | nil => intro d₀ q₀ _ e he; exact absurd he (List.not_mem_nil e)
  | cons c t ih =>
    intro d₀ q₀ hnd e he
    rw [List.map_cons, List.nodup_cons] at hnd
    rw [List.foldl_cons]
    rcases List.mem_cons.mp he with he | he
    · subst he
      have hnt : ∀ c' ∈ t, c'.name ≠ e.name := by
        intro c' hc' hn
        exact hnd.1 (hn ▸ List.mem_map.mpr ⟨c', hc', rfl⟩)
      rw [initState_fold_untouched g t _ _ _ hnt]
      exact updDeg_self _ _ _
    · exact ih _ _ hnd.2 e he

/-- The initialisation fold enqueues exactly the zero-in-degree children,
in declaration order. -/
theorem initState_fold_queue (g : NodeGraph) :
    ∀ (cs : List Child) (d₀ : String → Nat) (q₀ : List Child),
      (cs.foldl (fun st c =>
        (updDeg st.1 c.name (connectionCount g c),
         if connectionCount g c = 0 then st.2 ++ [c] else st.2)) (d₀, q₀)).2 =
        q₀ ++ cs.filter (fun c => connectionCount g c = 0) := by
  intro cs
  induction cs with
  | nil => intro d₀ q₀; simp
  | cons c t ih =>
    intro d₀ q₀
    rw [List.foldl_cons, List.filter_cons]
    by_cases hz : connectionCount g c = 0
    · rw [if_pos hz, if_pos (decide_eq_true hz), ih, List.append_assoc]
      rfl
    · rw [if_neg hz, if_neg (by simpa using hz), ih]

theorem mx_count_filter {α : Type} [DecidableEq α] (l : List α) (p : α → Bool) (a : α) :
    (l.filter p).count a = if p a then l.count a else 0 := by
  induction l with
  | nil => simp
  | cons b t ih =>
    rw [List.filter_cons]
    by_cases hb : p b = true
    · rw [if_pos hb, List.count_cons, ih, List.count_cons]
      by_cases hpa : p a = true
      · rw [if_pos hpa, if_pos hpa]
      · rw [if_neg hpa, if_neg hpa]
        have hab : ¬ (b == a) = true := by
          intro h
          exact hpa ((beq_iff_eq.mp h) ▸ hb)
        rw [if_neg hab]
    · rw [if_neg hb, ih, List.count_cons]
      by_cases hpa : p a = true
      · rw [if_pos hpa, if_pos hpa]
        have hab : ¬ (b == a) = true := by
          intro h
          exact hb ((beq_iff_eq.mp h) ▸ hpa)
        rw [if_neg hab]
        omega
      · rw [if_neg hpa, if_neg hpa]

/-- The settled and queued children are pairwise distinct, so together they
never outnumber the graph's children. -/
theorem sortInv_bound {g : NodeGraph} (hd : (g.children.map Child.name).Nodup)
    {deg : String → Nat} {queue result : List Child} {visitCount : Nat}
    (hinv : SortInv g deg queue result visitCount) :
    result.length + queue.length ≤ g.children.length := by
  obtain ⟨-, Iq, Ir, I2, -, -, -⟩ := hinv
  have hsub : ∀ a ∈ result ++ queue, a ∈ g.children := by
    intro a ha
    rcases List.mem_append.mp ha with ha | ha
    · exact Ir a ha
    · exact Iq a ha
  have hnd : (result ++ queue).Nodup := by
    apply List.nodup_iff_count_le_one.mpr
    intro a
    by_cases ha : a ∈ g.children
    · rw [I2 a ha]
      split <;> omega
    · have h0 : (result ++ queue).count a = 0 :=
        List.count_eq_zero.mpr (fun h => ha (hsub a h))
      omega
  have hle := (List.subperm_of_subset hnd hsub).length_le
  rw [List.length_append] at hle
  exact hle

/-- The initialisation (Node.cpp lines 256-276) establishes the sort
invariant. -/
theorem initState_sortInv {g : NodeGraph}
    (HN : ∀ c ∈ g.children, c.isNode = true)
    (hd : (g.children.map Child.name).Nodup) :
    SortInv g (initState g).1 (initState g).2 [] 0 := by
  have hq : (initState g).2 = g.children.filter (fun c => connectionCount g c = 0) :=
    initState_fold_queue g g.children (fun _ => 0) []
  have hzero_no_producer : ∀ c ∈ g.children, connectionCount g c = 0 →
      ∀ y : Node, ¬ 0 < connCount g c y := by
    intro c hc hz y hy
    obtain ⟨p, hp⟩ : ∃ p, c = Child.node p := by
      cases hk : c with
      | node p => exact ⟨p, rfl⟩
      | output o =>
        subst hk
        exact absurd hy (by simp [connCount])
    subst hp
    have hymem : Child.node y ∈ g.children := (connCount_pos_mem hy).1
    have hall := connectionCount_eq_evAll hd p
    have hsp : [Child.node y].Subperm g.children :=
      List.subperm_of_subset (List.nodup_singleton _)
        (by intro a ha; rw [List.mem_singleton] at ha; subst ha; exact hymem)
    have hle : connOf g (Child.node p) (Child.node y) ≤
        (g.children.map (connOf g (Child.node p))).sum := by
      have h := mx_subperm_map_sum_le (connOf g (Child.node p)) hsp
      simpa using h
    have hco : connOf g (Child.node p) (Child.node y) = connCount g (Child.node p) y := rfl
    unfold evCount at hall
    omega
  refine ⟨rfl, ?_, ?_, ?_, ?_, ?_, ?_⟩
  · intro c hc
    rw [hq] at hc
    exact (List.mem_filter.mp hc).1
  · intro c hc
    exact absurd hc (List.not_mem_nil c)
  · intro e he
    rw [List.nil_append, hq, mx_count_filter]
    have hev : evCount g [] e = 0 := rfl
    rw [hev]
    by_cases hz : connectionCount g e = 0
    · rw [if_pos (decide_eq_true hz), if_pos (by omega), count_children_eq_one hd he]
    · rw [if_neg (by simpa using hz), if_neg (by omega)]
  · intro e he
    have h := initState_fold_deg g g.children (fun _ => 0) [] hd e he
    have hev : evCount g [] e = 0 := rfl
    rw [hev, Nat.sub_zero]
    exact h
  · intro c hc y hy
    exfalso
    rw [hq] at hc
    rcases List.mem_filter.mp hc with ⟨hcm, hcz⟩
    exact hzero_no_producer c hcm (of_decide_eq_true hcz) y hy
  · intro i cx hi
    exact absurd hi (by simp)

/-- Running the loop from an invariant state reaches the empty queue and
returns the final comparison of the visit count with the child count. -/
theorem sortLoop_spec {g : NodeGraph}
    (HN : ∀ c ∈ g.children, c.isNode = true)
    (hd : (g.children.map Child.name).Nodup) :
    ∀ (fuel : Nat) (deg : String → Nat) (queue result : List Child) (visitCount : Nat),
      SortInv g deg queue result visitCount →
      g.children.length + 1 ≤ fuel + result.length →
      ∃ deg' res, SortInv g deg' [] res res.length ∧
        sortLoop g fuel deg queue result visitCount =
          (if res.length ≠ g.children.length then SortOutcome.cycleError (cycleMsg g)
           else SortOutcome.ok res) := by
  intro fuel
  induction fuel with
  | zero =>
    intro deg queue result visitCount hinv hfuel
    cases queue with
    | nil =>
      obtain ⟨I1, Iq, Ir, I2, I3, I4, I7⟩ := hinv
      subst I1
      exact ⟨deg, result, ⟨rfl, Iq, Ir, I2, I3, I4, I7⟩, rfl⟩
    | cons c rest =>
      exfalso
      have hb := sortInv_bound hd hinv
      rw [List.length_cons] at hb
      omega
  | succ fuel ih =>
    intro deg queue result visitCount hinv hfuel
    cases queue with
    | nil =>
      obtain ⟨I1, Iq, Ir, I2, I3, I4, I7⟩ := hinv
      subst I1
      exact ⟨deg, result, ⟨rfl, Iq, Ir, I2, I3, I4, I7⟩, rfl⟩
    | cons c rest =>
      have hcmem : c ∈ g.children := hinv.2.1 c (List.mem_cons_self _ _)
      obtain ⟨p, hp⟩ : ∃ x, c = Child.node x := by
        cases hk : c with
        | node x => exact ⟨x, rfl⟩
        | output o =>
          subst hk
          exact absurd (HN _ hcmem) (by simp [Child.isNode])
      subst hp
      have hstep := sortInv_step HN hd hinv
      obtain ⟨deg', res, hinv', hout⟩ := ih _ _ _ _ hstep
        (by rw [List.length_append, List.length_singleton]; omega)
      refine ⟨deg', res, hinv', ?_⟩
      show sortLoop g fuel
        (processPorts deg rest ((downstreamPortsFull g p).map Prod.snd)).1
        (processPorts deg rest ((downstreamPortsFull g p).map Prod.snd)).2
        (result ++ [Child.node p]) (visitCount + 1) = _
      exact hout

/-- The first step of a transitive chain. -/
theorem mx_transGen_head {α : Type} {R : α → α → Prop} {a c : α}
    (h : Relation.TransGen R a c) : ∃ b, R a b := by
  induction h with
  | single h1 => exact ⟨_, h1⟩
  | tail _ _ ih => exact ih

/-- If every member of a set carried by a finite list has an `R`-successor
in the set, the set contains a cycle. -/
theorem mx_exists_cycle {α : Type} [DecidableEq α] (l : List α) (S : α → Prop)
    (R : α → α → Prop)
    (hsub : ∀ a, S a → a ∈ l)
    (hstep : ∀ a, S a → ∃ b, S b ∧ R a b)
    {a₀ : α} (ha₀ : S a₀) :
    ∃ x, Relation.TransGen R x x := by
  classical
  let F : Nat → {a : α // S a} := fun n =>
    Nat.rec ⟨a₀, ha₀⟩ (fun _ p => ⟨Classical.choose (hstep p.1 p.2),
      (Classical.choose_spec (hstep p.1 p.2)).1⟩) n
  have hchain : ∀ n, R (F n).1 (F (n + 1)).1 := fun n =>
    (Classical.choose_spec (hstep (F n).1 (F n).2)).2
  have htg : ∀ n k, Relation.TransGen R (F n).1 (F (n + k + 1)).1 := by
    intro n k
    induction k with
    | zero => exact Relation.TransGen.single (hchain n)
    | succ k ihk =>
      have hs : Relation.TransGen R (F n).1 (F ((n + k + 1) + 1)).1 :=
        Relation.TransGen.tail ihk (hchain (n + k + 1))
      have harith : n + (k + 1) + 1 = (n + k + 1) + 1 := by omega
      rw [harith]
      exact hs
  have hcard : (l.toFinset).card < (Finset.range (l.length + 1)).card := by
    rw [Finset.card_range]
    exact Nat.lt_succ_of_le l.toFinset_card_le
  have hmaps : ∀ n ∈ Finset.range (l.length + 1), (F n).1 ∈ l.toFinset :=
    fun n _ => List.mem_toFinset.mpr (hsub _ (F n).2)
  obtain ⟨i, hi, j, hj, hij, heq⟩ :=
    Finset.exists_ne_map_eq_of_card_lt_of_maps_to hcard hmaps
  rcases Nat.lt_or_ge i j with hlt | hge
  · have hs := htg i (j - i - 1)
    have harith : i + (j - i - 1) + 1 = j := by omega
    rw [harith] at hs
    rw [← heq] at hs
    exact ⟨(F i).1, hs⟩
  · have hlt : j < i := by omega
    have hs := htg j (i - j - 1)
    have harith : j + (i - j - 1) + 1 = i := by omega
    rw [harith] at hs
    rw [heq] at hs
    exact ⟨(F j).1, hs⟩

/-- In `exGraphAB` the only connection is node `B`'s input to `A`. -/
theorem producerOf_exGraphAB {a b : String} (h : producerOf exGraphAB a b) :
    a = "B" ∧ b = "A" := by
  rcases h with ⟨x, v, hx, hv, -, hnn, -⟩
  by_cases ha : exNodeA.name = a
  · have hxa : exNodeA = x := by
      simp only [NodeGraph.getNode, exGraphAB, List.findSome?_cons, if_pos ha] at hx
      exact Option.some.inj hx
    rw [← hxa] at hv
    simp [exNodeA] at hv
  · simp only [NodeGraph.getNode, exGraphAB, List.findSome?_cons, if_neg ha] at hx
    by_cases hb2 : exNodeB.name = a
    · rw [if_pos hb2] at hx
      have hxb : exNodeB = x := Option.some.inj hx
      rw [← hxb] at hv
      have hva : v = exInput "in" (some "A") := by simpa [exNodeB] using hv
      subst hva
      have hb3 : some "A" = some b := hnn
      exact ⟨hb2.symm, (Option.some.inj hb3).symm⟩
    · rw [if_neg hb2] at hx
      simp at hx

/-- `exGraphAB` has no connection cycle. -/
theorem exGraphAB_acyclic : ¬ hasCycle exGraphAB := by
  rintro ⟨s, h⟩
  have hlast : ∀ a b, Relation.TransGen (producerOf exGraphAB) a b → b = "A" := by
    intro a b hab
    induction hab with
    | single h1 => exact (producerOf_exGraphAB h1).2
    | tail _ h1 _ => exact (producerOf_exGraphAB h1).2
  obtain ⟨b₀, hb₀⟩ := mx_transGen_head h
  have h1 := (producerOf_exGraphAB hb₀).1
  have h2 := hlast s s h
  rw [h1] at h2
  exact absurd h2 (by decide)

/-- **C1 (amended).**  On a graph whose children are all nodes with
pairwise-distinct names and whose connection relation is acyclic,
`topologicalSort` returns (deterministically — it is a function of the
graph alone) an order that is a permutation of the children in which every
producer precedes each of its consumers. -/
theorem topologicalSort_kahn_correct {g : NodeGraph}
    (HN : ∀ c ∈ g.children, c.isNode = true)
    (hd : (g.children.map Child.name).Nodup)
    (hac : ¬ hasCycle g) :
    ∃ res, topologicalSort g = SortOutcome.ok res ∧ res.Perm g.children ∧
      ∀ (i : Nat) (cx : Child) (b : String), res[i]? = some cx →
        producerOf g cx.name b →
        ∃ (j : Nat) (cy : Child), j < i ∧ res[j]? = some cy ∧ cy.name = b := by
  obtain ⟨deg', res, hinvF, hout⟩ := sortLoop_spec HN hd (2 * g.children.length + 2)
    (initState g).1 (initState g).2 [] 0 (initState_sortInv HN hd) (by omega)
  obtain ⟨F1, Fq, Fr, F2, F3, F4, F7⟩ := hinvF
  have F2' : ∀ e ∈ g.children, res.count e =
      if connectionCount g e ≤ evCount g res e then 1 else 0 := by
    intro e he
    have h := F2 e he
    rwa [List.append_nil] at h
  have hall : ∀ e ∈ g.children, res.count e = 1 := by
    by_contra hnot
    push_neg at hnot
    obtain ⟨e₀, he₀, hne⟩ := hnot
    have hS₀ : e₀ ∈ g.children ∧ ¬ connectionCount g e₀ ≤ evCount g res e₀ := by
      refine ⟨he₀, fun hle => ?_⟩
      rw [F2' e₀ he₀, if_pos hle] at hne
      exact hne rfl
    have hstep : ∀ c, (c ∈ g.children ∧ ¬ connectionCount g c ≤ evCount g res c) →
        ∃ c', (c' ∈ g.children ∧ ¬ connectionCount g c' ≤ evCount g res c') ∧
          producerOf g c.name c'.name := by
      intro c hc
      obtain ⟨hcm, hcgt⟩ := hc
      obtain ⟨p, hp⟩ : ∃ x, c = Child.node x := by
        cases hk : c with
        | node x => exact ⟨x, rfl⟩
        | output o =>
          subst hk
          exact absurd (HN _ hcm) (by simp [Child.isNode])
      subst hp
      by_cases hally : ∀ y : Node, 0 < connCount g (Child.node p) y → Child.node y ∈ res
      · exfalso
        apply hcgt
        rw [connectionCount_eq_evAll hd]
        show (g.children.map (connOf g (Child.node p))).sum ≤
          (res.map (connOf g (Child.node p))).sum
        rw [← mx_sum_filter_pos g.children (connOf g (Child.node p))]
        apply mx_subperm_map_sum_le
        apply List.subperm_of_subset ((hd.of_map).filter _)
        intro c' hc'
        rcases List.mem_filter.mp hc' with ⟨hcm', hpos⟩
        have hpos' : 0 < connOf g (Child.node p) c' := of_decide_eq_true hpos
        cases c' with
        | output o => exact absurd hpos' (by simp [connOf])
        | node y => exact hally y hpos'
      · push_neg at hally
        obtain ⟨y, hypos, hynres⟩ := hally
        refine ⟨Child.node y, ⟨(connCount_pos_mem hypos).1, fun hle => ?_⟩, ?_⟩
        · have hcy := F2' (Child.node y) (connCount_pos_mem hypos).1
          rw [if_pos hle] at hcy
          exact hynres (List.count_pos_iff.mp (by omega))
        · exact connCount_pos_producerOf hd hcm hypos
    obtain ⟨s, hcyc⟩ := mx_exists_cycle g.children
      (fun c => c ∈ g.children ∧ ¬ connectionCount g c ≤ evCount g res c)
      (fun a b => producerOf g a.name b.name)
      (fun a ha => ha.1) hstep hS₀
    exact hac ⟨s.name, Relation.TransGen.lift Child.name (fun a b h => h) hcyc⟩
  have hperm : res.Perm g.children := by
    apply List.perm_iff_count.mpr
    intro a
    by_cases ha : a ∈ g.children
    · rw [hall a ha, count_children_eq_one hd ha]
    · rw [List.count_eq_zero.mpr (fun h => ha (Fr a h)), List.count_eq_zero.mpr ha]
  have htop : topologicalSort g =
      sortLoop g (2 * g.children.length + 2) (initState g).1 (initState g).2 [] 0 := rfl
  refine ⟨res, ?_, hperm, ?_⟩
  · rw [htop, hout, if_neg ?_]
    intro hne
    exact hne hperm.length_eq
  · intro i cx b hi hprod
    have hcxres : cx ∈ res := List.mem_iff_getElem?.mpr ⟨i, hi⟩
    have hcxmem : cx ∈ g.children := Fr cx hcxres
    obtain ⟨p, y, hgp, hgy, hpos, hpname, hyname⟩ := producerOf_connCount hprod
    have hpmem : Child.node p ∈ g.children := getNode_mem hgp
    have hpcx : Child.node p = cx := child_name_inj hd hpmem hcxmem hpname
    rcases F7 i cx hi y (hpcx ▸ hpos) with ⟨j, hj, hjv⟩
    exact ⟨j, Child.node y, hj, hjv, hyname⟩

/-- Witness for C1 (amended) at the two-node graph `A ← B`. -/
theorem topologicalSort_kahn_correct_witness :
    (∀ c ∈ exGraphAB.children, c.isNode = true) ∧
    (exGraphAB.children.map Child.name).Nodup ∧
    ¬ hasCycle exGraphAB ∧
    (∃ res, topologicalSort exGraphAB = SortOutcome.ok res ∧
      res.Perm exGraphAB.children ∧
      ∀ (i : Nat) (cx : Child) (b : String), res[i]? = some cx →
        producerOf exGraphAB cx.name b →
        ∃ (j : Nat) (cy : Child), j < i ∧ res[j]? = some cy ∧ cy.name = b) :=
  ⟨by decide, by decide, exGraphAB_acyclic,
    topologicalSort_kahn_correct (by decide) (by decide) exGraphAB_acyclic⟩

/-- **C2 (amended).**  On a graph whose children are all nodes with
pairwise-distinct names, a connection cycle makes `topologicalSort` throw
`ExceptionFoundCycle` with the message built from the graph's name. -/
theorem topologicalSort_cycle_detected {g : NodeGraph}
    (HN : ∀ c ∈ g.children, c.isNode = true)
    (hd : (g.children.map Child.name).Nodup)
    (hcyc : hasCycle g) :
    topologicalSort g = SortOutcome.cycleError (cycleMsg g) := by
  obtain ⟨deg', res, hinvF, hout⟩ := sortLoop_spec HN hd (2 * g.children.length + 2)
    (initState g).1 (initState g).2 [] 0 (initState_sortInv HN hd) (by omega)
  obtain ⟨F1, Fq, Fr, F2, F3, F4, F7⟩ := hinvF
  have htop : topologicalSort g =
      sortLoop g (2 * g.children.length + 2) (initState g).1 (initState g).2 [] 0 := rfl
  rw [htop, hout]
  by_cases hne : res.length ≠ g.children.length
  · rw [if_pos hne]
  · exfalso
    push_neg at hne
    have F2' : ∀ e ∈ g.children, res.count e =
        if connectionCount g e ≤ evCount g res e then 1 else 0 := by
      intro e he
      have h := F2 e he
      rwa [List.append_nil] at h
    have hnodup : res.Nodup := by
      apply List.nodup_iff_count_le_one.mpr
      intro a
      by_cases ha : a ∈ g.children
      · rw [F2' a ha]
        split <;> omega
      · have h0 : res.count a = 0 := List.count_eq_zero.mpr (fun h => ha (Fr a h))
        omega
    have hperm : res.Perm g.children :=
      (List.subperm_of_subset hnodup Fr).perm_of_length_le (by omega)
    obtain ⟨s, htg⟩ := hcyc
    have hstepP : ∀ a b, producerOf g a b →
        ∀ (i : Nat) (cx : Child), res[i]? = some cx → cx.name = a →
          ∃ (j : Nat) (cy : Child), j < i ∧ res[j]? = some cy ∧ cy.name = b := by
      intro a b hprod i cx hi hname
      obtain ⟨p, y, hgp, hgy, hpos, hpn, hyn⟩ := producerOf_connCount hprod
      have hcxmem : cx ∈ g.children := Fr cx (List.mem_iff_getElem?.mpr ⟨i, hi⟩)
      have hpcx : Child.node p = cx := child_name_inj hd (getNode_mem hgp) hcxmem
        (by rw [hname]; exact hpn)
      rcases F7 i cx hi y (hpcx ▸ hpos) with ⟨j, hj, hjv⟩
      exact ⟨j, Child.node y, hj, hjv, hyn⟩
    have hP : ∀ a b, Relation.TransGen (producerOf g) a b →
        ∀ (i : Nat) (cx : Child), res[i]? = some cx → cx.name = a →
          ∃ (j : Nat) (cy : Child), j < i ∧ res[j]? = some cy ∧ cy.name = b := by
      intro a b htg2
      induction htg2 with
      | single h => exact hstepP _ _ h
      | tail hab hbc ihab =>
        intro i cx hi hname
        obtain ⟨j, cy, hj, hjv, hcyn⟩ := ihab i cx hi hname
        obtain ⟨k, cz, hk, hkv, hczn⟩ := hstepP _ _ hbc j cy hjv hcyn
        exact ⟨k, cz, Nat.lt_trans hk hj, hkv, hczn⟩
    obtain ⟨b₀, hsb⟩ := mx_transGen_head htg
    obtain ⟨xs, vs, hgets, -⟩ := hsb
    have hxsres : Child.node xs ∈ res := hperm.mem_iff.mpr (getNode_mem hgets)
    obtain ⟨i₀, hi₀⟩ := List.mem_iff_getElem?.mp hxsres
    have hdesc : ∀ (n i : Nat) (cx : Child), i < n → res[i]? = some cx →
        cx.name = s → False := by
      intro n
      induction n with
      | zero => intro i cx hlt; exact absurd hlt (Nat.not_lt_zero i)
      | succ n ihn =>
        intro i cx hlt hget hname
        obtain ⟨j, cy, hj, hjv, hcyn⟩ := hP s s htg i cx hget hname
        exact ihn j cy (by omega) hjv hcyn
    exact hdesc (i₀ + 1) i₀ (Child.node xs) (Nat.lt_succ_self i₀) hi₀ (getNode_name hgets)

/-- Witness for C2 (amended) at the two-node cycle `X ↔ Y`. -/
theorem topologicalSort_cycle_detected_witness :
    (∀ c ∈ exGraphXY.children, c.isNode = true) ∧
    (exGraphXY.children.map Child.name).Nodup ∧
    hasCycle exGraphXY ∧
    topologicalSort exGraphXY = SortOutcome.cycleError (cycleMsg exGraphXY) := by
  have pxy : producerOf exGraphXY "X" "Y" :=
    ⟨exNodeX, exInput "in" (some "Y"), by decide, by decide, by decide, by decide, by decide⟩
  have pyx : producerOf exGraphXY "Y" "X" :=
    ⟨exNodeY, exInput "in" (some "X"), by decide, by decide, by decide, by decide, by decide⟩
  have hcyc : hasCycle exGraphXY :=
    ⟨"X", Relation.TransGen.tail (Relation.TransGen.single pxy) pyx⟩
  exact ⟨by decide, by decide, hcyc,
    topologicalSort_cycle_detected (by decide) (by decide) hcyc⟩

/-! ## Flattening: interface-property transfer (claim C6) -/

/-- **C6.**  For a copied port `v` carrying an interface name, when the
like-named value element `rv` exists on the reference node, the transfer
succeeds and produces a port whose interface marking is stripped, whose
name, kind and declared type are those of the copy, whose value is the
reference's literal when the reference has one (and the copy's own
otherwise), and whose connection is the reference's connection name when
both ports are inputs and the reference is connected (and the copy's own
otherwise). -/
theorem transferPort_interface_semantics (refNode : Node) (v rv : ValueElem)
    (iname : String)
    (hif : v.interfaceName = some iname)
    (href : refNode.getValueElem iname = some rv) :
    ∃ v', transferPort refNode v = Except.ok v' ∧
      v'.interfaceName = none ∧
      v'.name = v.name ∧ v'.kind = v.kind ∧ v'.type = v.type ∧
      (rv.value.isSome = true → v'.value = rv.value) ∧
      (rv.value = none → v'.value = v.value) ∧
      ((v.kind = PortKind.input ∧ rv.kind = PortKind.input ∧ rv.nodeName.isSome = true) →
        v'.nodeName = rv.nodeName) ∧
      (¬ (v.kind = PortKind.input ∧ rv.kind = PortKind.input ∧ rv.nodeName.isSome = true) →
        v'.nodeName = v.nodeName) := by
  have hv' : transferPort refNode v = Except.ok
      { v with value := if rv.value.isSome then rv.value else v.value,
               nodeName := if v.kind = PortKind.input ∧ rv.kind = PortKind.input ∧
                   rv.nodeName.isSome then rv.nodeName else v.nodeName,
               interfaceName := none } := by
    simp only [transferPort, hif, href]
  refine ⟨_, hv', rfl, rfl, rfl, rfl, ?_, ?_, ?_, ?_⟩
  · intro hv
    simp only [if_pos hv]
  · intro hv
    rw [if_neg (by rw [hv]; simp)]
  · intro hc
    simp only [if_pos hc]
  · intro hc
    simp only [if_neg hc]

/-- Witness for C6: transferring the interface-bound `amount` port of the
copied subgraph node against reference node `R`. -/
theorem transferPort_interface_semantics_witness :
    (exIfacePort "amount" "amount").interfaceName = some "amount" ∧
    exNodeR.getValueElem "amount" = some (exValPort "amount" "0.5") ∧
    ∃ v', transferPort exNodeR (exIfacePort "amount" "amount") = Except.ok v' ∧
      v'.interfaceName = none ∧
      v'.name = (exIfacePort "amount" "amount").name ∧
      v'.kind = (exIfacePort "amount" "amount").kind ∧
      v'.type = (exIfacePort "amount" "amount").type ∧
      ((exValPort "amount" "0.5").value.isSome = true →
        v'.value = (exValPort "amount" "0.5").value) ∧
      ((exValPort "amount" "0.5").value = none →
        v'.value = (exIfacePort "amount" "amount").value) ∧
      (((exIfacePort "amount" "amount").kind = PortKind.input ∧
          (exValPort "amount" "0.5").kind = PortKind.input ∧
          (exValPort "amount" "0.5").nodeName.isSome = true) →
        v'.nodeName = (exValPort "amount" "0.5").nodeName) ∧
      (¬ ((exIfacePort "amount" "amount").kind = PortKind.input ∧
          (exValPort "amount" "0.5").kind = PortKind.input ∧
          (exValPort "amount" "0.5").nodeName.isSome = true) →
        v'.nodeName = (exIfacePort "amount" "amount").nodeName) :=
  ⟨by decide, by decide,
    transferPort_interface_semantics exNodeR (exIfacePort "amount" "amount")
      (exValPort "amount" "0.5") "amount" (by decide) (by decide)⟩

/-! ## Flattening: supporting lemmas -/

theorem underscores_length (k : Nat) : (underscores k).length = k := by
  show (List.replicate k '_').length = k
  exact List.length_replicate k _

/-- The generated child name avoids every used name. -/
theorem freshName_not_mem (used : List String) (base : String) :
    freshName used base ∉ used := by
  unfold freshName
  cases hf : (List.range (used.length + 1)).find?
      (fun k => decide ((base ++ underscores k) ∉ used)) with
  | some k =>
    have h := List.find?_some hf
    exact of_decide_eq_true h
  | none =>
    exfalso
    have hall : ∀ k ∈ List.range (used.length + 1), (base ++ underscores k) ∈ used := by
      intro k hk
      have h := List.find?_eq_none.mp hf k hk
      simpa using h
    have hinj : ∀ k1 ∈ List.range (used.length + 1), ∀ k2 ∈ List.range (used.length + 1),
        base ++ underscores k1 = base ++ underscores k2 → k1 = k2 := by
      intro k1 _ k2 _ he
      have hl : (base ++ underscores k1).length = (base ++ underscores k2).length := by
        rw [he]
      rw [String.length_append, String.length_append, underscores_length,
        underscores_length] at hl
      omega
    have hnodup : ((List.range (used.length + 1)).map
        (fun k => base ++ underscores k)).Nodup :=
      (List.nodup_range _).map_on hinj
    have hsubset : ∀ s ∈ (List.range (used.length + 1)).map
        (fun k => base ++ underscores k), s ∈ used := by
      intro s hs
      obtain ⟨k, hk, rfl⟩ := List.mem_map.mp hs
      exact hall k hk
    have hle := (List.subperm_of_subset hnodup hsubset).length_le
    rw [List.length_map, List.length_range] at hle
    omega

/-- `getNodes` membership is node-child membership. -/
theorem mem_getNodes {g : NodeGraph} {n : Node} :
    n ∈ g.getNodes ↔ Child.node n ∈ g.children := by
  show n ∈ g.children.foldr (fun c acc =>
    match c with
    | .node m => m :: acc
    | .output _ => acc) [] ↔ _
  induction g.children with
  | nil => simp
  | cons c t ih =>
    cases c with
    | node m => simp [List.foldr_cons, ih]
    | output o => simp [List.foldr_cons, ih]

/-- A child's name is the name component of its signature. -/
theorem sig_name (c : Child) : (Child.sig c).2.1 = c.name := by
  cases c <;> rfl

/-- Implementation resolution depends only on the node's category and
declared type. -/
theorem isGraphImpl_congr (env : Env) (target : String) {n m : Node}
    (hc : n.category = m.category) (ht : n.type = m.type) :
    isGraphImpl env target n = isGraphImpl env target m := by
  unfold isGraphImpl getImplementation getReferencedNodeDef Env.getMatchingNodeDefs
    Node.getTypeStr
  rw [hc, ht]

/-- `Node::setConnectedNode` touches only the ports. -/
theorem setConnectedNode_skel (n : Node) (inm : String) (p : Option Node) :
    (n.setConnectedNode inm p).name = n.name ∧
    (n.setConnectedNode inm p).category = n.category ∧
    (n.setConnectedNode inm p).type = n.type := by
  unfold Node.setConnectedNode Node.updateInputNamed
  cases n.getInput inm <;> cases p <;> exact ⟨rfl, rfl, rfl⟩

/-- `updateNode` preserves the children's signatures when the update does. -/
theorem updateNode_sig (g : NodeGraph) (nm : String) (f : Node → Node)
    (hf : ∀ n, (f n).name = n.name ∧ (f n).category = n.category ∧ (f n).type = n.type) :
    (g.updateNode nm f).children.map Child.sig = g.children.map Child.sig := by
  show (g.children.map _).map Child.sig = _
  rw [List.map_map]
  apply List.map_congr_left
  intro c _
  cases c with
  | node n =>
    show Child.sig (if n.name = nm then Child.node (f n) else Child.node n) = _
    by_cases h : n.name = nm
    · rw [if_pos h]
      show (true, (f n).name, (f n).category, (f n).type) = (true, n.name, n.category, n.type)
      rw [(hf n).1, (hf n).2.1, (hf n).2.2]
    · rw [if_neg h]
  | output o => rfl

/-- Redirecting a port preserves the children's signatures. -/
theorem redirectPort_sig (g : NodeGraph) (pr : PortRef) (nn : String) :
    (redirectPort g pr nn).children.map Child.sig = g.children.map Child.sig := by
  cases pr with
  | nodeInput cn pn =>
    apply updateNode_sig
    intro n
    exact ⟨rfl, rfl, rfl⟩
  | graphOutput onm =>
    show (g.children.map _).map Child.sig = _
    rw [List.map_map]
    apply List.map_congr_left
    intro c _
    cases c with
    | node n => rfl
    | output o =>
      show Child.sig (if o.name = onm then Child.output { o with nodeName := some nn }
        else Child.output o) = _
      by_cases h : o.name = onm
      · rw [if_pos h]
        rfl
      · rw [if_neg h]

/-- A fold of port redirections preserves the children's signatures. -/
theorem redirect_fold_sig (nn : String) :
    ∀ (l : List PortRef) (g : NodeGraph),
      ((l.foldl (fun gg pr2 => redirectPort gg pr2 nn) g).children.map Child.sig =
        g.children.map Child.sig)
  | [], g => rfl
  | pr :: t, g => by
    rw [List.foldl_cons, redirect_fold_sig nn t (redirectPort g pr nn), redirectPort_sig]

/-- Processing one downstream port preserves the children's signatures. -/
theorem processOrigPort_sig (g : NodeGraph) (subMap : List (String × String))
    (refName newName : String) (pr : PortRef) :
    (processOrigPort g subMap refName newName pr).children.map Child.sig =
      g.children.map Child.sig := by
  cases pr with
  | nodeInput consumerOrig portName =>
    show (match subMap.find? (fun (e : String × String) => decide (e.1 = consumerOrig)) with
      | some e => g.updateNode e.2 fun n => n.setConnectedNode portName (g.getNode newName)
      | none => g).children.map Child.sig = _
    cases subMap.find? (fun e => decide (e.1 = consumerOrig)) with
    | some e =>
      apply updateNode_sig
      intro n
      exact setConnectedNode_skel n portName (g.getNode newName)
    | none => rfl
  | graphOutput onm =>
    show (match g.getNode refName with
      | some refNode =>
        ((downstreamPortsFull g refNode).map Prod.fst).foldl
          (fun gg pr2 => redirectPort gg pr2 newName) g
      | none => g).children.map Child.sig = _
    cases g.getNode refName with
    | some refNode => exact redirect_fold_sig newName _ g
    | none => rfl

/-- Processing one orig-to-new pair preserves the children's signatures. -/
theorem processPair_sig (origSubGraph : NodeGraph) (subMap : List (String × String))
    (refName : String) (g : NodeGraph) (pair : String × String) :
    (processPair origSubGraph subMap refName g pair).children.map Child.sig =
      g.children.map Child.sig := by
  unfold processPair
  cases origSubGraph.getNode pair.1 with
  | some origSubNode =>
    show (((downstreamPortsFull origSubGraph origSubNode).map Prod.fst).foldl
      (fun gg pr => processOrigPort gg subMap refName pair.2 pr) g).children.map Child.sig = _
    generalize (downstreamPortsFull origSubGraph origSubNode).map Prod.fst = l
    induction l generalizing g with
    | nil => rfl
    | cons pr t ih =>
      rw [List.foldl_cons, ih, processOrigPort_sig]
  | none => rfl

/-- A fold of pair processing preserves the children's signatures. -/
theorem processPair_fold_sig (origSubGraph : NodeGraph) (subMap : List (String × String))
    (refName : String) :
    ∀ (l : List (String × String)) (g : NodeGraph),
      ((l.foldl (processPair origSubGraph subMap refName) g).children.map Child.sig =
        g.children.map Child.sig)
  | [], _ => rfl
  | pair :: t, g => by
    rw [List.foldl_cons, processPair_fold_sig origSubGraph subMap refName t _,
      processPair_sig]

/-- The whole rewiring phase preserves the children's signatures. -/
theorem phase2_sig (origSubGraph : NodeGraph) (subMap : List (String × String))
    (refName : String) (g : NodeGraph) :
    (phase2 origSubGraph subMap refName g).children.map Child.sig =
      g.children.map Child.sig :=
  processPair_fold_sig origSubGraph subMap refName subMap g

/-- Equal child signatures give equal child names. -/
theorem sig_map_childNames {g1 g2 : NodeGraph}
    (h : g2.children.map Child.sig = g1.children.map Child.sig) :
    g2.childNames = g1.childNames := by
  have hname : ∀ (g : NodeGraph),
      g.childNames = (g.children.map Child.sig).map (fun s => s.2.1) := by
    intro g
    show g.children.map Child.name = _
    rw [List.map_map]
    apply List.map_congr_left
    intro c _
    exact (sig_name c).symm
  rw [hname g2, hname g1, h]

/-- Equal child signatures let membership transfer back. -/
theorem sig_map_mem {g1 g2 : NodeGraph}
    (h : g2.children.map Child.sig = g1.children.map Child.sig)
    {c2 : Child} (hc : c2 ∈ g2.children) :
    ∃ c1 ∈ g1.children, Child.sig c1 = Child.sig c2 := by
  have hm : Child.sig c2 ∈ g1.children.map Child.sig := by
    rw [← h]
    exact List.mem_map_of_mem _ hc
  obtain ⟨c1, hc1, he⟩ := List.mem_map.mp hm
  exact ⟨c1, hc1, he⟩

/-- A child with a node's signature is a node of the same name, category
and type. -/
theorem sig_node_eq {c : Child} {n : Node} (h : Child.sig c = Child.sig (Child.node n)) :
    ∃ m, c = Child.node m ∧ m.name = n.name ∧ m.category = n.category ∧ m.type = n.type := by
  cases c with
  | node m =>
    refine ⟨m, rfl, ?_⟩
    simp only [Child.sig, Prod.mk.injEq] at h
    exact ⟨h.2.1, h.2.2.1, h.2.2.2⟩
  | output o => simp [Child.sig] at h

/-- Membership after `removeNode`. -/
theorem mem_removeNode {g : NodeGraph} {nm : String} {c : Child} :
    c ∈ (g.removeNode nm).children ↔
      c ∈ g.children ∧ ∀ n, c = Child.node n → n.name ≠ nm := by
  show c ∈ g.children.filter _ ↔ _
  rw [List.mem_filter]
  constructor
  · rintro ⟨hm, hp⟩
    refine ⟨hm, ?_⟩
    rintro n rfl
    exact of_decide_eq_true hp
  · rintro ⟨hm, hp⟩
    refine ⟨hm, ?_⟩
    cases c with
    | node n => exact decide_eq_true (hp n rfl)
    | output o => rfl

/-- `removeNode` only drops names. -/
theorem removeNode_childNames_sublist (g : NodeGraph) (nm : String) :
    (g.removeNode nm).childNames.Sublist g.childNames := by
  show ((g.children.filter _).map Child.name).Sublist (g.children.map Child.name)
  exact (List.filter_sublist _).map _

/-- What a successful subnode-copying step produces: the graph with one
fresh-named copy inserted at the reference node's position, and the copy's
name appended to the worklist when it is subgraph-backed itself. -/
theorem phase1Step_ok (env : Env) (target : String) (implName refName : String)
    (refNode : Node) (st : NodeGraph × List (String × String) × List String) (a : Node)
    {st' : NodeGraph × List (String × String) × List String}
    (h : phase1Step env target implName refName refNode st a = Except.ok st') :
    ∃ newSubNode : Node,
      newSubNode.name = freshName st.1.childNames (implName ++ "_" ++ a.name) ∧
      newSubNode.category = a.category ∧
      newSubNode.type = a.type ∧
      st'.1.children = st.1.children.insertIdx (st.1.getChildIndex refName)
        (Child.node newSubNode) ∧
      st'.2.1 = st.2.1 ++ [(a.name, newSubNode.name)] ∧
      st'.2.2 = st.2.2 ++
        (if isGraphImpl env target newSubNode then [newSubNode.name] else []) := by
  cases hm : a.ports.mapM (transferPort refNode) with
  | error e =>
    rw [show phase1Step env target implName refName refNode st a = Except.error e by
      simp only [phase1Step, hm]] at h
    exact absurd h (by simp)
  | ok tports =>
    have he : phase1Step env target implName refName refNode st a = Except.ok
        (insertChild st.1 (st.1.getChildIndex refName)
           (Child.node (copyUnder st.1.childNames implName a tports)),
         st.2.1 ++ [(a.name, (copyUnder st.1.childNames implName a tports).name)],
         st.2.2 ++ if isGraphImpl env target (copyUnder st.1.childNames implName a tports)
           then [(copyUnder st.1.childNames implName a tports).name] else []) := by
      simp only [phase1Step, hm]
    rw [he] at h
    have hst := Except.ok.inj h
    refine ⟨copyUnder st.1.childNames implName a tports, rfl, rfl, rfl, ?_, ?_, ?_⟩
    · rw [← hst]
      rfl
    · rw [← hst]
    · rw [← hst]

/-- The copy inserted by a step sits, up to permutation, on top of the old
children. -/
theorem phase1Step_perm {st : NodeGraph × List (String × String) × List String}
    {st' : NodeGraph × List (String × String) × List String} {newSubNode : Node} {refName : String}
    (hchild : st'.1.children = st.1.children.insertIdx (st.1.getChildIndex refName)
      (Child.node newSubNode)) :
    st'.1.children.Perm (Child.node newSubNode :: st.1.children) := by
  rw [hchild]
  exact List.perm_insertIdx _ _ (List.findIdx_le_length _)

/-- The accumulated effect of the subnode-copying loop: old children
survive, every new child is a node that was enqueued if subgraph-backed,
distinct names stay distinct, and the worklist only grows. -/
theorem phase1_fold_spec (env : Env) (target : String) (implName refName : String)
    (refNode : Node) :
    ∀ (nodes : List Node) (st out : NodeGraph × List (String × String) × List String),
      List.foldlM (phase1Step env target implName refName refNode) st nodes = Except.ok out →
      (∀ c ∈ st.1.children, c ∈ out.1.children) ∧
      (∀ c ∈ out.1.children, c ∈ st.1.children ∨
        ∃ n, c = Child.node n ∧ (isGraphImpl env target n = true → n.name ∈ out.2.2)) ∧
      (st.1.childNames.Nodup → out.1.childNames.Nodup) ∧
      (∃ ext, out.2.2 = st.2.2 ++ ext) := by
  intro nodes
  induction nodes with
  | nil =>
    intro st out h
    have hso : st = out := by simpa [pure, Except.pure] using h
    subst hso
    exact ⟨fun c hc => hc, fun c hc => Or.inl hc, fun hd => hd, [], (List.append_nil _).symm⟩
  | cons a t ih =>
    intro st out h
    rw [List.foldlM_cons] at h
    cases hstep : phase1Step env target implName refName refNode st a with
    | error e =>
      rw [hstep] at h
      simp only [bind, Except.bind] at h
      exact absurd h (by simp)
    | ok st' =>
      rw [hstep] at h
      replace h : List.foldlM (phase1Step env target implName refName refNode) st' t =
          Except.ok out := by simpa only [bind, Except.bind] using h
      obtain ⟨I1, I2, I3, ext, I4⟩ := ih st' out h
      obtain ⟨newSubNode, hfresh, -, -, hchild, -, hqueue⟩ :=
        phase1Step_ok env target implName refName refNode st a hstep
      have hperm := @phase1Step_perm st st' newSubNode refName hchild
      have hnperm : st'.1.childNames.Perm (newSubNode.name :: st.1.childNames) := by
        show (st'.1.children.map Child.name).Perm _
        have hp := hperm.map Child.name
        simpa using hp
      refine ⟨?_, ?_, ?_, ?_⟩
      · intro c hc
        exact I1 c (hperm.mem_iff.mpr (List.mem_cons_of_mem _ hc))
      · intro c hc
        rcases I2 c hc with hc' | hnew
        · rcases List.mem_cons.mp (hperm.mem_iff.mp hc') with heq | hmem
          · refine Or.inr ⟨newSubNode, heq, ?_⟩
            intro himpl
            have hq : newSubNode.name ∈ st'.2.2 := by
              rw [hqueue, if_pos himpl]
              exact List.mem_append_right _ (List.mem_singleton_self _)
            rw [I4]
            exact List.mem_append_left _ hq
          · exact Or.inl hmem
        · exact Or.inr hnew
      · intro hd
        apply I3
        refine (hnperm.nodup_iff).mpr (List.nodup_cons.mpr ⟨?_, hd⟩)
        rw [hfresh]
        exact freshName_not_mem _ _
      · refine ⟨(if isGraphImpl env target newSubNode then [newSubNode.name] else []) ++ ext, ?_⟩
        rw [I4, hqueue, List.append_assoc]

/-- A failed node lookup means no node child carries the name. -/
theorem getNode_none {g : NodeGraph} {r : String} (h : g.getNode r = none)
    {n : Node} (hn : Child.node n ∈ g.children) : n.name ≠ r := by
  intro heq
  have hf := List.findSome?_eq_none_iff.mp h _ hn
  have hf2 : (if n.name = r then some n else none) = none := hf
  rw [if_pos heq] at hf2
  exact absurd hf2 (by simp)

/-- One worklist iteration preserves the flattening invariant, moving the
processed name out of the worklist and the new copies' names in. -/
theorem flattenStep_inv {env : Env} {target : String} {g : NodeGraph} {r : String}
    {rest : List String} {g' : NodeGraph} {newQ : List String}
    (hinv : FlatInv env target g (r :: rest))
    (h : flattenStep env target g r = Except.ok (g', newQ)) :
    FlatInv env target g' (rest ++ newQ) := by
  obtain ⟨hd, hcov⟩ := hinv
  cases hget : g.getNode r with
  | none =>
    rw [show flattenStep env target g r = Except.ok (g, []) by
      simp only [flattenStep, hget]] at h
    have hp := Except.ok.inj h
    have h1 : g = g' := congrArg Prod.fst hp
    have h2 : ([] : List String) = newQ := congrArg Prod.snd hp
    subst h1
    subst h2
    refine ⟨hd, ?_⟩
    intro n hn himpl
    rcases List.mem_cons.mp (hcov n hn himpl) with heq | hmem
    · exact absurd heq (getNode_none hget hn)
    · simpa using hmem
  | some refNode =>
    cases himp : getImplementation env refNode target with
    | none =>
      rw [show flattenStep env target g r = Except.ok (g, []) by
        simp only [flattenStep, hget, himp]] at h
      have hp := Except.ok.inj h
      have h1 : g = g' := congrArg Prod.fst hp
      have h2 : ([] : List String) = newQ := congrArg Prod.snd hp
      subst h1
      subst h2
      refine ⟨hd, ?_⟩
      intro n hn himpl
      rcases List.mem_cons.mp (hcov n hn himpl) with heq | hmem
      · exfalso
        have hgn : g.getNode n.name = some n := getNode_self hd hn
        rw [heq, hget] at hgn
        have hnr : n = refNode := (Option.some.inj hgn).symm
        have hfalse : isGraphImpl env target refNode = false := by
          simp only [isGraphImpl, himp]
        rw [hnr, hfalse] at himpl
        exact absurd himpl (by simp)
      · simpa using hmem
    | some im =>
      cases im with
      | nonGraph nm nd tg =>
        rw [show flattenStep env target g r = Except.ok (g, []) by
          simp only [flattenStep, hget, himp]] at h
        have hp := Except.ok.inj h
        have h1 : g = g' := congrArg Prod.fst hp
        have h2 : ([] : List String) = newQ := congrArg Prod.snd hp
        subst h1
        subst h2
        refine ⟨hd, ?_⟩
        intro n hn himpl
        rcases List.mem_cons.mp (hcov n hn himpl) with heq | hmem
        · exfalso
          have hgn : g.getNode n.name = some n := getNode_self hd hn
          rw [heq, hget] at hgn
          have hnr : n = refNode := (Option.some.inj hgn).symm
          have hfalse : isGraphImpl env target refNode = false := by
            simp only [isGraphImpl, himp, ImplElem.isNodeGraph]
          rw [hnr, hfalse] at himpl
          exact absurd himpl (by simp)
        · simpa using hmem
      | graph subG nd tg =>
        rw [show flattenStep env target g r =
            (match phase1 env target subG.name r refNode subG.getNodes g with
              | .error e => .error e
              | .ok (g1, subMap, nq) => .ok ((phase2 subG subMap r g1).removeNode r, nq)) by
          simp only [flattenStep, hget, himp]] at h
        cases hp1 : phase1 env target subG.name r refNode subG.getNodes g with
        | error e =>
          rw [hp1] at h
          exact absurd h (by simp)
        | ok trip =>
          obtain ⟨g1, subMap, nq⟩ := trip
          rw [hp1] at h
          have hp := Except.ok.inj h
          have hg' : (phase2 subG subMap r g1).removeNode r = g' := congrArg Prod.fst hp
          have hq : nq = newQ := congrArg Prod.snd hp
          subst hq
          subst hg'
          obtain ⟨P1, P2, P3, ext, P4⟩ :=
            phase1_fold_spec env target subG.name r refNode subG.getNodes
              (g, [], []) (g1, subMap, nq) hp1
          have hsig : (phase2 subG subMap r g1).children.map Child.sig =
              g1.children.map Child.sig := phase2_sig subG subMap r g1
          have hnames : (phase2 subG subMap r g1).childNames = g1.childNames :=
            sig_map_childNames hsig
          have hd1 : g1.childNames.Nodup := P3 hd
          refine ⟨?_, ?_⟩
          · exact ((removeNode_childNames_sublist _ r).nodup (hnames ▸ hd1))
          · intro n hn himpl
            rw [mem_removeNode] at hn
            obtain ⟨hn2, hne⟩ := hn
            have hner : n.name ≠ r := hne n rfl
            obtain ⟨c1, hc1, hsigeq⟩ := sig_map_mem hsig hn2
            obtain ⟨m, rfl, hmn, hmc, hmt⟩ := sig_node_eq hsigeq
            have himplm : isGraphImpl env target m = true := by
              rw [isGraphImpl_congr env target hmc hmt]
              exact himpl
            rcases P2 _ hc1 with hold | ⟨m', heq, hq2⟩
            · rcases List.mem_cons.mp (hcov m hold himplm) with heqr | hmem
              · exact absurd (hmn ▸ heqr) hner
              · rw [← hmn]
                exact List.mem_append_left _ hmem
            · have hmm : m = m' := Child.node.inj heq
              subst hmm
              rw [← hmn]
              exact List.mem_append_right _ (hq2 himplm)

/-- A successful worklist run from an invariant state ends with distinct
child names and no subgraph-backed node child left. -/
theorem flattenLoop_inv (env : Env) (target : String) :
    ∀ (fuel : Nat) (g : NodeGraph) (queue : List String) (g' : NodeGraph),
      FlatInv env target g queue →
      flattenLoop env target fuel g queue = FlattenOutcome.ok g' →
      g'.childNames.Nodup ∧
      ∀ n, Child.node n ∈ g'.children → isGraphImpl env target n = false := by
  intro fuel
  induction fuel with
  | zero =>
    intro g queue g' hinv h
    cases queue with
    | nil =>
      have hgg : g = g' := FlattenOutcome.ok.inj h
      subst hgg
      refine ⟨hinv.1, ?_⟩
      intro n hn
      by_contra himpl
      rw [Bool.not_eq_false] at himpl
      exact absurd (hinv.2 n hn himpl) (List.not_mem_nil _)
    | cons r rest => simp [flattenLoop] at h
  | succ fuel ih =>
    intro g queue g' hinv h
    cases queue with
    | nil =>
      have hgg : g = g' := FlattenOutcome.ok.inj h
      subst hgg
      refine ⟨hinv.1, ?_⟩
      intro n hn
      by_contra himpl
      rw [Bool.not_eq_false] at himpl
      exact absurd (hinv.2 n hn himpl) (List.not_mem_nil _)
    | cons r rest =>
      cases hstep : flattenStep env target g r with
      | error e =>
        rw [show flattenLoop env target (fuel + 1) g (r :: rest) = FlattenOutcome.crash e by
          simp [flattenLoop, hstep]] at h
        exact absurd h (by simp)
      | ok pr =>
        obtain ⟨g2, newQ⟩ := pr
        have hred : flattenLoop env target (fuel + 1) g (r :: rest) =
            flattenLoop env target fuel g2 (rest ++ newQ) := by
          simp [flattenLoop, hstep]
        rw [hred] at h
        exact ih g2 (rest ++ newQ) g' (flattenStep_inv hinv hstep) h

/-- A worklist of names that all resolve to nodes with no subgraph
implementation is consumed without changing the graph. -/
theorem flattenLoop_skip (env : Env) (target : String) (g : NodeGraph) :
    ∀ (queue : List String) (fuel : Nat), queue.length ≤ fuel →
      (∀ r ∈ queue, ∃ n, g.getNode r = some n ∧ isGraphImpl env target n = false) →
      flattenLoop env target fuel g queue = FlattenOutcome.ok g := by
  intro queue
  induction queue with
  | nil =>
    intro fuel _ _
    cases fuel with
    | zero => rfl
    | succ k => rfl
  | cons r rest ih =>
    intro fuel hlen hprop
    cases fuel with
    | zero =>
      exfalso
      rw [List.length_cons] at hlen
      omega
    | succ k =>
      obtain ⟨n, hget, hfalse⟩ := hprop r (List.mem_cons_self _ _)
      have hstep : flattenStep env target g r = Except.ok (g, []) := by
        cases himp : getImplementation env n target with
        | none => simp only [flattenStep, hget, himp]
        | some im =>
          cases im with
          | nonGraph a b c => simp only [flattenStep, hget, himp]
          | graph sg b c =>
            exfalso
            simp only [isGraphImpl, himp, ImplElem.isNodeGraph] at hfalse
            exact absurd hfalse (by simp)
      have hred : flattenLoop env target (k + 1) g (r :: rest) =
          flattenLoop env target k g (rest ++ []) := by
        simp [flattenLoop, hstep]
      rw [hred, List.append_nil]
      apply ih
      · rw [List.length_cons] at hlen
        omega
      · intro r' hr'
        exact hprop r' (List.mem_cons_of_mem _ hr')

/-- **C4.**  On a graph with pairwise-distinct child names, when
`flattenSubgraphs(target)` completes, no remaining child node resolves to a
subgraph-valued implementation for the target, and the pass is idempotent:
run again on its own result (with fuel enough to walk the worklist once),
it returns that result unchanged. -/
theorem flattenSubgraphs_fixed_point {env : Env} {target : String} {fuel : Nat}
    {g g' : NodeGraph}
    (hd : g.childNames.Nodup)
    (h : flattenSubgraphs env target fuel g = FlattenOutcome.ok g') :
    (∀ n, Child.node n ∈ g'.children → isGraphImpl env target n = false) ∧
    ∀ fuel', g'.getNodes.length ≤ fuel' →
      flattenSubgraphs env target fuel' g' = FlattenOutcome.ok g' := by
  have hinv0 : FlatInv env target g (g.getNodes.map Node.name) := by
    refine ⟨hd, ?_⟩
    intro n hn _
    exact List.mem_map_of_mem _ (mem_getNodes.mpr hn)
  obtain ⟨hd', hfix⟩ := flattenLoop_inv env target fuel g _ g' hinv0 h
  refine ⟨hfix, ?_⟩
  intro fuel' hf
  show flattenLoop env target fuel' g' (g'.getNodes.map Node.name) = FlattenOutcome.ok g'
  have hlen : (g'.getNodes.map Node.name).length ≤ fuel' := by
    rw [List.length_map]
    exact hf
  apply flattenLoop_skip env target g' _ fuel' hlen
  intro r hr
  obtain ⟨n, hn, rfl⟩ := List.mem_map.mp hr
  have hmem : Child.node n ∈ g'.children := mem_getNodes.mp hn
  exact ⟨n, getNode_self hd' hmem, hfix n hmem⟩

/-- Witness for C4: flattening the concrete graph `exGraphF` (whose node
`R` is subgraph-backed) reaches the fixed point `exFlatRes`. -/
theorem flattenSubgraphs_fixed_point_witness :
    exGraphF.childNames.Nodup ∧
    flattenSubgraphs exEnvF "t" 3 exGraphF = FlattenOutcome.ok exFlatRes ∧
    (∀ n, Child.node n ∈ exFlatRes.children → isGraphImpl exEnvF "t" n = false) ∧
    (exFlatRes.getNodes.length ≤ exFlatRes.getNodes.length ∧
      flattenSubgraphs exEnvF "t" exFlatRes.getNodes.length exFlatRes =
        FlattenOutcome.ok exFlatRes) := by
  have h : flattenSubgraphs exEnvF "t" 3 exGraphF = FlattenOutcome.ok exFlatRes := by decide
  exact ⟨by decide, h, (flattenSubgraphs_fixed_point (by decide) h).1,
    le_rfl, (flattenSubgraphs_fixed_point (by decide) h).2 _ le_rfl⟩

/-! ## Flattening: graph-surgery lemmas for connectivity (claim C5) -/

theorem mx_findSome?_congr {α β : Type} {f1 f2 : α → Option β} :
    ∀ l : List α, (∀ a ∈ l, f1 a = f2 a) → l.findSome? f1 = l.findSome? f2
  | [], _ => rfl
  | a :: t, h => by
    rw [List.findSome?_cons, List.findSome?_cons, h a (List.mem_cons_self a t)]
    cases f2 a with
    | some b => rfl
    | none => exact mx_findSome?_congr t (fun b hb => h b (List.mem_cons_of_mem a hb))

/-- `findSome?` skips an inserted element on which `f` is `none`. -/
theorem mx_findSome?_insertIdx {α β : Type} (f : α → Option β) (a : α) (ha : f a = none) :
    ∀ (n : Nat) (l : List α), (l.insertIdx n a).findSome? f = l.findSome? f
  | 0, l => by
    rw [List.insertIdx_zero, List.findSome?_cons, ha]
  | n + 1, [] => by rw [List.insertIdx_succ_nil]
  | n + 1, x :: xs => by
    rw [List.insertIdx_succ_cons, List.findSome?_cons, List.findSome?_cons]
    cases f x with
    | some b => rfl
    | none => exact mx_findSome?_insertIdx f a ha n xs

theorem mx_findSome?_isSome_of_mem {α β : Type} {f : α → Option β} {c : α} {b : β} :
    ∀ {l : List α}, c ∈ l → f c = some b → (l.findSome? f).isSome = true
  | [], hc, _ => absurd hc (List.not_mem_nil c)
  | a :: t, hc, hb => by
    rw [List.findSome?_cons]
    rcases List.mem_cons.mp hc with rfl | hmem
    · rw [hb]
      rfl
    · cases hfa : f a with
      | some d => rfl
      | none => exact mx_findSome?_isSome_of_mem hmem hb

/-- `findSome?` ignores filtered-out elements on which `f` is `none`. -/
theorem mx_findSome?_filter {α β : Type} {f : α → Option β} {q : α → Bool} :
    ∀ l : List α, (∀ a ∈ l, q a = false → f a = none) →
      (l.filter q).findSome? f = l.findSome? f
  | [], _ => rfl
  | a :: t, h => by
    rw [List.filter_cons]
    by_cases hq : q a = true
    · rw [if_pos hq, List.findSome?_cons, List.findSome?_cons]
      cases f a with
      | some b => rfl
      | none => exact mx_findSome?_filter t (fun b hb => h b (List.mem_cons_of_mem a hb))
    · rw [if_neg hq, List.findSome?_cons,
        h a (List.mem_cons_self a t) (Bool.not_eq_true _ ▸ hq)]
      exact mx_findSome?_filter t (fun b hb => h b (List.mem_cons_of_mem a hb))

/-- An entry contributed by a child is in the full downstream scan. -/
theorem mem_dsfull_of_child {g : NodeGraph} {y : Node} {c : Child}
    {e : PortRef × Child} (hc : c ∈ g.children) (he : e ∈ dsEntries g y c) :
    e ∈ downstreamPortsFull g y := by
  show e ∈ g.children.foldr (fun c acc => dsEntries g y c ++ acc) []
  revert hc
  generalize g.children = cs
  intro hc
  induction cs with
  | nil => exact absurd hc (List.not_mem_nil c)
  | cons d t ih =>
    rw [List.foldr_cons]
    rcases List.mem_cons.mp hc with rfl | hmem
    · exact List.mem_append_left _ he
    · exact List.mem_append_right _ (ih hmem)

/-- The downstream entries of `y` agree childwise across graphs in which
`y`'s name resolves identically. -/
theorem dsEntries_congr {g1 g2 : NodeGraph} {y : Node}
    (h : g1.getNode y.name = g2.getNode y.name) (c : Child) :
    dsEntries g1 y c = dsEntries g2 y c := by
  cases c with
  | node p =>
    simp only [dsEntries]
    congr 1
    apply List.filter_congr
    intro v _
    by_cases hn : v.nodeName = some y.name
    · have hcc : v.getConnectedNode g1 = v.getConnectedNode g2 := by
        unfold ValueElem.getConnectedNode
        rw [hn]
        simpa using h
      rw [hcc]
    · simp [hn]
  | output o =>
    simp only [dsEntries]
    by_cases hn : o.nodeName = some y.name
    · have hcc : o.getConnectedNode g1 = o.getConnectedNode g2 := by
        unfold Output.getConnectedNode
        rw [hn]
        simpa using h
      rw [hcc]
    · rw [if_neg (fun hc => hn hc.1), if_neg (fun hc => hn hc.1)]

/-- Node lookup at a name other than the updated one is unchanged. -/
theorem getNode_updateNode_ne {g : NodeGraph} {cn s : String} {f : Node → Node}
    (hf : ∀ n, (f n).name = n.name) (hne : s ≠ cn) :
    (g.updateNode cn f).getNode s = g.getNode s := by
  show (g.children.map (updChild cn f)).findSome? _ = g.children.findSome? _
  rw [List.findSome?_map]
  apply mx_findSome?_congr
  intro c _
  cases c with
  | node n =>
    show (match updChild cn f (Child.node n) with
      | Child.node m => if m.name = s then some m else none
      | Child.output _ => none) = (if n.name = s then some n else none)
    by_cases hn : n.name = cn
    · rw [show updChild cn f (Child.node n) = Child.node (f n) by
        simp [updChild, hn]]
      have h1 : ¬ (f n).name = s := by rw [hf n, hn]; exact fun hh => hne hh.symm
      have h2 : ¬ n.name = s := by rw [hn]; exact fun hh => hne hh.symm
      simp [h1, h2]
    · rw [show updChild cn f (Child.node n) = Child.node n by simp [updChild, hn]]
  | output o => rfl

/-- Node lookup at the updated name returns the updated node. -/
theorem getNode_updateNode_self {g : NodeGraph} {cn : String} {f : Node → Node}
    (hf : ∀ n, (f n).name = n.name) :
    (g.updateNode cn f).getNode cn = (g.getNode cn).map f := by
  show (g.children.map (updChild cn f)).findSome? _ = (g.children.findSome? _).map f
  generalize g.children = cs
  induction cs with
  | nil => rfl
  | cons c t ih =>
    rw [List.map_cons, List.findSome?_cons, List.findSome?_cons]
    cases c with
    | node n =>
      by_cases hn : n.name = cn
      · simp [updChild, hn, hf n]
      · simp only [updChild, hn, if_false, if_neg hn]
        exact ih
    | output o =>
      simp only [updChild]
      exact ih

/-- Output lookup ignores node updates. -/
theorem getOutputChild_updateNode {g : NodeGraph} {cn onm : String} {f : Node → Node} :
    (g.updateNode cn f).getOutputChild onm = g.getOutputChild onm := by
  show (g.children.map (updChild cn f)).findSome? _ = g.children.findSome? _
  rw [List.findSome?_map]
  apply mx_findSome?_congr
  intro c _
  cases c with
  | node n =>
    show (match updChild cn f (Child.node n) with
      | Child.output o => if o.name = onm then some o else none
      | Child.node _ => none) = (none : Option Output)
    by_cases hn : n.name = cn
    · rw [show updChild cn f (Child.node n) = Child.node (f n) by simp [updChild, hn]]
    · rw [show updChild cn f (Child.node n) = Child.node n by simp [updChild, hn]]
  | output o => rfl

/-- Node lookup ignores output redirection. -/
theorem getNode_redirect_output {g : NodeGraph} {onm nn s : String} :
    (redirectPort g (PortRef.graphOutput onm) nn).getNode s = g.getNode s := by
  show (g.children.map (updOutChild onm nn)).findSome? _ = g.children.findSome? _
  rw [List.findSome?_map]
  apply mx_findSome?_congr
  intro c _
  cases c with
  | node n => rfl
  | output o =>
    show (match updOutChild onm nn (Child.output o) with
      | Child.node m => if m.name = s then some m else none
      | Child.output _ => none) = (none : Option Node)
    by_cases ho : o.name = onm
    · rw [show updOutChild onm nn (Child.output o) =
        Child.output { o with nodeName := some nn } by simp [updOutChild, ho]]
    · rw [show updOutChild onm nn (Child.output o) = Child.output o by
        simp [updOutChild, ho]]

/-- Output lookup at the redirected name returns the redirected output. -/
theorem getOutputChild_redirect_self {g : NodeGraph} {onm nn : String} :
    (redirectPort g (PortRef.graphOutput onm) nn).getOutputChild onm =
      (g.getOutputChild onm).map (fun o => { o with nodeName := some nn }) := by
  show (g.children.map (updOutChild onm nn)).findSome? _ = (g.children.findSome? _).map _
  generalize g.children = cs
  induction cs with
  | nil => rfl
  | cons c t ih =>
    rw [List.map_cons, List.findSome?_cons, List.findSome?_cons]
    cases c with
    | output o =>
      by_cases ho : o.name = onm
      · simp [updOutChild, ho]
      · simp only [updOutChild, if_neg ho]
        exact ih
    | node n =>
      simp only [updOutChild]
      exact ih

/-- Output lookup at another name ignores the redirection. -/
theorem getOutputChild_redirect_ne {g : NodeGraph} {onm nn s : String} (hne : s ≠ onm) :
    (redirectPort g (PortRef.graphOutput onm) nn).getOutputChild s =
      g.getOutputChild s := by
  show (g.children.map (updOutChild onm nn)).findSome? _ = g.children.findSome? _
  rw [List.findSome?_map]
  apply mx_findSome?_congr
  intro c _
  cases c with
  | node n => rfl
  | output o =>
    show (match updOutChild onm nn (Child.output o) with
      | Child.output oo => if oo.name = s then some oo else none
      | Child.node _ => none) = (if o.name = s then some o else none)
    by_cases ho : o.name = onm
    · rw [show updOutChild onm nn (Child.output o) =
        Child.output { o with nodeName := some nn } by simp [updOutChild, ho]]
      have h1 : ¬ o.name = s := by rw [ho]; exact fun hh => hne hh.symm
      simp [h1]
    · rw [show updOutChild onm nn (Child.output o) = Child.output o by
        simp [updOutChild, ho]]

/-- An absent input leaves `updateFirstInput` inert. -/
theorem updateFirstInput_of_none {ps : List ValueElem} {nm : String}
    {f : ValueElem → ValueElem}
    (h : findInput ps nm = none) : updateFirstInput ps nm f = ps := by
  induction ps with
  | nil => rfl
  | cons v vs ih =>
    by_cases hv : v.kind = PortKind.input ∧ v.name = nm
    · exfalso
      unfold findInput at h
      rw [List.find?_cons_of_pos _ (by simpa using hv)] at h
      exact Option.some_ne_none _ h
    · unfold findInput at h
      rw [List.find?_cons_of_neg _ (by simpa using hv)] at h
      rw [updateFirstInput, if_neg hv, ih h]

/-- Updating one named input leaves the others readable unchanged. -/
theorem findInput_updateFirstInput_ne {ps : List ValueElem} {nm pn : String}
    {f : ValueElem → ValueElem}
    (hk : ∀ w, (f w).kind = w.kind) (hn : ∀ w, (f w).name = w.name)
    (hne : pn ≠ nm) :
    findInput (updateFirstInput ps nm f) pn = findInput ps pn := by
  induction ps with
  | nil => rfl
  | cons v vs ih =>
    by_cases hv : v.kind = PortKind.input ∧ v.name = nm
    · rw [updateFirstInput, if_pos hv]
      unfold findInput
      have hfv : ¬ ((f v).kind = PortKind.input ∧ (f v).name = pn) := by
        intro hc
        exact hne ((hc.2.symm.trans (hn v)).trans hv.2)
      have hvv : ¬ (v.kind = PortKind.input ∧ v.name = pn) := by
        intro hc
        exact hne (hc.2.symm.trans hv.2)
      rw [List.find?_cons_of_neg _ (by simpa using hfv),
        List.find?_cons_of_neg _ (by simpa using hvv)]
    · rw [updateFirstInput, if_neg hv]
      unfold findInput
      by_cases hvp : v.kind = PortKind.input ∧ v.name = pn
      · rw [List.find?_cons_of_pos _ (by simpa using hvp),
          List.find?_cons_of_pos _ (by simpa using hvp)]
      · rw [List.find?_cons_of_neg _ (by simpa using hvp),
          List.find?_cons_of_neg _ (by simpa using hvp)]
        exact ih

/-- Node lookup at a surviving name ignores `removeNode`. -/
theorem getNode_removeNode_ne {g : NodeGraph} {nm s : String} (hne : s ≠ nm) :
    (g.removeNode nm).getNode s = g.getNode s := by
  show (g.children.filter _).findSome? _ = g.children.findSome? _
  apply mx_findSome?_filter
  intro c _ hq
  cases c with
  | node n =>
    have h2 : ¬ (n.name ≠ nm) := of_decide_eq_false hq
    have hnn : n.name = nm := not_not.mp h2
    show (if n.name = s then some n else none) = none
    rw [if_neg (by rw [hnn]; exact fun hh => hne hh.symm)]
  | output o => rfl

/-- Output lookup ignores `removeNode`. -/
theorem getOutputChild_removeNode {g : NodeGraph} {nm onm : String} :
    (g.removeNode nm).getOutputChild onm = g.getOutputChild onm := by
  show (g.children.filter _).findSome? _ = g.children.findSome? _
  apply mx_findSome?_filter
  intro c _ hq
  cases c with
  | node n => rfl
  | output o =>
    exfalso
    have hh : (true : Bool) = false := hq
    exact absurd hh (by simp)

/-- Reading a port is unaffected by removing a node other than its owner. -/
theorem lookup_removeNode {g : NodeGraph} {nm : String} {pr : PortRef}
    (hpr : ∀ cn pn, pr = PortRef.nodeInput cn pn → cn ≠ nm) :
    lookupPortConn (g.removeNode nm) pr = lookupPortConn g pr := by
  cases pr with
  | nodeInput cn pn =>
    simp only [lookupPortConn]
    rw [getNode_removeNode_ne (hpr cn pn rfl)]
  | graphOutput onm =>
    simp only [lookupPortConn]
    rw [getOutputChild_removeNode]

/-- Reading a port is unaffected by updating a node other than its owner. -/
theorem lookup_updateNode_ne {g : NodeGraph} {cn' : String} {f : Node → Node}
    (hf : ∀ n, (f n).name = n.name) {pr : PortRef}
    (hpr : ∀ cn pn, pr = PortRef.nodeInput cn pn → cn ≠ cn') :
    lookupPortConn (g.updateNode cn' f) pr = lookupPortConn g pr := by
  cases pr with
  | nodeInput cn pn =>
    simp only [lookupPortConn]
    rw [getNode_updateNode_ne hf (hpr cn pn rfl)]
  | graphOutput onm =>
    simp only [lookupPortConn]
    rw [getOutputChild_updateNode]

/-- Node lookup at a name no redirected address owns is unchanged. -/
theorem getNode_redirect_ne {g : NodeGraph} {pr2 : PortRef} {nn s : String}
    (hpr : ∀ pn, pr2 ≠ PortRef.nodeInput s pn) :
    (redirectPort g pr2 nn).getNode s = g.getNode s := by
  cases pr2 with
  | nodeInput cn pn =>
    have hfn : ∀ n : Node,
        (n.updateInputNamed pn (fun v => { v with nodeName := some nn })).name = n.name :=
      fun n => rfl
    show (g.updateNode cn
      (fun n => n.updateInputNamed pn (fun v => { v with nodeName := some nn }))).getNode s =
      g.getNode s
    apply getNode_updateNode_ne hfn
    intro hss
    exact hpr pn (by rw [hss])
  | graphOutput onm => exact getNode_redirect_output

/-- A port already reading the new producer still reads it after any
redirection to that same producer. -/
theorem lookup_redirect_preserve {g : NodeGraph} {pr pr2 : PortRef} {nn : String}
    (h : lookupPortConn g pr = some nn) :
    lookupPortConn (redirectPort g pr2 nn) pr = some nn := by
  cases pr2 with
  | nodeInput cn2 pn2 =>
    cases pr with
    | graphOutput onm =>
      simp only [lookupPortConn, redirectPort] at h ⊢
      rw [getOutputChild_updateNode]
      exact h
    | nodeInput cn pn =>
      have hfn : ∀ n : Node,
          (n.updateInputNamed pn2 (fun v => { v with nodeName := some nn })).name = n.name :=
        fun n => rfl
      by_cases hcc : cn = cn2
      · subst hcc
        simp only [lookupPortConn, redirectPort] at h ⊢
        rw [getNode_updateNode_self hfn]
        cases hg : g.getNode cn with
        | none =>
          rw [hg] at h
          exact absurd h (by simp)
        | some p =>
          rw [hg] at h
          have h2 : (findInput p.ports pn).bind (fun v => v.nodeName) = some nn := h
          show (findInput (p.updateInputNamed pn2 _).ports pn).bind
            (fun v => v.nodeName) = some nn
          have hk2 : ∀ w : ValueElem,
              ({ w with nodeName := some nn } : ValueElem).kind = w.kind := fun w => rfl
          have hn2 : ∀ w : ValueElem,
              ({ w with nodeName := some nn } : ValueElem).name = w.name := fun w => rfl
          by_cases hpp : pn = pn2
          · subst hpp
            cases hfv : findInput p.ports pn with
            | none =>
              rw [hfv] at h2
              exact absurd h2 (by simp)
            | some v =>
              show (findInput (updateFirstInput p.ports pn _) pn).bind
                (fun v => v.nodeName) = some nn
              rw [findInput_updateFirstInput _ hk2 hn2 hfv]
              rfl
          · show (findInput (updateFirstInput p.ports pn2 _) pn).bind
              (fun v => v.nodeName) = some nn
            rw [findInput_updateFirstInput_ne hk2 hn2 hpp]
            exact h2
      · simp only [lookupPortConn, redirectPort] at h ⊢
        rw [getNode_updateNode_ne hfn hcc]
        exact h
  | graphOutput onm2 =>
    cases pr with
    | nodeInput cn pn =>
      simp only [lookupPortConn] at h ⊢
      rw [getNode_redirect_output]
      exact h
    | graphOutput onm =>
      by_cases hoo : onm = onm2
      · subst hoo
        simp only [lookupPortConn] at h ⊢
        rw [getOutputChild_redirect_self]
        cases ho : g.getOutputChild onm with
        | none =>
          rw [ho] at h
          exact absurd h (by simp)
        | some o => rfl
      · simp only [lookupPortConn] at h ⊢
        rw [getOutputChild_redirect_ne hoo]
        exact h

/-- Redirecting a valid address makes it read the new producer. -/
theorem lookup_redirect_self {g : NodeGraph} {pr : PortRef} {nn : String}
    (hv : ValidAddr g pr) :
    lookupPortConn (redirectPort g pr nn) pr = some nn := by
  cases pr with
  | nodeInput cn pn =>
    obtain ⟨p, hp, hfi⟩ := hv
    have hfn : ∀ n : Node,
        (n.updateInputNamed pn (fun v => { v with nodeName := some nn })).name = n.name :=
      fun n => rfl
    simp only [lookupPortConn, redirectPort]
    rw [getNode_updateNode_self hfn, hp]
    show (findInput (p.updateInputNamed pn _).ports pn).bind (fun v => v.nodeName) = some nn
    have hk2 : ∀ w : ValueElem,
        ({ w with nodeName := some nn } : ValueElem).kind = w.kind := fun w => rfl
    have hn2 : ∀ w : ValueElem,
        ({ w with nodeName := some nn } : ValueElem).name = w.name := fun w => rfl
    cases hfv : findInput p.ports pn with
    | none =>
      rw [hfv] at hfi
      exact absurd hfi (by simp)
    | some v =>
      show (findInput (updateFirstInput p.ports pn _) pn).bind (fun v => v.nodeName) = some nn
      rw [findInput_updateFirstInput _ hk2 hn2 hfv]
      rfl
  | graphOutput onm =>
    have hv2 : (g.getOutputChild onm).isSome = true := hv
    simp only [lookupPortConn]
    rw [getOutputChild_redirect_self]
    cases ho : g.getOutputChild onm with
    | none =>
      rw [ho] at hv2
      exact absurd hv2 (by simp)
    | some o => rfl

/-- Address validity survives any redirection. -/
theorem valid_redirect {g : NodeGraph} {pr pr2 : PortRef} {nn : String}
    (hv : ValidAddr g pr) : ValidAddr (redirectPort g pr2 nn) pr := by
  cases pr2 with
  | nodeInput cn2 pn2 =>
    cases pr with
    | nodeInput cn pn =>
      obtain ⟨p, hp, hfi⟩ := hv
      have hfn : ∀ n : Node,
          (n.updateInputNamed pn2 (fun v => { v with nodeName := some nn })).name = n.name :=
        fun n => rfl
      by_cases hcc : cn = cn2
      · subst hcc
        refine ⟨p.updateInputNamed pn2 (fun v => { v with nodeName := some nn }), ?_, ?_⟩
        · show (NodeGraph.updateNode g cn _).getNode cn = _
          rw [getNode_updateNode_self hfn, hp]
          rfl
        · have hk2 : ∀ w : ValueElem, ({ w with nodeName := some nn } : ValueElem).kind = w.kind :=
            fun w => rfl
          have hn2 : ∀ w : ValueElem, ({ w with nodeName := some nn } : ValueElem).name = w.name :=
            fun w => rfl
          show (findInput (updateFirstInput p.ports pn2 _) pn).isSome = true
          by_cases hpp : pn = pn2
          · subst hpp
            cases hfv : findInput p.ports pn with
            | none =>
              rw [hfv] at hfi
              exact absurd hfi (by simp)
            | some v =>
              rw [findInput_updateFirstInput _ hk2 hn2 hfv]
              rfl
          · rw [findInput_updateFirstInput_ne hk2 hn2 hpp]
            exact hfi
      · refine ⟨p, ?_, hfi⟩
        show (NodeGraph.updateNode g cn2 _).getNode cn = _
        rw [getNode_updateNode_ne hfn hcc]
        exact hp
    | graphOutput onm =>
      show ((redirectPort g _ nn).getOutputChild onm).isSome = true
      show ((NodeGraph.updateNode g cn2 _).getOutputChild onm).isSome = true
      rw [getOutputChild_updateNode]
      exact hv
  | graphOutput onm2 =>
    cases pr with
    | nodeInput cn pn =>
      obtain ⟨p, hp, hfi⟩ := hv
      refine ⟨p, ?_, hfi⟩
      rw [getNode_redirect_output]
      exact hp
    | graphOutput onm =>
      have hv2 : (g.getOutputChild onm).isSome = true := hv
      by_cases hoo : onm = onm2
      · subst hoo
        show ((redirectPort g _ nn).getOutputChild onm).isSome = true
        rw [getOutputChild_redirect_self]
        cases ho : g.getOutputChild onm with
        | none =>
          rw [ho] at hv2
          exact absurd hv2 (by simp)
        | some o => rfl
      · show ((redirectPort g _ nn).getOutputChild onm).isSome = true
        rw [getOutputChild_redirect_ne hoo]
        exact hv2

/-- Every address produced by the downstream scan exists in the graph. -/
theorem valid_of_mem_dsfull {G : NodeGraph} {y : Node}
    (hd : G.childNames.Nodup) {pr : PortRef}
    (hpr : pr ∈ (downstreamPortsFull G y).map Prod.fst) : ValidAddr G pr := by
  obtain ⟨e, he, hfst⟩ := List.mem_map.mp hpr
  obtain ⟨c, hc, hec⟩ := mem_downstream_cases G.children he
  subst hfst
  cases c with
  | node p =>
    simp only [dsEntries] at hec
    obtain ⟨v, hv, hve⟩ := List.mem_map.mp hec
    obtain ⟨hvmem, hprop⟩ := List.mem_filter.mp hv
    obtain ⟨hkind, -, -⟩ := of_decide_eq_true hprop
    rw [← hve]
    refine ⟨p, getNode_self hd hc, ?_⟩
    cases hfp : findInput p.ports v.name with
    | some w => rfl
    | none =>
      exfalso
      have hnp := List.find?_eq_none.mp hfp v hvmem
      exact hnp (decide_eq_true ⟨hkind, rfl⟩)
  | output o =>
    simp only [dsEntries] at hec
    by_cases ho : o.nodeName = some y.name ∧ o.getConnectedNode G = some y
    · rw [if_pos ho] at hec
      have heq : e = (PortRef.graphOutput o.name, Child.output o) :=
        List.mem_singleton.mp hec
      subst heq
      show (G.getOutputChild o.name).isSome = true
      exact mx_findSome?_isSome_of_mem hc
        (show (match Child.output o with
          | Child.output oo => if oo.name = o.name then some oo else none
          | Child.node _ => none) = some o by simp)
    · rw [if_neg ho] at hec
      exact absurd hec (List.not_mem_nil e)

/-- Without a self-loop, no downstream address of the reference node is
owned by the reference node itself. -/
theorem no_selfloop_addr {G : NodeGraph} {refNode : Node}
    (hd : G.childNames.Nodup) (hmem : Child.node refNode ∈ G.children)
    (hsl : ∀ v ∈ refNode.ports, v.nodeName ≠ some refNode.name) :
    ∀ pn, PortRef.nodeInput refNode.name pn ∉
      (downstreamPortsFull G refNode).map Prod.fst := by
  intro pn hin
  obtain ⟨e, he, hfst⟩ := List.mem_map.mp hin
  obtain ⟨c, hc, hec⟩ := mem_downstream_cases G.children he
  cases c with
  | node p =>
    simp only [dsEntries] at hec
    obtain ⟨v, hv, hve⟩ := List.mem_map.mp hec
    rw [← hve] at hfst
    have hpn : p.name = refNode.name := (PortRef.nodeInput.inj hfst).1
    have hpr : p = refNode :=
      Child.node.inj (child_name_inj hd hc hmem hpn)
    subst hpr
    obtain ⟨hvmem, hprop⟩ := List.mem_filter.mp hv
    obtain ⟨-, hnn, -⟩ := of_decide_eq_true hprop
    exact hsl v hvmem hnn
  | output o =>
    simp only [dsEntries] at hec
    by_cases ho : o.nodeName = some refNode.name ∧ o.getConnectedNode G = some refNode
    · rw [if_pos ho] at hec
      have heq : e = (PortRef.graphOutput o.name, Child.output o) :=
        List.mem_singleton.mp hec
      subst heq
      simp at hfst
    · rw [if_neg ho] at hec
      exact absurd hec (List.not_mem_nil e)

/-- A fold of redirections to `nn`: every listed valid address ends up
reading `nn`, addresses already reading `nn` keep doing so, and node
lookups at names owning no listed address are untouched. -/
theorem redirect_fold_lookup (nn : String) :
    ∀ (L : List PortRef) (G : NodeGraph),
      (∀ pr ∈ L, ValidAddr G pr) →
      (∀ pr ∈ L, lookupPortConn
          (L.foldl (fun gg pr2 => redirectPort gg pr2 nn) G) pr = some nn) ∧
      (∀ pr, lookupPortConn G pr = some nn →
        lookupPortConn (L.foldl (fun gg pr2 => redirectPort gg pr2 nn) G) pr = some nn) ∧
      (∀ s, (∀ pn, PortRef.nodeInput s pn ∉ L) →
        (L.foldl (fun gg pr2 => redirectPort gg pr2 nn) G).getNode s = G.getNode s)
  | [], G, _ =>
    ⟨fun pr hpr => absurd hpr (List.not_mem_nil pr), fun pr h => h, fun s _ => rfl⟩
  | e :: t, G, hv => by
    rw [List.foldl_cons]
    have hvt : ∀ pr ∈ t, ValidAddr (redirectPort G e nn) pr :=
      fun pr hpr => valid_redirect (hv pr (List.mem_cons_of_mem e hpr))
    obtain ⟨ih1, ih2, ih3⟩ := redirect_fold_lookup nn t (redirectPort G e nn) hvt
    refine ⟨?_, ?_, ?_⟩
    · intro pr hpr
      rcases List.mem_cons.mp hpr with rfl | hmem
      · exact ih2 pr (lookup_redirect_self (hv pr (List.mem_cons_self _ _)))
      · exact ih1 pr hmem
    · intro pr h
      exact ih2 pr (lookup_redirect_preserve h)
    · intro s hs
      rw [ih3 s (fun pn hpn => hs pn (List.mem_cons_of_mem e hpn))]
      exact getNode_redirect_ne (fun pn heq =>
        hs pn (heq ▸ List.mem_cons_self e t))

/-- A child untouched by `updateNode` stays a child. -/
theorem mem_updateNode {g : NodeGraph} {cn : String} {f : Node → Node} {c : Child}
    (hc : c ∈ g.children) (hne : ∀ n, c = Child.node n → n.name ≠ cn) :
    c ∈ (g.updateNode cn f).children := by
  show c ∈ g.children.map (updChild cn f)
  have hcc : updChild cn f c = c := by
    cases c with
    | node n => simp [updChild, hne n rfl]
    | output o => rfl
  rw [← hcc]
  exact List.mem_map_of_mem _ hc

/-- The node children's names are among the child names, in order. -/
theorem getNodes_names_sublist (g : NodeGraph) :
    (g.getNodes.map Node.name).Sublist g.childNames := by
  show ((g.children.foldr (fun c acc =>
    match c with
    | .node m => m :: acc
    | .output _ => acc) []).map Node.name).Sublist (g.children.map Child.name)
  generalize g.children = cs
  induction cs with
  | nil => exact List.Sublist.refl _
  | cons c t ih =>
    cases c with
    | node m =>
      rw [List.foldr_cons, List.map_cons, List.map_cons]
      exact ih.cons₂ m.name
    | output o =>
      rw [List.foldr_cons, List.map_cons]
      exact ih.cons o.name

/-- The extended accumulation of the subnode-copying loop: old children and
their lookups survive, and the recorded mapping pairs each original
subnode's name with a fresh copy present in the final graph. -/
theorem phase1_fold_spec2 (env : Env) (target : String) (implName refName : String)
    (refNode : Node) :
    ∀ (nodes : List Node) (st out : NodeGraph × List (String × String) × List String),
      List.foldlM (phase1Step env target implName refName refNode) st nodes = Except.ok out →
      (∀ c ∈ st.1.children, c ∈ out.1.children) ∧
      (∀ s ∈ st.1.childNames, s ∈ out.1.childNames) ∧
      (∀ s ∈ st.1.childNames, out.1.getNode s = st.1.getNode s) ∧
      (∃ pairs, out.2.1 = st.2.1 ++ pairs ∧
        pairs.map Prod.fst = nodes.map Node.name ∧
        ∀ e ∈ pairs, e.2 ∉ st.1.childNames ∧
          ∃ cnode : Node, cnode.name = e.2 ∧ Child.node cnode ∈ out.1.children ∧
            ∃ m ∈ nodes, e.1 = m.name ∧ cnode.category = m.category ∧
              cnode.type = m.type) := by
  intro nodes
  induction nodes with
  | nil =>
    intro st out h
    have hso : st = out := by simpa [pure, Except.pure] using h
    subst hso
    refine ⟨fun c hc => hc, fun s hs => hs, fun s _ => rfl, [], (List.append_nil _).symm,
      rfl, ?_⟩
    intro e he
    exact absurd he (List.not_mem_nil e)
  | cons a t ih =>
    intro st out h
    rw [List.foldlM_cons] at h
    cases hstep : phase1Step env target implName refName refNode st a with
    | error e =>
      rw [hstep] at h
      simp only [bind, Except.bind] at h
      exact absurd h (by simp)
    | ok st' =>
      rw [hstep] at h
      replace h : List.foldlM (phase1Step env target implName refName refNode) st' t =
          Except.ok out := by simpa only [bind, Except.bind] using h
      obtain ⟨I1, I2, I3, pairs', hmap', hfst', hmem'⟩ := ih st' out h
      obtain ⟨newSubNode, hfresh, hcat, htyp, hchild, hpairs, hqueue⟩ :=
        phase1Step_ok env target implName refName refNode st a hstep
      have hperm := @phase1Step_perm st st' newSubNode refName hchild
      have hnperm : st'.1.childNames.Perm (newSubNode.name :: st.1.childNames) := by
        show (st'.1.children.map Child.name).Perm _
        have hp := hperm.map Child.name
        simpa using hp
      have hnotmem : newSubNode.name ∉ st.1.childNames := by
        rw [hfresh]
        exact freshName_not_mem _ _
      have hsub : ∀ s ∈ st.1.childNames, s ∈ st'.1.childNames := by
        intro s hs
        exact hnperm.mem_iff.mpr (List.mem_cons_of_mem _ hs)
      refine ⟨?_, ?_, ?_, ?_⟩
      · intro c hc
        exact I1 c (hperm.mem_iff.mpr (List.mem_cons_of_mem _ hc))
      · intro s hs
        exact I2 s (hsub s hs)
      · intro s hs
        rw [I3 s (hsub s hs)]
        show st'.1.getNode s = st.1.getNode s
        have hne : newSubNode.name ≠ s := fun heq => hnotmem (heq ▸ hs)
        show st'.1.children.findSome? _ = st.1.children.findSome? _
        rw [hchild]
        apply mx_findSome?_insertIdx
        show (if newSubNode.name = s then some newSubNode else none) = none
        rw [if_neg hne]
      · refine ⟨(a.name, newSubNode.name) :: pairs', ?_, ?_, ?_⟩
        · rw [hmap', hpairs, List.append_assoc]
          rfl
        · rw [List.map_cons, hfst']
          rfl
        · intro e he
          rcases List.mem_cons.mp he with rfl | hmem
          · refine ⟨hnotmem, newSubNode, rfl, ?_, a, List.mem_cons_self a t, rfl, hcat, htyp⟩
            exact I1 _ (hperm.mem_iff.mpr (List.mem_cons_self _ _))
          · obtain ⟨hnm, cnode, hcn, hcmem, m, hm, he1, hcc, hct⟩ := hmem' e hmem
            refine ⟨fun hsm => hnm (hsub _ hsm), cnode, hcn, hcmem, m,
              List.mem_cons_of_mem a hm, he1, hcc, hct⟩

/-- The owner of an input address found by the downstream scan is a child
of the scanned graph. -/
theorem preaddr_owner_mem {g : NodeGraph} {refNode : Node} {pr : PortRef}
    (hpr : pr ∈ (downstreamPortsFull g refNode).map Prod.fst) :
    ∀ cn pn, pr = PortRef.nodeInput cn pn → cn ∈ g.childNames := by
  intro cn pn heq
  subst heq
  obtain ⟨e, he, hfst⟩ := List.mem_map.mp hpr
  obtain ⟨c, hc, hec⟩ := mem_downstream_cases g.children he
  cases c with
  | node p =>
    simp only [dsEntries] at hec
    obtain ⟨v, hv, hve⟩ := List.mem_map.mp hec
    rw [← hve] at hfst
    have hpn : p.name = cn := (PortRef.nodeInput.inj hfst).1
    rw [← hpn]
    exact List.mem_map_of_mem _ hc
  | output o =>
    simp only [dsEntries] at hec
    by_cases ho : o.nodeName = some refNode.name ∧ o.getConnectedNode g = some refNode
    · rw [if_pos ho] at hec
      have heq2 : e = (PortRef.graphOutput o.name, Child.output o) :=
        List.mem_singleton.mp hec
      subst heq2
      simp at hfst
    · rw [if_neg ho] at hec
      exact absurd hec (List.not_mem_nil e)

/-- An input-entry rewiring step keeps stage A: only a copy is touched. -/
theorem processOrigPort_stageA {g : NodeGraph} {refName : String} {refNode : Node}
    {G : NodeGraph} {subMap : List (String × String)} {nn : String} {pr : PortRef}
    (hcopies : ∀ e ∈ subMap, e.2 ∉ g.childNames)
    (hrefg : refName ∈ g.childNames)
    (hinp : ∀ onm, pr ≠ PortRef.graphOutput onm)
    (hA : StageA g refName refNode G) :
    StageA g refName refNode (processOrigPort G subMap refName nn pr) := by
  obtain ⟨hd, hgr, hold⟩ := hA
  cases pr with
  | graphOutput onm => exact absurd rfl (hinp onm)
  | nodeInput co pn =>
    show StageA _ _ _ (match subMap.find? (fun (e : String × String) => decide (e.1 = co)) with
      | some e => G.updateNode e.2 fun n => n.setConnectedNode pn (G.getNode nn)
      | none => G)
    cases hf : subMap.find? (fun (e : String × String) => decide (e.1 = co)) with
    | none => exact ⟨hd, hgr, hold⟩
    | some e =>
      have hemem : e ∈ subMap := List.mem_of_find?_eq_some hf
      have hecopy : e.2 ∉ g.childNames := hcopies e hemem
      have hfn : ∀ n : Node,
          ((fun (m : Node) => m.setConnectedNode pn (G.getNode nn)) n).name = n.name :=
        fun n => (setConnectedNode_skel n pn _).1
      refine ⟨?_, ?_, ?_⟩
      · have hsig := updateNode_sig G e.2
          (fun (m : Node) => m.setConnectedNode pn (G.getNode nn))
          (fun n => setConnectedNode_skel n pn (G.getNode nn))
        rw [sig_map_childNames hsig]
        exact hd
      · rw [getNode_updateNode_ne hfn
          (show refName ≠ e.2 from fun heq => hecopy (heq ▸ hrefg))]
        exact hgr
      · intro c hc
        apply mem_updateNode (hold c hc)
        intro n hn heq
        apply hecopy
        rw [← heq]
        rw [hn] at hc
        exact List.mem_map_of_mem _ hc

/-- An input-entry rewiring step keeps stage B: pre-state addresses are
owned by pre-state children, never by copies. -/
theorem processOrigPort_stageB_input {g : NodeGraph} {refName nstar : String}
    {refNode : Node} {G : NodeGraph} {subMap : List (String × String)} {nn : String}
    {pr : PortRef}
    (hcopies : ∀ e ∈ subMap, e.2 ∉ g.childNames)
    (hrefg : refName ∈ g.childNames)
    (hinp : ∀ onm, pr ≠ PortRef.graphOutput onm)
    (hB : StageB g refName refNode nstar G) :
    StageB g refName refNode nstar (processOrigPort G subMap refName nn pr) := by
  obtain ⟨hd, hgr, hlook⟩ := hB
  cases pr with
  | graphOutput onm => exact absurd rfl (hinp onm)
  | nodeInput co pn =>
    show StageB _ _ _ _ (match subMap.find?
        (fun (e : String × String) => decide (e.1 = co)) with
      | some e => G.updateNode e.2 fun n => n.setConnectedNode pn (G.getNode nn)
      | none => G)
    cases hf : subMap.find? (fun (e : String × String) => decide (e.1 = co)) with
    | none => exact ⟨hd, hgr, hlook⟩
    | some e =>
      have hemem : e ∈ subMap := List.mem_of_find?_eq_some hf
      have hecopy : e.2 ∉ g.childNames := hcopies e hemem
      have hfn : ∀ n : Node,
          ((fun (m : Node) => m.setConnectedNode pn (G.getNode nn)) n).name = n.name :=
        fun n => (setConnectedNode_skel n pn _).1
      refine ⟨?_, ?_, ?_⟩
      · have hsig := updateNode_sig G e.2
          (fun (m : Node) => m.setConnectedNode pn (G.getNode nn))
          (fun n => setConnectedNode_skel n pn (G.getNode nn))
        rw [sig_map_childNames hsig]
        exact hd
      · rw [getNode_updateNode_ne hfn
          (show refName ≠ e.2 from fun heq => hecopy (heq ▸ hrefg))]
        exact hgr
      · intro pr' hpr'
        rw [lookup_updateNode_ne hfn]
        · exact hlook pr' hpr'
        · intro cn pn' heq hcn
          exact hecopy (hcn ▸ preaddr_owner_mem hpr' cn pn' heq)

/-- Processing an output entry of the producer from stage A redirects every
pre-state downstream address of the reference node to `nstar`. -/
theorem processOrigPort_out_AtoB {g : NodeGraph} {refName nstar : String}
    {refNode : Node} {G : NodeGraph} {subMap : List (String × String)}
    (hget : g.getNode refName = some refNode)
    (hrn : refNode.name = refName)
    (hsl : ∀ v ∈ refNode.ports, v.nodeName ≠ some refNode.name)
    (hA : StageA g refName refNode G) (onm : String) :
    StageB g refName refNode nstar
      (processOrigPort G subMap refName nstar (PortRef.graphOutput onm)) := by
  obtain ⟨hd, hgr, hold⟩ := hA
  have hform : processOrigPort G subMap refName nstar (PortRef.graphOutput onm) =
      ((downstreamPortsFull G refNode).map Prod.fst).foldl
        (fun gg pr2 => redirectPort gg pr2 nstar) G := by
    simp only [processOrigPort, hgr]
  rw [hform]
  have hvalid : ∀ pr ∈ (downstreamPortsFull G refNode).map Prod.fst, ValidAddr G pr :=
    fun pr hpr => valid_of_mem_dsfull hd hpr
  obtain ⟨F1, F2, F3⟩ :=
    redirect_fold_lookup nstar ((downstreamPortsFull G refNode).map Prod.fst) G hvalid
  have hrefmem : Child.node refNode ∈ G.children := getNode_mem hgr
  have hnoself : ∀ pn, PortRef.nodeInput refNode.name pn ∉
      (downstreamPortsFull G refNode).map Prod.fst :=
    no_selfloop_addr hd hrefmem hsl
  refine ⟨?_, ?_, ?_⟩
  · have hsig := redirect_fold_sig nstar ((downstreamPortsFull G refNode).map Prod.fst) G
    rw [sig_map_childNames hsig]
    exact hd
  · rw [F3 refName (by rw [← hrn]; exact hnoself)]
    exact hgr
  · intro pr hpr
    apply F1
    obtain ⟨e, he, hfst⟩ := List.mem_map.mp hpr
    obtain ⟨c, hc, hec⟩ := mem_downstream_cases g.children he
    have hcongr : dsEntries G refNode c = dsEntries g refNode c :=
      dsEntries_congr (by rw [hrn, hgr, hget]) c
    have heG : e ∈ dsEntries G refNode c := by
      rw [hcongr]
      exact hec
    have hmem2 : e ∈ downstreamPortsFull G refNode := mem_dsfull_of_child (hold c hc) heG
    rw [← hfst]
    exact List.mem_map_of_mem _ hmem2

/-- Processing a further output entry of the producer keeps stage B: all
redirections target the same copy. -/
theorem processOrigPort_stageB_out {g : NodeGraph} {refName nstar : String}
    {refNode : Node} {G : NodeGraph} {subMap : List (String × String)}
    (hrn : refNode.name = refName)
    (hsl : ∀ v ∈ refNode.ports, v.nodeName ≠ some refNode.name)
    (hB : StageB g refName refNode nstar G) (onm : String) :
    StageB g refName refNode nstar
      (processOrigPort G subMap refName nstar (PortRef.graphOutput onm)) := by
  obtain ⟨hd, hgr, hlook⟩ := hB
  have hform : processOrigPort G subMap refName nstar (PortRef.graphOutput onm) =
      ((downstreamPortsFull G refNode).map Prod.fst).foldl
        (fun gg pr2 => redirectPort gg pr2 nstar) G := by
    simp only [processOrigPort, hgr]
  rw [hform]
  have hvalid : ∀ pr ∈ (downstreamPortsFull G refNode).map Prod.fst, ValidAddr G pr :=
    fun pr hpr => valid_of_mem_dsfull hd hpr
  obtain ⟨F1, F2, F3⟩ :=
    redirect_fold_lookup nstar ((downstreamPortsFull G refNode).map Prod.fst) G hvalid
  have hrefmem : Child.node refNode ∈ G.children := getNode_mem hgr
  have hnoself : ∀ pn, PortRef.nodeInput refNode.name pn ∉
      (downstreamPortsFull G refNode).map Prod.fst :=
    no_selfloop_addr hd hrefmem hsl
  refine ⟨?_, ?_, ?_⟩
  · have hsig := redirect_fold_sig nstar ((downstreamPortsFull G refNode).map Prod.fst) G
    rw [sig_map_childNames hsig]
    exact hd
  · rw [F3 refName (by rw [← hrn]; exact hnoself)]
    exact hgr
  · intro pr hpr
    exact F2 pr (hlook pr hpr)

/-- A run of input-only entries keeps stage A. -/
theorem fold_entries_stageA {g : NodeGraph} {refName : String} {refNode : Node}
    {subMap : List (String × String)} {nn : String}
    (hcopies : ∀ e ∈ subMap, e.2 ∉ g.childNames) (hrefg : refName ∈ g.childNames) :
    ∀ (L : List PortRef) (G : NodeGraph),
      (∀ onm, PortRef.graphOutput onm ∉ L) →
      StageA g refName refNode G →
      StageA g refName refNode
        (L.foldl (fun gg pr => processOrigPort gg subMap refName nn pr) G)
  | [], _, _, hA => hA
  | pr :: t, G, hno, hA => by
    rw [List.foldl_cons]
    apply fold_entries_stageA hcopies hrefg t _
      (fun onm ho => hno onm (List.mem_cons_of_mem pr ho))
    apply processOrigPort_stageA hcopies hrefg
    · intro onm heq
      exact hno onm (heq ▸ List.mem_cons_self pr t)
    · exact hA

/-- Any run of the producer's entries keeps stage B. -/
theorem fold_entries_stageB {g : NodeGraph} {refName nstar : String} {refNode : Node}
    {subMap : List (String × String)}
    (hcopies : ∀ e ∈ subMap, e.2 ∉ g.childNames) (hrefg : refName ∈ g.childNames)
    (hrn : refNode.name = refName)
    (hsl : ∀ v ∈ refNode.ports, v.nodeName ≠ some refNode.name) :
    ∀ (L : List PortRef) (G : NodeGraph),
      StageB g refName refNode nstar G →
      StageB g refName refNode nstar
        (L.foldl (fun gg pr => processOrigPort gg subMap refName nstar pr) G)
  | [], _, hB => hB
  | pr :: t, G, hB => by
    rw [List.foldl_cons]
    apply fold_entries_stageB hcopies hrefg hrn hsl t
    cases pr with
    | nodeInput co pn =>
      exact processOrigPort_stageB_input hcopies hrefg
        (fun onm h => PortRef.noConfusion h) hB
    | graphOutput onm => exact processOrigPort_stageB_out hrn hsl hB onm

/-- A run of input-only entries keeps stage B for any rewiring target. -/
theorem fold_entries_stageB_noout {g : NodeGraph} {refName nstar : String}
    {refNode : Node} {subMap : List (String × String)} {nn : String}
    (hcopies : ∀ e ∈ subMap, e.2 ∉ g.childNames) (hrefg : refName ∈ g.childNames) :
    ∀ (L : List PortRef) (G : NodeGraph),
      (∀ onm, PortRef.graphOutput onm ∉ L) →
      StageB g refName refNode nstar G →
      StageB g refName refNode nstar
        (L.foldl (fun gg pr => processOrigPort gg subMap refName nn pr) G)
  | [], _, _, hB => hB
  | pr :: t, G, hno, hB => by
    rw [List.foldl_cons]
    apply fold_entries_stageB_noout hcopies hrefg t _
      (fun onm ho => hno onm (List.mem_cons_of_mem pr ho))
    apply processOrigPort_stageB_input hcopies hrefg
    · intro onm heq
      exact hno onm (heq ▸ List.mem_cons_self pr t)
    · exact hB

/-- Running the producer's entries from stage A, with at least one output
entry among them, lands in stage B. -/
theorem fold_entries_AtoB {g : NodeGraph} {refName nstar : String} {refNode : Node}
    {subMap : List (String × String)}
    (hcopies : ∀ e ∈ subMap, e.2 ∉ g.childNames) (hrefg : refName ∈ g.childNames)
    (hget : g.getNode refName = some refNode)
    (hrn : refNode.name = refName)
    (hsl : ∀ v ∈ refNode.ports, v.nodeName ≠ some refNode.name) :
    ∀ (L : List PortRef) (G : NodeGraph),
      StageA g refName refNode G →
      (∃ onm, PortRef.graphOutput onm ∈ L) →
      StageB g refName refNode nstar
        (L.foldl (fun gg pr => processOrigPort gg subMap refName nstar pr) G)
  | [], _, _, hw => by
    obtain ⟨onm, ho⟩ := hw
    exact absurd ho (List.not_mem_nil _)
  | pr :: t, G, hA, hw => by
    rw [List.foldl_cons]
    cases pr with
    | graphOutput onm2 =>
      apply fold_entries_stageB hcopies hrefg hrn hsl t
      exact processOrigPort_out_AtoB hget hrn hsl hA onm2
    | nodeInput co pn =>
      apply fold_entries_AtoB hcopies hrefg hget hrn hsl t
      · exact processOrigPort_stageA hcopies hrefg
          (fun onm3 h => PortRef.noConfusion h) hA
      · obtain ⟨onm, ho⟩ := hw
        rcases List.mem_cons.mp ho with heq | hmem
        · exact absurd heq (by simp)
        · exact ⟨onm, hmem⟩

/-- Rewiring a pair with no output entries keeps stage A. -/
theorem processPair_stageA {g subG : NodeGraph} {refName : String} {refNode : Node}
    {subMap : List (String × String)}
    (hcopies : ∀ e ∈ subMap, e.2 ∉ g.childNames) (hrefg : refName ∈ g.childNames)
    {G : NodeGraph} {pair : String × String}
    (hno : ∀ orig, subG.getNode pair.1 = some orig →
      ∀ onm, PortRef.graphOutput onm ∉ (downstreamPortsFull subG orig).map Prod.fst)
    (hA : StageA g refName refNode G) :
    StageA g refName refNode (processPair subG subMap refName G pair) := by
  unfold processPair
  cases ho : subG.getNode pair.1 with
  | none => exact hA
  | some orig => exact fold_entries_stageA hcopies hrefg _ G (hno orig ho) hA

/-- Rewiring a pair with no output entries keeps stage B. -/
theorem processPair_stageB {g subG : NodeGraph} {refName nstar : String} {refNode : Node}
    {subMap : List (String × String)}
    (hcopies : ∀ e ∈ subMap, e.2 ∉ g.childNames) (hrefg : refName ∈ g.childNames)
    {G : NodeGraph} {pair : String × String}
    (hno : ∀ orig, subG.getNode pair.1 = some orig →
      ∀ onm, PortRef.graphOutput onm ∉ (downstreamPortsFull subG orig).map Prod.fst)
    (hB : StageB g refName refNode nstar G) :
    StageB g refName refNode nstar (processPair subG subMap refName G pair) := by
  unfold processPair
  cases ho : subG.getNode pair.1 with
  | none => exact hB
  | some orig => exact fold_entries_stageB_noout hcopies hrefg _ G (hno orig ho) hB

/-- Folding pairs with no output entries keeps stage A. -/
theorem pairs_fold_stageA {g subG : NodeGraph} {refName : String} {refNode : Node}
    {subMap : List (String × String)}
    (hcopies : ∀ e ∈ subMap, e.2 ∉ g.childNames) (hrefg : refName ∈ g.childNames) :
    ∀ (ps : List (String × String)) (G : NodeGraph),
      (∀ pair ∈ ps, ∀ orig, subG.getNode pair.1 = some orig →
        ∀ onm, PortRef.graphOutput onm ∉ (downstreamPortsFull subG orig).map Prod.fst) →
      StageA g refName refNode G →
      StageA g refName refNode (ps.foldl (processPair subG subMap refName) G)
  | [], _, _, hA => hA
  | pair :: t, G, hno, hA => by
    rw [List.foldl_cons]
    apply pairs_fold_stageA hcopies hrefg t _
      (fun p hp => hno p (List.mem_cons_of_mem pair hp))
    exact processPair_stageA hcopies hrefg (hno pair (List.mem_cons_self pair t)) hA

/-- Folding pairs with no output entries keeps stage B. -/
theorem pairs_fold_stageB {g subG : NodeGraph} {refName nstar : String} {refNode : Node}
    {subMap : List (String × String)}
    (hcopies : ∀ e ∈ subMap, e.2 ∉ g.childNames) (hrefg : refName ∈ g.childNames) :
    ∀ (ps : List (String × String)) (G : NodeGraph),
      (∀ pair ∈ ps, ∀ orig, subG.getNode pair.1 = some orig →
        ∀ onm, PortRef.graphOutput onm ∉ (downstreamPortsFull subG orig).map Prod.fst) →
      StageB g refName refNode nstar G →
      StageB g refName refNode nstar (ps.foldl (processPair subG subMap refName) G)
  | [], _, _, hB => hB
  | pair :: t, G, hno, hB => by
    rw [List.foldl_cons]
    apply pairs_fold_stageB hcopies hrefg t _
      (fun p hp => hno p (List.mem_cons_of_mem pair hp))
    exact processPair_stageB hcopies hrefg (hno pair (List.mem_cons_self pair t)) hB

/-- **C5.**  One flattening expansion of a subgraph-backed reference node,
on a well-formed graph (distinct child names, no self-loop on the
reference node) whose implementation subgraph has distinct child names and
a unique output-producing subnode, leaves every pre-state downstream port
of the reference node connected to the copy of that producer; the copy is
present in the result with the producer's category and type. -/
theorem flattenStep_external_connectivity
    {env : Env} {target : String} {g : NodeGraph} {refName : String} {refNode : Node}
    {subG : NodeGraph} {nd : String} {tg : Option String} {ostar : Node}
    {g' : NodeGraph} {newQ : List String}
    (hd : g.childNames.Nodup)
    (hget : g.getNode refName = some refNode)
    (himp : getImplementation env refNode target = some (ImplElem.graph subG nd tg))
    (hsubd : subG.childNames.Nodup)
    (hsl : ∀ v ∈ refNode.ports, v.nodeName ≠ some refNode.name)
    (hostar : Child.node ostar ∈ subG.children)
    (hout : ∃ onm, PortRef.graphOutput onm ∈ (downstreamPortsFull subG ostar).map Prod.fst)
    (huniq : ∀ m ∈ subG.getNodes, m.name ≠ ostar.name →
      ∀ onm, PortRef.graphOutput onm ∉ (downstreamPortsFull subG m).map Prod.fst)
    (hok : flattenStep env target g refName = Except.ok (g', newQ)) :
    ∃ nstar : String,
      (∀ pr ∈ (downstreamPortsFull g refNode).map Prod.fst,
        lookupPortConn g' pr = some nstar) ∧
      ∃ nstarNode : Node, g'.getNode nstar = some nstarNode ∧
        nstarNode.category = ostar.category ∧ nstarNode.type = ostar.type := by
  have hrn : refNode.name = refName := getNode_name hget
  have hrefg : refName ∈ g.childNames := by
    rw [← hrn]
    exact List.mem_map_of_mem _ (getNode_mem hget)
  rw [show flattenStep env target g refName =
      (match phase1 env target subG.name refName refNode subG.getNodes g with
        | .error e => .error e
        | .ok (g1, subMap, nq) => .ok ((phase2 subG subMap refName g1).removeNode refName, nq))
      by simp only [flattenStep, hget, himp]] at hok
  cases hp1 : phase1 env target subG.name refName refNode subG.getNodes g with
  | error e =>
    rw [hp1] at hok
    exact absurd hok (by simp)
  | ok trip =>
    obtain ⟨g1, subMap, nq⟩ := trip
    rw [hp1] at hok
    have hg' : (phase2 subG subMap refName g1).removeNode refName = g' :=
      congrArg Prod.fst (Except.ok.inj hok)
    obtain ⟨S1, S2, S3, pairs, hpairs0, hfst, hmem⟩ :=
      phase1_fold_spec2 env target subG.name refName refNode subG.getNodes
        (g, [], []) (g1, subMap, nq) hp1
    have hsm : subMap = pairs := by simpa using hpairs0
    subst hsm
    obtain ⟨-, -, P3, -⟩ :=
      phase1_fold_spec env target subG.name refName refNode subG.getNodes
        (g, [], []) (g1, subMap, nq) hp1
    have hd1 : g1.childNames.Nodup := P3 hd
    have hgr1 : g1.getNode refName = some refNode := by
      rw [S3 refName hrefg]
      exact hget
    have hA1 : StageA g refName refNode g1 := ⟨hd1, hgr1, S1⟩
    have hcopies : ∀ e ∈ subMap, e.2 ∉ g.childNames := fun e he => (hmem e he).1
    have hodn : ostar ∈ subG.getNodes := mem_getNodes.mpr hostar
    have honames : ostar.name ∈ subMap.map Prod.fst := by
      rw [hfst]
      exact List.mem_map_of_mem _ hodn
    obtain ⟨pstar, hpmem, hpfst⟩ := List.mem_map.mp honames
    obtain ⟨m₁, m₂, hsplit⟩ := List.append_of_mem hpmem
    have hfstnodup : (subMap.map Prod.fst).Nodup := by
      rw [hfst]
      exact (getNodes_names_sublist subG).nodup hsubd
    have hmid : pstar.1 ∉ m₁.map Prod.fst ++ m₂.map Prod.fst ∧
        (m₁.map Prod.fst ++ m₂.map Prod.fst).Nodup := by
      rw [hsplit, List.map_append, List.map_cons] at hfstnodup
      exact List.nodup_cons.mp (List.nodup_middle.mp hfstnodup)
    have hnopair : ∀ pair ∈ subMap, pair.1 ≠ ostar.name →
        ∀ orig, subG.getNode pair.1 = some orig →
        ∀ onm, PortRef.graphOutput onm ∉ (downstreamPortsFull subG orig).map Prod.fst := by
      intro pair _ hne orig horig onm
      have hmg : orig ∈ subG.getNodes := mem_getNodes.mpr (getNode_mem horig)
      refine huniq orig hmg ?_ onm
      rw [getNode_name horig]
      exact hne
    have hm1no : ∀ pair ∈ m₁, ∀ orig, subG.getNode pair.1 = some orig →
        ∀ onm, PortRef.graphOutput onm ∉ (downstreamPortsFull subG orig).map Prod.fst := by
      intro pair hp orig horig onm
      refine hnopair pair ?_ ?_ orig horig onm
      · rw [hsplit]
        exact List.mem_append_left _ hp
      · intro hfeq
        apply hmid.1
        apply List.mem_append_left
        have hpp : pair.1 = pstar.1 := hfeq.trans hpfst.symm
        rw [← hpp]
        exact List.mem_map_of_mem _ hp
    have hm2no : ∀ pair ∈ m₂, ∀ orig, subG.getNode pair.1 = some orig →
        ∀ onm, PortRef.graphOutput onm ∉ (downstreamPortsFull subG orig).map Prod.fst := by
      intro pair hp orig horig onm
      refine hnopair pair ?_ ?_ orig horig onm
      · rw [hsplit]
        exact List.mem_append_right _ (List.mem_cons_of_mem _ hp)
      · intro hfeq
        apply hmid.1
        apply List.mem_append_right
        have hpp : pair.1 = pstar.1 := hfeq.trans hpfst.symm
        rw [← hpp]
        exact List.mem_map_of_mem _ hp
    have hAm1 : StageA g refName refNode (m₁.foldl (processPair subG subMap refName) g1) :=
      pairs_fold_stageA hcopies hrefg m₁ g1 hm1no hA1
    have hBstar : StageB g refName refNode pstar.2
        (processPair subG subMap refName
          (m₁.foldl (processPair subG subMap refName) g1) pstar) := by
      unfold processPair
      rw [hpfst, getNode_self hsubd hostar]
      exact fold_entries_AtoB hcopies hrefg hget hrn hsl _ _ hAm1 hout
    have hB2 : StageB g refName refNode pstar.2
        (m₂.foldl (processPair subG subMap refName)
          (processPair subG subMap refName
            (m₁.foldl (processPair subG subMap refName) g1) pstar)) :=
      pairs_fold_stageB hcopies hrefg m₂ _ hm2no hBstar
    have hphase2 : phase2 subG subMap refName g1 =
        m₂.foldl (processPair subG subMap refName)
          (processPair subG subMap refName
            (m₁.foldl (processPair subG subMap refName) g1) pstar) := by
      show subMap.foldl (processPair subG subMap refName) g1 = _
      have hlist : subMap.foldl (processPair subG subMap refName) g1 =
          (m₁ ++ pstar :: m₂).foldl (processPair subG subMap refName) g1 := by
        rw [← hsplit]
      rw [hlist, List.foldl_append, List.foldl_cons]
    rw [← hphase2] at hB2
    obtain ⟨hdB, hgrB, hlookB⟩ := hB2
    rw [← hg']
    refine ⟨pstar.2, ?_, ?_⟩
    · intro pr hpr
      rw [lookup_removeNode ?_]
      · exact hlookB pr hpr
      · intro cn pn heq hcnref
        have hni := no_selfloop_addr hd (getNode_mem hget) hsl pn
        apply hni
        rw [hrn, ← hcnref, ← heq]
        exact hpr
    · obtain ⟨hnm2, cnode, hcn, hcmem, m, hmnodes, he1, hcc, hct⟩ := hmem pstar hpmem
      have hmo : m = ostar := by
        have hmn : m.name = ostar.name := he1.symm.trans hpfst
        exact Child.node.inj
          (child_name_inj hsubd (mem_getNodes.mp hmnodes) hostar hmn)
      subst hmo
      have hsig2 := phase2_sig subG subMap refName g1
      have hsigmem : Child.sig (Child.node cnode) ∈
          (phase2 subG subMap refName g1).children.map Child.sig := by
        rw [hsig2]
        exact List.mem_map_of_mem _ hcmem
      obtain ⟨c2, hc2mem, hc2sig⟩ := List.mem_map.mp hsigmem
      obtain ⟨m2, rfl, hm2n, hm2c, hm2t⟩ := sig_node_eq hc2sig
      have hne2 : m2.name ≠ refName := by
        rw [hm2n, hcn]
        exact fun h => hnm2 (h ▸ hrefg)
      have hmemg' : Child.node m2 ∈
          ((phase2 subG subMap refName g1).removeNode refName).children := by
        apply mem_removeNode.mpr
        refine ⟨hc2mem, ?_⟩
        intro n hn
        rw [Child.node.inj hn] at hne2
        exact hne2
      have hd' : ((phase2 subG subMap refName g1).removeNode refName).childNames.Nodup := by
        apply (removeNode_childNames_sublist _ _).nodup
        rw [sig_map_childNames hsig2]
        exact hd1
      refine ⟨m2, ?_, ?_, ?_⟩
      · have hgm := getNode_self hd' hmemg'
        rw [show m2.name = pstar.2 from hm2n.trans hcn] at hgm
        exact hgm
      · rw [hm2c, hcc]
      · rw [hm2t, hct]

/-- Witness for C5: expanding the reference node `R` of `exGraphF` leaves
the consumer input `C.cin` and the graph output `O` connected to the copy
of the producer `g2`. -/
theorem flattenStep_external_connectivity_witness :
    exGraphF.childNames.Nodup ∧
    exGraphF.getNode "R" = some exNodeR ∧
    getImplementation exEnvF exNodeR "t" = some (ImplElem.graph exSubG "ND" (some "t")) ∧
    exSubG.childNames.Nodup ∧
    (∀ v ∈ exNodeR.ports, v.nodeName ≠ some exNodeR.name) ∧
    Child.node exSubN2 ∈ exSubG.children ∧
    (∃ onm, PortRef.graphOutput onm ∈ (downstreamPortsFull exSubG exSubN2).map Prod.fst) ∧
    (∀ m ∈ exSubG.getNodes, m.name ≠ exSubN2.name →
      ∀ onm, PortRef.graphOutput onm ∉ (downstreamPortsFull exSubG m).map Prod.fst) ∧
    flattenStep exEnvF "t" exGraphF "R" = Except.ok (exFlatRes, []) ∧
    ∃ nstar : String,
      (∀ pr ∈ (downstreamPortsFull exGraphF exNodeR).map Prod.fst,
        lookupPortConn exFlatRes pr = some nstar) ∧
      ∃ nstarNode : Node, exFlatRes.getNode nstar = some nstarNode ∧
        nstarNode.category = exSubN2.category ∧ nstarNode.type = exSubN2.type := by
  have hok : flattenStep exEnvF "t" exGraphF "R" = Except.ok (exFlatRes, []) := rfl
  have huniqw : ∀ m ∈ exSubG.getNodes, m.name ≠ exSubN2.name →
      ∀ onm, PortRef.graphOutput onm ∉ (downstreamPortsFull exSubG m).map Prod.fst := by
    intro m hm hne onm hmem
    have hgl : exSubG.getNodes = [exSubN1, exSubN2] := rfl
    rw [hgl] at hm
    rcases List.mem_cons.mp hm with rfl | hm2
    · have hds : (downstreamPortsFull exSubG exSubN1).map Prod.fst =
          [PortRef.nodeInput "g2" "in"] := rfl
      rw [hds] at hmem
      exact PortRef.noConfusion (List.mem_singleton.mp hmem)
    · rcases List.mem_cons.mp hm2 with rfl | hm3
      · exact hne rfl
      · exact absurd hm3 (List.not_mem_nil m)
  have himpw : getImplementation exEnvF exNodeR "t" =
      some (ImplElem.graph exSubG "ND" (some "t")) := by decide
  exact ⟨by decide, by decide, himpw, by decide, by decide, by decide,
    ⟨"out", by decide⟩, huniqw, hok,
    flattenStep_external_connectivity (by decide) (by decide) himpw (by decide)
      (by decide) (by decide) ⟨"out", by decide⟩ huniqw hok⟩

end MaterialX
